import Mathlib

/-!
# TPC-H Query 5 (`tpch-query5-cpp`): a shallow embedding of `src/query5.cpp`

Conventions of the embedding.

* `int` keys are `Int`; the program only compares and copies them.
* `std::string` is `String`.  `std::string` compares bytewise (as unsigned char),
  `String` compares by code point; on UTF-8 text the two orders coincide.
* `double` and what the program does with it (the constants `0.0` and `1.0`,
  `+`, `-`, `*` and the comparison `>`) are parameters of the embedding, the
  class `DoubleOps`.  No law is assumed of them, so every theorem stated for an
  arbitrary `D` holds for IEEE 754 binary64 with its rounding, its infinities
  and its NaN.  `Binary64` is that arithmetic, every operation rounded on its
  own to nearest with ties to even (no fused multiply-add, no extended
  precision); the concrete inputs are evaluated in it.  The rationals are a
  second instance, used only where a claim speaks of exact arithmetic.
* `std::map<K,V>` is the list of its entries in iteration order, that is in
  strictly ascending key order (`StdMap.WF`).  `find`, `operator[]` and the
  range-for loop are functions on that list.
* `std::vector<Lineitem>` is a `List (Lineitem D)`; `lineitem_data[i]` with `i`
  past the end is undefined in C++ and is the fault `Fault.out_of_range` here.
* Worker threads only read the shared tables and only write their own
  `thread_results[i]`, and all are joined before the merge, so the launch loop
  is modelled as running the workers one after the other in index order.
* Running out of memory or of threads is outside the model; the faults that the
  code itself can raise are the constructors of `Fault`.
* The index arithmetic of `executeQuery5` is done in `Nat`: for a positive
  worker count every product it computes is at most `lineitem_data.size()`
  (`thread_start_le_total`, `thread_end_le_total`), so no `size_t` wraps.
* A table file is the list of its lines, or `none` when it cannot be opened.
  `std::stoi` and `std::stod` are parameters of the parsers, with `none` for a
  thrown exception; `std::getline` on the string stream is modelled with the
  stream's state (`getline`).  A parser's value is whether it returned normally
  together with the state of its container when it returned or threw.
-/

-- Equality of `Except` values is decidable, so that outcomes can be evaluated.
deriving instance DecidableEq for Except

namespace Query5

/-! ## `double` -/

/-- The type `double` with what the program does with it: the value-initialised
`0.0` of `operator[]`, the literal `1.0`, the operators `+` (of `+=`), `-` and
`*`, and the comparison `a > b` of the sort.  Nothing is assumed about them. -/
class DoubleOps (D : Type) extends Zero D, One D, Add D, Sub D, Mul D where
  /-- The comparison `a > b`. -/
  gt : D → D → Bool

/-- The data of IEEE 754 binary64, the `double` of the platforms the program is
built for: NaN, the two infinities, negative zero, and the finite numbers by
their rational value, `fin 0` being `+0.0`.  The operations below return a
finite number only through `Binary64.round`, so only representable ones. -/
inductive Binary64 where
  | nan
  | inf (negative : Bool)
  | neg_zero
  | fin (q : ℚ)
deriving DecidableEq

namespace Binary64

/-- The rational `2 ^ k`. -/
def pow2 (k : Int) : ℚ :=
  if 0 ≤ k then ((2 ^ k.toNat : Nat) : ℚ) else 1 / ((2 ^ (-k).toNat : Nat) : ℚ)

/-- The number of halvings that take `n` below 2, `fuel` bounding their number. -/
def log2_loop : Nat → Nat → Nat
  | 0, _ => 0
  | fuel + 1, n => if n < 2 then 0 else log2_loop fuel (n / 2) + 1

/-- The integer `e` with `2 ^ e <= n < 2 ^ (e + 1)`, for `n >= 1`. -/
def log2 (n : Nat) : Nat :=
  log2_loop n n

/-- The integer `e` with `2 ^ e <= n / d < 2 ^ (e + 1)`, for `n, d >= 1`. -/
def floor_log2 (n d : Nat) : Int :=
  let c : Int := (log2 n : Int) - (log2 d : Int)
  if pow2 c * (d : ℚ) ≤ (n : ℚ) then c else c - 1

/-- The integer nearest to `n / d`, the even one of the two when `n / d` lies
half way between them. -/
def round_half_even (n d : Nat) : Nat :=
  if 2 * (n % d) < d then n / d
  else if d < 2 * (n % d) then n / d + 1
  else if (n / d) % 2 = 0 then n / d else n / d + 1

/-- Rounding of a rational to binary64, to nearest with ties to even: the
result has 53 significant bits, or is a multiple of `2 ^ (-1074)` below
`2 ^ (-1022)`; a magnitude that rounds to `2 ^ 1024` or more becomes an
infinity, and a non-zero negative number that rounds to zero becomes `-0.0`.
This is also the value `std::stod` gives to a decimal numeral. -/
def round (q : ℚ) : Binary64 :=
  if q = 0 then fin 0
  else
    let n : Nat := q.num.natAbs
    let d : Nat := q.den
    let e : Int := (if floor_log2 n d < -1022 then -1022 else floor_log2 n d) - 52
    let m : Nat :=
      if 0 ≤ e then round_half_even n (d * 2 ^ e.toNat)
      else round_half_even (n * 2 ^ (-e).toNat) d
    let r : ℚ := (m : ℚ) * pow2 e
    if pow2 1024 ≤ r then inf (decide (q < 0))
    else if r = 0 then (if q < 0 then neg_zero else fin 0)
    else fin (if q < 0 then -r else r)

/-- The sign bit. -/
def sign : Binary64 → Bool
  | nan => false
  | inf s => s
  | neg_zero => true
  | fin q => decide (q < 0)

/-- Whether the datum is `+0.0` or `-0.0`. -/
def is_zero : Binary64 → Bool
  | neg_zero => true
  | fin q => decide (q = 0)
  | _ => false

/-- The zero with the sign bit `s`. -/
def signed_zero (s : Bool) : Binary64 :=
  if s then neg_zero else fin 0

/-- Unary minus. -/
def neg : Binary64 → Binary64
  | nan => nan
  | inf s => inf (!s)
  | neg_zero => fin 0
  | fin q => if q = 0 then neg_zero else fin (-q)

/-- The sum `x + y`: the exact sum rounded; an exact sum of zero is `+0.0`
unless both operands are `-0.0`; `inf + (-inf)` is NaN. -/
def add : Binary64 → Binary64 → Binary64
  | nan, _ => nan
  | _, nan => nan
  | inf s, inf s' => if s = s' then inf s else nan
  | inf s, _ => inf s
  | _, inf s => inf s
  | neg_zero, y => y
  | x, neg_zero => x
  | fin a, fin b => if a + b = 0 then fin 0 else round (a + b)

/-- The difference `x - y`, that is `x + (-y)`. -/
def sub (x y : Binary64) : Binary64 :=
  add x (neg y)

/-- The product `x * y`: the exact product rounded, a zero taking the sign of
the product; `inf * 0` is NaN. -/
def mul : Binary64 → Binary64 → Binary64
  | nan, _ => nan
  | _, nan => nan
  | inf s, y => if is_zero y then nan else inf (xor s (sign y))
  | x, inf s => if is_zero x then nan else inf (xor (sign x) s)
  | neg_zero, y => signed_zero (!(sign y))
  | x, neg_zero => signed_zero (!(sign x))
  | fin a, fin b =>
    if a * b = 0 then signed_zero (xor (decide (a < 0)) (decide (b < 0))) else round (a * b)

/-- The comparison `x > y`: false when either operand is NaN; the two zeros
compare equal. -/
def gt : Binary64 → Binary64 → Bool
  | nan, _ => false
  | _, nan => false
  | inf s, inf s' => !s && s'
  | inf s, _ => !s
  | _, inf s => s
  | neg_zero, neg_zero => false
  | neg_zero, fin b => decide (0 > b)
  | fin a, neg_zero => decide (a > 0)
  | fin a, fin b => decide (a > b)

/-- The comparison `x >= y`: false when either operand is NaN. -/
def ge : Binary64 → Binary64 → Bool
  | nan, _ => false
  | _, nan => false
  | x, y => !(gt y x)

/-- The rational number that a finite datum stands for (0 for the others). -/
def to_rat : Binary64 → ℚ
  | fin q => q
  | _ => 0

end Binary64

instance : DoubleOps Binary64 where
  zero := Binary64.fin 0
  one := Binary64.fin 1
  add := Binary64.add
  sub := Binary64.sub
  mul := Binary64.mul
  gt := Binary64.gt

/-- A numeral in a position of type `double` is converted to the nearest
binary64. -/
instance (n : Nat) [n.AtLeastTwo] : OfNat Binary64 n :=
  ⟨Binary64.round n⟩

/-- Exact arithmetic: the rationals with their own operations.  It never
rounds, and it is not the program's arithmetic; it is the instance at which a
statement made "in exact arithmetic" is witnessed. -/
instance : DoubleOps ℚ where
  gt := fun a b => decide (a > b)

/-! ## Records (`include/query5.hpp`) -/

structure Region where
  R_REGIONKEY : Int
  R_NAME : String
deriving DecidableEq

structure Nation where
  N_NATIONKEY : Int
  N_NAME : String
  N_REGIONKEY : Int
deriving DecidableEq

structure Customer where
  C_CUSTKEY : Int
  C_NATIONKEY : Int
deriving DecidableEq

structure Supplier where
  S_SUPPKEY : Int
  S_NATIONKEY : Int
deriving DecidableEq

structure Orders where
  O_ORDERKEY : Int
  O_CUSTKEY : Int
  O_ORDERDATE : String
deriving DecidableEq

structure Lineitem (D : Type) where
  L_ORDERKEY : Int
  L_SUPPKEY : Int
  L_EXTENDEDPRICE : D
  L_DISCOUNT : D
deriving DecidableEq

/-! ## `std::map` -/

variable {D : Type} [DoubleOps D]

/-- A `std::map<K,V>`: its entries in iteration (ascending key) order. -/
abbrev StdMap (K V : Type) := List (K × V)

/-- The representation invariant of a `std::map`: keys strictly ascending. -/
def StdMap.WF {K V : Type} [LinearOrder K] (m : StdMap K V) : Prop :=
  List.Pairwise (fun a b => a.1 < b.1) m

/-- The keys of a map, in iteration order. -/
def StdMap.keys {K V : Type} (m : StdMap K V) : List K :=
  List.map Prod.fst m

/-- `m.find(k)`: the value stored under `k`, or `none` for `m.end()`. -/
def StdMap.find {K V : Type} [DecidableEq K] : StdMap K V → K → Option V
  | [], _ => none
  | (k', v) :: rest, k => if k' = k then some v else StdMap.find rest k

/-- `m[k] += x` for a map of doubles: `operator[]` first inserts `k` with the
value-initialised `0.0` when `k` is absent, then `x` is added to the entry. -/
def StdMap.addTo {K : Type} [LinearOrder K] : StdMap K D → K → D → StdMap K D
  | [], k, x => [(k, 0 + x)]
  | (k', v) :: rest, k, x =>
    if k < k' then (k, 0 + x) :: (k', v) :: rest
    else if k = k' then (k', v + x) :: rest
    else (k', v) :: StdMap.addTo rest k x

abbrev RegionMap := StdMap Int Region
abbrev NationMap := StdMap Int Nation
abbrev CustomerMap := StdMap Int Customer
abbrev SupplierMap := StdMap Int Supplier
abbrev OrdersMap := StdMap Int Orders
abbrev LineitemVector (D : Type) := List (Lineitem D)

/-- A `std::map<std::string, double>`: nation name to revenue. -/
abbrev ResultMap (D : Type) := StdMap String D

/-- The six read-only containers that `main` loads and passes by const
reference to `executeQuery5` and on to every worker. -/
structure Tables (D : Type) where
  customer_data : CustomerMap
  orders_data : OrdersMap
  lineitem_data : LineitemVector D
  supplier_data : SupplierMap
  nation_data : NationMap
  region_data : RegionMap

/-- The ways the embedded code can fail to return normally. -/
inductive Fault where
  /-- `total_items / num_threads` with `num_threads == 0`. -/
  | division_by_zero
  /-- `std::vector<...>(num_threads)` with a negative count, which converts to
  a `size_t` above `max_size()` and throws `std::length_error`. -/
  | length_error
  /-- `lineitem_data[i]` with `i >= lineitem_data.size()`. -/
  | out_of_range
deriving DecidableEq

/-! ## `process_lineitem_chunk` (query5.cpp lines 222-293) -/

/-- Lines 237-245: the range-for over `region_data` (ascending key order) that
stops at the first region whose `R_NAME` equals `r_name` and takes the map key
(`pair.first`); `-1` when the loop ends without a match. -/
def find_target_region_key (r_name : String) : RegionMap → Int
  | [] => -1
  | (key, r) :: rest =>
    if r.R_NAME = r_name then key else find_target_region_key r_name rest

/-- Line 261, the condition of the date filter's `continue`:
`O.O_ORDERDATE < start_date || O.O_ORDERDATE >= end_date`. -/
def date_filter_rejects (start_date end_date : String) (O : Orders) : Bool :=
  decide (O.O_ORDERDATE < start_date) || decide (O.O_ORDERDATE ≥ end_date)

/-- Lines 254-290, the body of the main loop for one lineitem `L` up to the
computation of `revenue`: `none` is any of the `continue` statements,
`some (N.N_NAME, revenue)` is reaching line 291. -/
def lineitem_revenue (start_date end_date : String) (t : Tables D)
    (target_region_key : Int) (L : Lineitem D) : Option (String × D) :=
  match StdMap.find t.orders_data L.L_ORDERKEY with
  | none => none
  | some O =>
    if date_filter_rejects start_date end_date O then none
    else
      match StdMap.find t.customer_data O.O_CUSTKEY,
            StdMap.find t.supplier_data L.L_SUPPKEY with
      | some C, some S =>
        if C.C_NATIONKEY ≠ S.S_NATIONKEY then none
        else
          match StdMap.find t.nation_data S.S_NATIONKEY with
          | none => none
          | some N =>
            if N.N_REGIONKEY ≠ target_region_key then none
            else some (N.N_NAME, L.L_EXTENDEDPRICE * (1 - L.L_DISCOUNT))
      | _, _ => none

/-- Lines 252-291: one iteration of the main loop on the local map. -/
def chunk_step (start_date end_date : String) (t : Tables D)
    (target_region_key : Int) (local_results : ResultMap D) (L : Lineitem D) : ResultMap D :=
  match lineitem_revenue start_date end_date t target_region_key L with
  | none => local_results
  | some (name, revenue) => StdMap.addTo local_results name revenue

/-- Lines 250-292: `for (size_t i = start_index; i < end_index; ++i)`, with
`count` the number of iterations still to run (`end_index - i`). -/
def chunk_loop (start_date end_date : String) (t : Tables D) (target_region_key : Int) :
    Nat → Nat → ResultMap D → Except Fault (ResultMap D)
  | 0, _, local_results => .ok local_results
  | count + 1, i, local_results =>
    match t.lineitem_data[i]? with
    | none => .error Fault.out_of_range
    | some L =>
      chunk_loop start_date end_date t target_region_key count (i + 1)
        (chunk_step start_date end_date t target_region_key local_results L)

/-- The worker `process_lineitem_chunk`: the value is the state of
`local_results` when the function returns. -/
def process_lineitem_chunk (r_name start_date end_date : String) (t : Tables D)
    (start_index end_index : Nat) (local_results : ResultMap D) : Except Fault (ResultMap D) :=
  let target_region_key := find_target_region_key r_name t.region_data
  if target_region_key = -1 then .ok local_results
  else
    chunk_loop start_date end_date t target_region_key (end_index - start_index)
      start_index local_results

/-! ## `executeQuery5` (query5.cpp lines 297-359) -/

/-- Line 324: `size_t start = i * chunk_size`. -/
def thread_start (chunk_size i : Nat) : Nat :=
  i * chunk_size

/-- Line 326: `size_t end = (i == num_threads - 1) ? total_items : (i + 1) * chunk_size`. -/
def thread_end (total_items chunk_size num_threads i : Nat) : Nat :=
  if i = num_threads - 1 then total_items else (i + 1) * chunk_size

/-- Lines 352-355: the inner merge loop, `final_results[pair.first] += pair.second`
for every pair of one local map in its iteration order. -/
def merge_local (final_results local_map : ResultMap D) : ResultMap D :=
  List.foldl (fun acc pair => StdMap.addTo acc pair.1 pair.2) final_results local_map

/-- Lines 350-356: the merge loop over `thread_results` in index order. -/
def merge_results (thread_results : List (ResultMap D)) (final_results : ResultMap D) :
    ResultMap D :=
  List.foldl merge_local final_results thread_results

/-- Lines 322-347: launch worker `i` for `i = 0 .. num_threads - 1`, each on its
own empty `thread_results[i]`, and join them all. -/
def run_threads (r_name start_date end_date : String) (t : Tables D)
    (total_items chunk_size num_threads : Nat) : Except Fault (List (ResultMap D)) :=
  List.mapM
    (fun i => process_lineitem_chunk r_name start_date end_date t
      (thread_start chunk_size i) (thread_end total_items chunk_size num_threads i) [])
    (List.range num_threads)

/-- The orchestrator `executeQuery5`: on a normal return the value is the
returned `bool` with the state of `final_results`. -/
def executeQuery5 (r_name start_date end_date : String) (num_threads : Int) (t : Tables D)
    (final_results : ResultMap D) : Except Fault (Bool × ResultMap D) :=
  if t.lineitem_data.isEmpty then .ok (false, final_results)
  else
    let total_items := t.lineitem_data.length
    if num_threads = 0 then .error Fault.division_by_zero
    else if num_threads < 0 then .error Fault.length_error
    else
      let chunk_size := total_items / num_threads.toNat
      match run_threads r_name start_date end_date t total_items chunk_size
          num_threads.toNat with
      | .error e => .error e
      | .ok thread_results => .ok (true, merge_results thread_results final_results)

/-! ## `outputResults` (query5.cpp lines 363-396) -/

/-- The comparator of lines 368-371: `a.second > b.second`. -/
def revenue_desc (a b : String × D) : Bool :=
  DoubleOps.gt a.2 b.2

/-- One insertion of the straight insertion sort: `x` goes in front of the
first element that must not precede it, that is the first `y` for which
`comp y x` is false. -/
def sort_insert {α : Type} (comp : α → α → Bool) (x : α) : List α → List α
  | [] => [x]
  | y :: ys => if comp y x then y :: sort_insert comp x ys else x :: y :: ys

/-- `std::sort(first, last, comp)` is library code.  When `comp` is a strict
weak order on the range, the standard fixes its result up to the order of
elements that `comp` does not separate, and leaves that order open (the sort is
not stable); otherwise the behaviour is undefined.  It is modelled by a straight
insertion sort that consults only `comp`, which is what libstdc++ runs on ranges
of at most 16 elements.  Nothing below depends on the order the model gives to
elements that `comp` does not separate. -/
def std_sort {α : Type} (comp : α → α → Bool) : List α → List α
  | [] => []
  | x :: xs => sort_insert comp x (std_sort comp xs)

/-- Lines 366-371: the vector `sorted_results`, built from the map's entries
in iteration order and sorted with the revenue comparator. -/
def sorted_results (results : ResultMap D) : List (String × D) :=
  std_sort revenue_desc results

/-! ## `parseArgs` (query5.cpp lines 400-462) and `main` (main.cpp) -/

/-- The six variables that `parseArgs` receives by reference. -/
structure Args where
  r_name : String
  start_date : String
  end_date : String
  num_threads : Int
  table_path : String
  result_path : String
deriving DecidableEq

/-- Lines 412-453: the loop over `argv[i]`, here over the arguments still to be
read.  Every branch needs a value after the flag (`i + 1 < argc`), so a last
argument without a value reaches the final `else`.  `stoi` is `std::stoi`, with
`none` for a thrown exception.  The `Bool` is `false` when the loop was left by
`return false`. -/
def parseArgs_loop (stoi : String → Option Int) : List String → Args → Bool × Args
  | [], a => (true, a)
  | [_], a => (false, a)
  | arg :: value :: rest, a =>
    if arg = "--r_name" then parseArgs_loop stoi rest { a with r_name := value }
    else if arg = "--start_date" then parseArgs_loop stoi rest { a with start_date := value }
    else if arg = "--end_date" then parseArgs_loop stoi rest { a with end_date := value }
    else if arg = "--threads" then
      match stoi value with
      | some n => parseArgs_loop stoi rest { a with num_threads := n }
      | none => (false, a)
    else if arg = "--table_path" then parseArgs_loop stoi rest { a with table_path := value }
    else if arg = "--result_path" then parseArgs_loop stoi rest { a with result_path := value }
    else (false, a)

/-- The function `parseArgs`: the returned `bool` and the state of the six
variables on return; `argv` includes the program name `argv[0]`. -/
def parseArgs (stoi : String → Option Int) (argv : List String) (a : Args) : Bool × Args :=
  match parseArgs_loop stoi (argv.drop 1) { a with num_threads := 1 } with
  | (false, a') => (false, a')
  | (true, a') =>
    (!a'.r_name.isEmpty && !a'.start_date.isEmpty && !a'.end_date.isEmpty
      && decide (a'.num_threads > 0) && !a'.table_path.isEmpty && !a'.result_path.isEmpty, a')

/-- The variables as `main` declares them (lines 10-11). -/
def initial_args : Args :=
  ⟨"", "", "", 1, "", ""⟩

/-- The function `main` as a function of the argument vector, its value the
exit status.  The file system is a parameter: `readTPCHData path` is the state
of the six containers after loading, or `none` when `readTPCHData` returns
`false`; `output_ok path` tells whether `outputResults` can open its file. -/
def main (stoi : String → Option Int) (readTPCHData : String → Option (Tables D))
    (output_ok : String → Bool) (argv : List String) : Except Fault Nat :=
  match parseArgs stoi argv initial_args with
  | (false, _) => .ok 1
  | (true, a) =>
    match readTPCHData a.table_path with
    | none => .ok 1
    | some t =>
      match executeQuery5 a.r_name a.start_date a.end_date a.num_threads t [] with
      | .error e => .error e
      | .ok (false, _) => .ok 1
      | .ok (true, _) => if output_ok a.result_path then .ok 0 else .ok 1

/-! ## The specification's side: what the claims speak of -/

/-- The revenue `extended_price * (1 - discount)` of one lineitem. -/
def revenue (f : Lineitem D) : D :=
  f.L_EXTENDEDPRICE * (1 - f.L_DISCOUNT)

/-- The query condition in the words of the specification: the fact `f`
counts for the nation name `n` when its order key resolves to an order placed
in `[start_date, end_date)`, the order's customer and the fact's supplier both
resolve and have the same nation key, and that nation key resolves to a nation
of the region `region_key` whose name is `n`. -/
def q5_accepts (start_date end_date : String) (t : Tables D) (region_key : Int) (n : String)
    (f : Lineitem D) : Prop :=
  ∃ (O : Orders) (C : Customer) (S : Supplier) (N : Nation),
    StdMap.find t.orders_data f.L_ORDERKEY = some O ∧
    start_date ≤ O.O_ORDERDATE ∧ O.O_ORDERDATE < end_date ∧
    StdMap.find t.customer_data O.O_CUSTKEY = some C ∧
    StdMap.find t.supplier_data f.L_SUPPKEY = some S ∧
    C.C_NATIONKEY = S.S_NATIONKEY ∧
    StdMap.find t.nation_data C.C_NATIONKEY = some N ∧
    N.N_REGIONKEY = region_key ∧ N.N_NAME = n

/-- Specification §4.3 steps 1-6 for one fact, in the order the specification
lists them: the nation of an accepted fact, `none` for a rejected one. -/
def spec_accept (start_date end_date : String) (t : Tables D) (target_region_key : Int)
    (f : Lineitem D) : Option Nation :=
  (StdMap.find t.orders_data f.L_ORDERKEY).bind fun order =>
    if ¬ (start_date ≤ order.O_ORDERDATE ∧ order.O_ORDERDATE < end_date) then none
    else
      (StdMap.find t.customer_data order.O_CUSTKEY).bind fun customer =>
        (StdMap.find t.supplier_data f.L_SUPPKEY).bind fun supplier =>
          if ¬ (customer.C_NATIONKEY = supplier.S_NATIONKEY) then none
          else
            (StdMap.find t.nation_data customer.C_NATIONKEY).bind fun nation =>
              if ¬ (nation.N_REGIONKEY = target_region_key) then none else some nation

/-- Specification §4.3 step 7 after steps 1-6: an accepted fact adds its
revenue to `local_aggregate[nation.name]`, the entry being created with 0 when
absent; a rejected fact changes nothing. -/
def spec_step (start_date end_date : String) (t : Tables D) (target_region_key : Int)
    (local_aggregate : ResultMap D) (f : Lineitem D) : ResultMap D :=
  match spec_accept start_date end_date t target_region_key f with
  | none => local_aggregate
  | some nation => StdMap.addTo local_aggregate nation.N_NAME (revenue f)

/-- The value of `s` after `double s = 0.0; for (double x : xs) s += x;`: the
doubles of a list added up from left to right, starting from `0.0`. -/
def double_sum (xs : List D) : D :=
  List.foldl (· + ·) 0 xs

/-- The values that a list of (name, value) pairs carries under the name `n`,
in the order of the list. -/
def values_for (n : String) (cs : List (String × D)) : List D :=
  (cs.filter (fun p => p.1 = n)).map Prod.snd

/-- The lineitems at the indices `lo, lo+1, ..., hi-1` of the vector. -/
def chunk_facts (lineitem_data : LineitemVector D) (lo hi : Nat) : List (Lineitem D) :=
  (lineitem_data.drop lo).take (hi - lo)

/-- The (nation name, revenue) pairs of the accepted lineitems of a list, in
the order of the list. -/
def contributions (start_date end_date : String) (t : Tables D) (target_region_key : Int)
    (facts : List (Lineitem D)) : List (String × D) :=
  facts.filterMap (lineitem_revenue start_date end_date t target_region_key)

/-- The local map worker `i` of `W` builds from an empty map. -/
def thread_local (r_name start_date end_date : String) (t : Tables D) (W i : Nat) : ResultMap D :=
  if find_target_region_key r_name t.region_data = -1 then []
  else merge_local [] (contributions start_date end_date t
    (find_target_region_key r_name t.region_data)
    (chunk_facts t.lineitem_data
      (thread_start (t.lineitem_data.length / W) i)
      (thread_end t.lineitem_data.length (t.lineitem_data.length / W) W i)))

/-! ## Concrete inputs -/

/-- The double that `std::stod` reads from the text `0.10`. -/
def tenth : Binary64 :=
  Binary64.round (1 / 10)

/-- The tables of the specification's concrete scenario (§8). -/
def scenario : Tables Binary64 where
  region_data := [(0, ⟨0, "ASIA"⟩)]
  nation_data := [(0, ⟨0, "INDIA", 0⟩), (1, ⟨1, "CHINA", 0⟩)]
  customer_data := [(100, ⟨100, 0⟩)]
  supplier_data := [(200, ⟨200, 0⟩), (201, ⟨201, 1⟩)]
  orders_data := [(1000, ⟨1000, 100, "2024-03-10"⟩)]
  lineitem_data := [⟨1000, 200, 100, tenth⟩, ⟨1000, 201, 50, 0⟩]

/-- The scenario's tables with the region `ASIA` stored under the key `-1`,
as `region.tbl` line `-1|ASIA|...` loads it, and both nations in that region. -/
def sentinel_scenario : Tables Binary64 where
  region_data := [(-1, ⟨-1, "ASIA"⟩)]
  nation_data := [(0, ⟨0, "INDIA", -1⟩), (1, ⟨1, "CHINA", -1⟩)]
  customer_data := [(100, ⟨100, 0⟩)]
  supplier_data := [(200, ⟨200, 0⟩), (201, ⟨201, 1⟩)]
  orders_data := [(1000, ⟨1000, 100, "2024-03-10"⟩)]
  lineitem_data := [⟨1000, 200, 100, tenth⟩, ⟨1000, 201, 50, 0⟩]

/-- The scenario's tables with no lineitem loaded. -/
def scenario_no_facts : Tables Binary64 where
  region_data := scenario.region_data
  nation_data := scenario.nation_data
  customer_data := scenario.customer_data
  supplier_data := scenario.supplier_data
  orders_data := scenario.orders_data
  lineitem_data := []

/-- The scenario's maps with three facts of the nation INDIA, of extended price
`2^53`, 1 and 1 and discount 0.  Each revenue is computed without rounding, and
the sum of the three, `2^53 + 2`, is itself a binary64 number. -/
def rounding_scenario : Tables Binary64 where
  region_data := scenario.region_data
  nation_data := scenario.nation_data
  customer_data := scenario.customer_data
  supplier_data := scenario.supplier_data
  orders_data := scenario.orders_data
  lineitem_data :=
    [⟨1000, 200, 9007199254740992, 0⟩, ⟨1000, 200, 1, 0⟩, ⟨1000, 200, 1, 0⟩]

/-- The scenario's maps with two facts of the nation INDIA, each of extended
price 1 and discount 0. -/
def unit_scenario : Tables Binary64 where
  region_data := scenario.region_data
  nation_data := scenario.nation_data
  customer_data := scenario.customer_data
  supplier_data := scenario.supplier_data
  orders_data := scenario.orders_data
  lineitem_data := [⟨1000, 200, 1, 0⟩, ⟨1000, 200, 1, 0⟩]

/-- The specification's scenario in exact arithmetic. -/
def exact_scenario : Tables ℚ where
  region_data := scenario.region_data
  nation_data := scenario.nation_data
  customer_data := scenario.customer_data
  supplier_data := scenario.supplier_data
  orders_data := scenario.orders_data
  lineitem_data := [⟨1000, 200, 100, 1 / 10⟩, ⟨1000, 201, 50, 0⟩]

/-! ## Further notions the claims speak of -/

/-- The tables `t` with another lineitem vector and the same five maps. -/
def with_lineitems (t : Tables D) (facts : LineitemVector D) : Tables D where
  customer_data := t.customer_data
  orders_data := t.orders_data
  lineitem_data := facts
  supplier_data := t.supplier_data
  nation_data := t.nation_data
  region_data := t.region_data

/-- A fact with a dangling foreign key: its order key is absent from the orders
map, or its order's customer key is absent from the customer map, or its
supplier key is absent from the supplier map, or the nation key shared by its
customer and supplier is absent from the nation map. -/
def dangling (t : Tables D) (f : Lineitem D) : Prop :=
  StdMap.find t.orders_data f.L_ORDERKEY = none ∨
  (∃ O, StdMap.find t.orders_data f.L_ORDERKEY = some O ∧
    StdMap.find t.customer_data O.O_CUSTKEY = none) ∨
  StdMap.find t.supplier_data f.L_SUPPKEY = none ∨
  (∃ O C S, StdMap.find t.orders_data f.L_ORDERKEY = some O ∧
    StdMap.find t.customer_data O.O_CUSTKEY = some C ∧
    StdMap.find t.supplier_data f.L_SUPPKEY = some S ∧
    C.C_NATIONKEY = S.S_NATIONKEY ∧
    StdMap.find t.nation_data C.C_NATIONKEY = none)

/-- The join/filter steps of the worker taken in another order: after the
order, customer and supplier are resolved, the nation is resolved and the region
filter applied first, then the local-supplier filter, and the date filter last. -/
def lineitem_revenue_reordered (start_date end_date : String) (t : Tables D)
    (target_region_key : Int) (L : Lineitem D) : Option (String × D) :=
  match StdMap.find t.orders_data L.L_ORDERKEY with
  | none => none
  | some O =>
    match StdMap.find t.customer_data O.O_CUSTKEY,
          StdMap.find t.supplier_data L.L_SUPPKEY with
    | some C, some S =>
      match StdMap.find t.nation_data S.S_NATIONKEY with
      | none => none
      | some N =>
        if N.N_REGIONKEY ≠ target_region_key then none
        else if C.C_NATIONKEY ≠ S.S_NATIONKEY then none
        else if date_filter_rejects start_date end_date O then none
        else some (N.N_NAME, L.L_EXTENDEDPRICE * (1 - L.L_DISCOUNT))
    | _, _ => none

/-- One iteration of a worker that applies the steps in the other order. -/
def chunk_step_reordered (start_date end_date : String) (t : Tables D)
    (target_region_key : Int) (local_results : ResultMap D) (L : Lineitem D) : ResultMap D :=
  match lineitem_revenue_reordered start_date end_date t target_region_key L with
  | none => local_results
  | some (name, revenue) => StdMap.addTo local_results name revenue

/-- Tables with two regions named `ASIA`, under the keys 0 and 3: `INDIA` lies
in region 0 and `CHINA` in region 3, each with a customer, a supplier, an order
in the date range and a fact of its own. -/
def twin_region_scenario : Tables Binary64 where
  region_data := [(0, ⟨0, "ASIA"⟩), (3, ⟨3, "ASIA"⟩)]
  nation_data := [(0, ⟨0, "INDIA", 0⟩), (1, ⟨1, "CHINA", 3⟩)]
  customer_data := [(100, ⟨100, 0⟩), (101, ⟨101, 1⟩)]
  supplier_data := [(200, ⟨200, 0⟩), (201, ⟨201, 1⟩)]
  orders_data := [(1000, ⟨1000, 100, "2024-03-10"⟩), (1001, ⟨1001, 101, "2024-03-11"⟩)]
  lineitem_data := [⟨1000, 200, 100, tenth⟩, ⟨1001, 201, 50, 0⟩]

/-! ## Loading: `readFile` and the parsers (query5.cpp lines 30-183) -/

/-- `m[k] = v` on a `std::map`: `operator[]` inserts `k` when it is absent, and
the entry under `k` then receives `v`. -/
def StdMap.assign {K V : Type} [LinearOrder K] : StdMap K V → K → V → StdMap K V
  | [], k, v => [(k, v)]
  | (k', v') :: rest, k, v =>
    if k < k' then (k, v) :: (k', v') :: rest
    else if k = k' then (k', v) :: rest
    else (k', v') :: StdMap.assign rest k v

/-- A `std::stringstream` that is only read: the characters not yet extracted,
or `none` once `eofbit` or `failbit` is set. -/
abbrev Stream := Option (List Char)

/-- The characters before the first `'|'` and, when there is one, the
characters after it. -/
def split_at_bar : List Char → List Char × Option (List Char)
  | [] => ([], none)
  | c :: cs =>
    if c = '|' then ([], some cs)
    else ((c :: (split_at_bar cs).1), (split_at_bar cs).2)

/-- `std::getline(ss, segment, '|')`.  On a stream that is not good the sentry
fails and `segment` keeps its value.  Otherwise `segment` is erased and receives
the characters up to the next `'|'`, which is extracted and dropped; when the
end of the string comes first, `eofbit` is set. -/
def getline (ss : Stream) (segment : String) : Stream × String :=
  match ss with
  | none => (none, segment)
  | some cs => ((split_at_bar cs).2, String.mk (split_at_bar cs).1)

/-- The loops `for (int i = 0; i < n; ++i) std::getline(ss, segment, '|')`. -/
def skip_fields : Nat → Stream → String → Stream × String
  | 0, ss, segment => (ss, segment)
  | n + 1, ss, segment => skip_fields n (getline ss segment).1 (getline ss segment).2

/-- Lines 87-92 of `parseRegion`: the record `r` when line 93 is reached, `none`
when `std::stoi` throws.  `stoi` is `std::stoi`, `none` being a thrown
exception. -/
def parseRegion_record (stoi : String → Option Int) (line : String) : Option Region :=
  let s1 := getline (some line.toList) ""
  match stoi s1.2 with
  | none => none
  | some regionkey =>
    let s2 := getline s1.1 ""
    some ⟨regionkey, s2.2⟩

/-- The function `parseRegion` on the line held by the stream: whether it
returned normally, and the state of `region_data` when it returned or threw. -/
def parseRegion (stoi : String → Option Int) (line : String) (region_data : RegionMap) :
    Bool × RegionMap :=
  match parseRegion_record stoi line with
  | none => (false, region_data)
  | some r => (true, StdMap.assign region_data r.R_REGIONKEY r)

/-- Lines 74-81 of `parseNation`: the record `n` when line 82 is reached. -/
def parseNation_record (stoi : String → Option Int) (line : String) : Option Nation :=
  let s1 := getline (some line.toList) ""
  match stoi s1.2 with
  | none => none
  | some nationkey =>
    let s2 := getline s1.1 ""
    let s3 := getline s2.1 s1.2
    match stoi s3.2 with
    | none => none
    | some regionkey => some ⟨nationkey, s2.2, regionkey⟩

/-- The function `parseNation`. -/
def parseNation (stoi : String → Option Int) (line : String) (nation_data : NationMap) :
    Bool × NationMap :=
  match parseNation_record stoi line with
  | none => (false, nation_data)
  | some n => (true, StdMap.assign nation_data n.N_NATIONKEY n)

/-- Lines 98-113 of `parseCustomer`: the record `c` when line 114 is reached. -/
def parseCustomer_record (stoi : String → Option Int) (line : String) : Option Customer :=
  let s1 := getline (some line.toList) ""
  match stoi s1.2 with
  | none => none
  | some custkey =>
    let s2 := skip_fields 2 s1.1 s1.2
    let s3 := getline s2.1 s2.2
    match stoi s3.2 with
    | none => none
    | some nationkey => some ⟨custkey, nationkey⟩

/-- The function `parseCustomer`. -/
def parseCustomer (stoi : String → Option Int) (line : String)
    (customer_data : CustomerMap) : Bool × CustomerMap :=
  match parseCustomer_record stoi line with
  | none => (false, customer_data)
  | some c => (true, StdMap.assign customer_data c.C_CUSTKEY c)

/-- Lines 119-134 of `parseSupplier`: the record `s` when line 135 is reached. -/
def parseSupplier_record (stoi : String → Option Int) (line : String) : Option Supplier :=
  let s1 := getline (some line.toList) ""
  match stoi s1.2 with
  | none => none
  | some suppkey =>
    let s2 := skip_fields 2 s1.1 s1.2
    let s3 := getline s2.1 s2.2
    match stoi s3.2 with
    | none => none
    | some nationkey => some ⟨suppkey, nationkey⟩

/-- The function `parseSupplier`. -/
def parseSupplier (stoi : String → Option Int) (line : String)
    (supplier_data : SupplierMap) : Bool × SupplierMap :=
  match parseSupplier_record stoi line with
  | none => (false, supplier_data)
  | some s => (true, StdMap.assign supplier_data s.S_SUPPKEY s)

/-- Lines 140-156 of `parseOrders`: the record `o` when line 157 is reached. -/
def parseOrders_record (stoi : String → Option Int) (line : String) : Option Orders :=
  let s1 := getline (some line.toList) ""
  match stoi s1.2 with
  | none => none
  | some orderkey =>
    let s2 := getline s1.1 s1.2
    match stoi s2.2 with
    | none => none
    | some custkey =>
      let s3 := skip_fields 2 s2.1 s2.2
      let s4 := getline s3.1 ""
      some ⟨orderkey, custkey, s4.2⟩

/-- The function `parseOrders`. -/
def parseOrders (stoi : String → Option Int) (line : String) (orders_data : OrdersMap) :
    Bool × OrdersMap :=
  match parseOrders_record stoi line with
  | none => (false, orders_data)
  | some o => (true, StdMap.assign orders_data o.O_ORDERKEY o)

/-- Lines 162-180 of `parseLineitem`: the record `l` when line 182 is reached.
`stod` is `std::stod`, `none` being a thrown exception. -/
def parseLineitem_record (stoi : String → Option Int) (stod : String → Option D)
    (line : String) : Option (Lineitem D) :=
  let s1 := getline (some line.toList) ""
  match stoi s1.2 with
  | none => none
  | some orderkey =>
    let s2 := skip_fields 2 s1.1 s1.2
    match stoi s2.2 with
    | none => none
    | some suppkey =>
      let s3 := skip_fields 3 s2.1 s2.2
      match stod s3.2 with
      | none => none
      | some extendedprice =>
        let s4 := getline s3.1 s3.2
        match stod s4.2 with
        | none => none
        | some discount => some ⟨orderkey, suppkey, extendedprice, discount⟩

/-- The function `parseLineitem`: the record is appended by `push_back`. -/
def parseLineitem (stoi : String → Option Int) (stod : String → Option D) (line : String)
    (lineitem_data : LineitemVector D) : Bool × LineitemVector D :=
  match parseLineitem_record stoi stod line with
  | none => (false, lineitem_data)
  | some l => (true, lineitem_data ++ [l])

/-- Lines 48-52 of `readFile`: one trailing `'|'` is removed. -/
def strip_trailing_bar (line : String) : String :=
  if line.toList.getLast? = some '|' then String.mk line.toList.dropLast else line

/-- Lines 43-65 of `readFile`: the loop over the lines of the file.  An empty
line is skipped; otherwise the parser runs on the stripped line, and after a
normal return as after a caught exception the loop goes on with the container
in the state the parser left it in. -/
def readFile_loop {C : Type} (parser : String → C → Bool × C) : List String → C → C
  | [], container => container
  | line :: rest, container =>
    if line = "" then readFile_loop parser rest container
    else readFile_loop parser rest (parser (strip_trailing_bar line) container).2

/-- The function `readFile`; `file` is the lines of the file at `full_path`, or
`none` when it cannot be opened. -/
def readFile {C : Type} (file : Option (List String)) (container : C)
    (parser : String → C → Bool × C) : Bool × C :=
  match file with
  | none => (false, container)
  | some lines => (true, readFile_loop parser lines container)

/-- Storing the records of a list one after the other, each under its key, in
a map that is empty at the start. -/
def load_records {V : Type} (key : V → Int) (records : List V) : StdMap Int V :=
  List.foldl (fun m r => StdMap.assign m (key r) r) [] records

/-- The lines of a table file that hold the records of a list, one well-formed
and non-empty line for each record, in the same order. -/
def well_formed_lines {V : Type} (record_of : String → Option V) (lines : List String)
    (records : List V) : Prop :=
  List.Forall₂ (fun line r => line ≠ "" ∧ record_of (strip_trailing_bar line) = some r)
    lines records

/-- Last-write-wins for one table: a well-formed line makes the parser store
its record under the record's key and return normally, whatever the map holds;
and loading the well-formed lines of a list of records into an empty map gives
`true` and a well-formed map whose keys are the keys of the records and whose
entry under each key is the last record of the list with that key. -/
def LastWriteWins {V : Type} (parser : String → StdMap Int V → Bool × StdMap Int V)
    (record_of : String → Option V) (key : V → Int) : Prop :=
  (∀ line m r, record_of line = some r → parser line m = (true, StdMap.assign m (key r) r)) ∧
  ∀ lines records, well_formed_lines record_of lines records →
    readFile (some lines) [] parser = (true, load_records key records) ∧
    StdMap.WF (load_records key records) ∧
    (∀ k, k ∈ StdMap.keys (load_records key records) ↔ ∃ r ∈ records, key r = k) ∧
    (∀ k, StdMap.find (load_records key records) k =
      records.reverse.find? (fun r => decide (key r = k)))

/-- A malformed line is skipped atomically by a parser: when the parser throws
it leaves the container as it was; whether it throws depends on the line only;
and `readFile` returns `true` with the container that loading only the lines
that parse gives. -/
def SkipsMalformed {C : Type} (parser : String → C → Bool × C) : Prop :=
  (∀ line c, (parser line c).1 = false → (parser line c).2 = c) ∧
  (∀ line c c', (parser line c).1 = (parser line c').1) ∧
  (∀ lines c c0, readFile (some lines) c parser =
    (true, readFile_loop parser
      (lines.filter (fun l => (parser (strip_trailing_bar l) c0).1)) c))

/-- The six flags that `parseArgs` knows. -/
def known_flags : List String :=
  ["--r_name", "--start_date", "--end_date", "--threads", "--table_path", "--result_path"]

/-- The arguments in flag position: of the arguments after `argv[0]`, the
first, the third, the fifth, and so on, the loop consuming a flag and its value
together. -/
def flag_positions : List String → List String
  | [] => []
  | [arg] => [arg]
  | arg :: _ :: rest => arg :: flag_positions rest

/-- The arguments in flag position that have a value after them, each with
that value. -/
def flag_values : List String → List (String × String)
  | arg :: value :: rest => (arg, value) :: flag_values rest
  | _ => []

/-! ## Deciding the query condition -/

theorem date_filter_rejects_iff (start_date end_date : String) (O : Orders) :
    date_filter_rejects start_date end_date O = true ↔
      (O.O_ORDERDATE < start_date ∨ O.O_ORDERDATE ≥ end_date) := by
  unfold date_filter_rejects
  rw [Bool.or_eq_true, decide_eq_true_iff, decide_eq_true_iff]

theorem date_filter_accepts_iff (start_date end_date : String) (O : Orders) :
    ¬ date_filter_rejects start_date end_date O = true ↔
      (start_date ≤ O.O_ORDERDATE ∧ O.O_ORDERDATE < end_date) := by
  rw [date_filter_rejects_iff, not_or, not_lt, not_le]

theorem lineitem_revenue_eq_some_iff (start_date end_date : String) (t : Tables D) (key : Int)
    (f : Lineitem D) (n : String) (x : D) :
    lineitem_revenue start_date end_date t key f = some (n, x) ↔
      q5_accepts start_date end_date t key n f ∧ x = revenue f := by
  unfold lineitem_revenue q5_accepts revenue
  constructor
  · intro h
    cases hO : StdMap.find t.orders_data f.L_ORDERKEY with
    | none => simp [hO] at h
    | some O =>
      simp only [hO] at h
      by_cases hd : date_filter_rejects start_date end_date O = true
      · rw [if_pos hd] at h
        exact Option.noConfusion h
      · rw [if_neg hd] at h
        cases hC : StdMap.find t.customer_data O.O_CUSTKEY with
        | none => simp [hC] at h
        | some C =>
          cases hS : StdMap.find t.supplier_data f.L_SUPPKEY with
          | none => simp [hC, hS] at h
          | some S =>
            simp only [hC, hS] at h
            by_cases hn : C.C_NATIONKEY ≠ S.S_NATIONKEY
            · simp [hn] at h
            · rw [if_neg hn] at h
              cases hN : StdMap.find t.nation_data S.S_NATIONKEY with
              | none => simp [hN] at h
              | some N =>
                simp only [hN] at h
                by_cases hr : N.N_REGIONKEY ≠ key
                · simp [hr] at h
                · rw [if_neg hr] at h
                  simp only [Option.some.injEq, Prod.mk.injEq] at h
                  have hn' : C.C_NATIONKEY = S.S_NATIONKEY := not_not.mp hn
                  have hd' := (date_filter_accepts_iff start_date end_date O).mp hd
                  refine ⟨⟨O, C, S, N, rfl, hd'.1, hd'.2, hC, rfl, hn',
                    by rw [hn']; exact hN, not_not.mp hr, h.1⟩, h.2.symm⟩
  · rintro ⟨⟨O, C, S, N, hO, hd1, hd2, hC, hS, hn, hN, hr, hname⟩, hx⟩
    have hd : ¬ date_filter_rejects start_date end_date O = true :=
      (date_filter_accepts_iff start_date end_date O).mpr ⟨hd1, hd2⟩
    rw [hn] at hN
    rw [hO]
    simp only []
    rw [if_neg hd]
    simp [hC, hS, hn, hN, hr, hname, hx]

theorem q5_accepts_iff_name (start_date end_date : String) (t : Tables D) (key : Int)
    (n : String) (f : Lineitem D) :
    q5_accepts start_date end_date t key n f ↔
      (lineitem_revenue start_date end_date t key f).map Prod.fst = some n := by
  constructor
  · intro h
    rw [(lineitem_revenue_eq_some_iff start_date end_date t key f n (revenue f)).mpr ⟨h, rfl⟩]
    rfl
  · intro h
    cases hL : lineitem_revenue start_date end_date t key f with
    | none => simp [hL] at h
    | some p =>
      obtain ⟨n', x⟩ := p
      simp only [hL, Option.map_some', Option.some.injEq] at h
      subst h
      exact ((lineitem_revenue_eq_some_iff start_date end_date t key f n' x).mp hL).1

/-- The query condition is decidable: it is decided by running the join/filter
chain of the worker. -/
instance q5_accepts_decidable (start_date end_date : String) (t : Tables D) (key : Int)
    (n : String) (f : Lineitem D) : Decidable (q5_accepts start_date end_date t key n f) :=
  decidable_of_iff _ (q5_accepts_iff_name start_date end_date t key n f).symm

/-- The revenues `extended_price * (1 - discount)` of the facts of a list that
the query accepts for the nation name `n`, in the order of the list. -/
def q5_revenues (start_date end_date : String) (t : Tables D) (region_key : Int) (n : String)
    (facts : List (Lineitem D)) : List D :=
  (facts.filter (fun f => q5_accepts start_date end_date t region_key n f)).map revenue

/-- The lineitems of the range of worker `i` of `W`. -/
def worker_facts (t : Tables D) (W i : Nat) : List (Lineitem D) :=
  chunk_facts t.lineitem_data (thread_start (t.lineitem_data.length / W) i)
    (thread_end t.lineitem_data.length (t.lineitem_data.length / W) W i)

/-- The local totals for the nation name `n`, in worker-index order, of those of
the `W` workers whose range holds a fact accepted for `n`: the total of a
worker is the `double_sum` of the revenues of the accepted facts of its range,
in vector order. -/
def worker_totals (start_date end_date : String) (t : Tables D) (region_key : Int) (W : Nat)
    (n : String) : List D :=
  (List.range W).filterMap (fun i =>
    if (q5_revenues start_date end_date t region_key n (worker_facts t W i)).isEmpty then none
    else some (double_sum (q5_revenues start_date end_date t region_key n (worker_facts t W i))))

/-- The total that the program forms from the groups of a list of doubles: each
non-empty group is added up from `0.0`, and the sums of the groups are added up
from `0.0` in the order of the groups; `none` when every group is empty. -/
def grouped_sum (groups : List (List D)) : Option D :=
  if (groups.filterMap (fun g => if g.isEmpty then none else some (double_sum g))).isEmpty
  then none
  else some (double_sum
    (groups.filterMap (fun g => if g.isEmpty then none else some (double_sum g))))

/-- The sum, as a rational number, of `extended_price * (1 - discount)` over
the facts of a list that the query accepts for the nation name `n`, the fields
being finite binary64 numbers: the sum that no rounding has touched. -/
def exact_revenue (start_date end_date : String) (t : Tables Binary64) (region_key : Int)
    (n : String) (facts : List (Lineitem Binary64)) : ℚ :=
  ((facts.filter (fun f => q5_accepts start_date end_date t region_key n f)).map
    (fun f => f.L_EXTENDEDPRICE.to_rat * (1 - f.L_DISCOUNT.to_rat))).sum

/-- The comparison `>` orders the revenues of a list of entries as a strict weak
order, which is what `std::sort` requires of its comparator: it is irreflexive
and transitive, and being ordered neither way is transitive. -/
def strict_weak_on (l : List (String × D)) : Prop :=
  (∀ a ∈ l, DoubleOps.gt a.2 a.2 = false) ∧
  (∀ a ∈ l, ∀ b ∈ l, ∀ c ∈ l,
    DoubleOps.gt a.2 b.2 = true → DoubleOps.gt b.2 c.2 = true → DoubleOps.gt a.2 c.2 = true) ∧
  (∀ a ∈ l, ∀ b ∈ l, ∀ c ∈ l,
    DoubleOps.gt a.2 b.2 = false → DoubleOps.gt b.2 a.2 = false →
    DoubleOps.gt b.2 c.2 = false → DoubleOps.gt c.2 b.2 = false →
    DoubleOps.gt a.2 c.2 = false ∧ DoubleOps.gt c.2 a.2 = false)

/-! ## Facts about `std::map` -/

theorem StdMap.find_eq_none_iff {K V : Type} [DecidableEq K] (m : StdMap K V) (k : K) :
    StdMap.find m k = none ↔ k ∉ StdMap.keys m := by
  induction m with
  | nil => simp [StdMap.find, StdMap.keys]
  | cons p rest ih =>
    obtain ⟨k', v⟩ := p
    by_cases h : k' = k
    · simp [StdMap.find, StdMap.keys, h]
    · have h' : ¬ k = k' := fun e => h e.symm
      simp only [StdMap.keys] at ih
      simp [StdMap.find, StdMap.keys, h, h', ih]

theorem StdMap.find_isSome_iff {K V : Type} [DecidableEq K] (m : StdMap K V) (k : K) :
    (StdMap.find m k).isSome = true ↔ k ∈ StdMap.keys m := by
  rw [← not_iff_not, ← StdMap.find_eq_none_iff]
  cases StdMap.find m k <;> simp

theorem StdMap.wf_nil {K V : Type} [LinearOrder K] : StdMap.WF ([] : StdMap K V) :=
  List.Pairwise.nil

theorem StdMap.wf_cons_iff {K V : Type} [LinearOrder K] (p : K × V) (m : StdMap K V) :
    StdMap.WF (p :: m) ↔ (∀ k ∈ StdMap.keys m, p.1 < k) ∧ StdMap.WF m := by
  simp [StdMap.WF, StdMap.keys, List.pairwise_cons]

theorem StdMap.not_mem_keys_of_lt {K V : Type} [LinearOrder K] (m : StdMap K V) (k : K)
    (h : ∀ k' ∈ StdMap.keys m, k < k') : k ∉ StdMap.keys m :=
  fun hk => lt_irrefl k (h k hk)

theorem StdMap.mem_keys_addTo {K : Type} [LinearOrder K] (m : StdMap K D) (k : K) (x : D) (k' : K) :
    k' ∈ StdMap.keys (StdMap.addTo m k x) ↔ k' = k ∨ k' ∈ StdMap.keys m := by
  induction m with
  | nil => simp [StdMap.addTo, StdMap.keys]
  | cons p rest ih =>
    obtain ⟨k1, v⟩ := p
    simp only [StdMap.keys] at ih
    by_cases h1 : k < k1
    · simp [StdMap.addTo, StdMap.keys, h1]
    · by_cases h2 : k = k1
      · subst h2
        simp [StdMap.addTo, StdMap.keys]
      · simp only [StdMap.addTo, StdMap.keys, h1, h2, if_false, List.map_cons, List.mem_cons, ih]
        tauto

theorem StdMap.addTo_wf {K : Type} [LinearOrder K] (m : StdMap K D) (k : K) (x : D)
    (h : StdMap.WF m) :
    StdMap.WF (StdMap.addTo m k x) := by
  induction m with
  | nil => simp [StdMap.addTo, StdMap.WF]
  | cons p rest ih =>
    obtain ⟨k1, v⟩ := p
    rw [StdMap.wf_cons_iff] at h
    obtain ⟨hlt, hrest⟩ := h
    by_cases h1 : k < k1
    · simp only [StdMap.addTo, h1, if_true]
      rw [StdMap.wf_cons_iff, StdMap.wf_cons_iff]
      refine ⟨?_, hlt, hrest⟩
      intro k' hk'
      simp only [StdMap.keys, List.map_cons, List.mem_cons] at hk'
      rcases hk' with rfl | hk'
      · exact h1
      · exact lt_trans h1 (hlt k' hk')
    · by_cases h2 : k = k1
      · subst h2
        simp only [StdMap.addTo, h1, if_false, if_true]
        rw [StdMap.wf_cons_iff]
        exact ⟨hlt, hrest⟩
      · simp only [StdMap.addTo, h1, h2, if_false]
        rw [StdMap.wf_cons_iff]
        refine ⟨?_, ih hrest⟩
        intro k' hk'
        rw [StdMap.mem_keys_addTo] at hk'
        rcases hk' with rfl | hk'
        · exact lt_of_le_of_ne (not_lt.mp h1) (fun e => h2 e.symm)
        · exact hlt k' hk'

theorem StdMap.find_addTo {K : Type} [DecidableEq K] [LinearOrder K] (m : StdMap K D) (k : K)
    (x : D) (k' : K) (h : StdMap.WF m) :
    StdMap.find (StdMap.addTo m k x) k' =
      if k' = k then some ((StdMap.find m k).getD 0 + x) else StdMap.find m k' := by
  induction m with
  | nil =>
    by_cases e : k' = k
    · simp [StdMap.addTo, StdMap.find, e]
    · have e' : ¬ k = k' := fun e2 => e e2.symm
      simp [StdMap.addTo, StdMap.find, e, e']
  | cons p rest ih =>
    obtain ⟨k1, v⟩ := p
    rw [StdMap.wf_cons_iff] at h
    obtain ⟨hlt, hrest⟩ := h
    by_cases h1 : k < k1
    · have hne : ¬ k1 = k := fun e => lt_irrefl k (e ▸ h1)
      have hnone : StdMap.find rest k = none := by
        rw [StdMap.find_eq_none_iff]
        exact StdMap.not_mem_keys_of_lt rest k (fun k2 hk2 => lt_trans h1 (hlt k2 hk2))
      by_cases e : k' = k
      · subst e
        simp [StdMap.addTo, StdMap.find, h1, hne, hnone]
      · have e' : ¬ k = k' := fun e2 => e e2.symm
        simp [StdMap.addTo, StdMap.find, h1, e, e']
    · by_cases h2 : k = k1
      · subst h2
        by_cases e : k' = k
        · subst e
          simp [StdMap.addTo, StdMap.find]
        · have e' : ¬ k = k' := fun e2 => e e2.symm
          simp [StdMap.addTo, StdMap.find, e, e']
      · have h2' : ¬ k1 = k := fun e => h2 e.symm
        simp only [StdMap.addTo, h1, h2, if_false, StdMap.find, h2']
        rw [ih hrest]
        by_cases e : k' = k
        · subst e
          simp [h2']
        · simp [e]

theorem StdMap.ext {K V : Type} [DecidableEq K] [LinearOrder K] (m1 m2 : StdMap K V)
    (h1 : StdMap.WF m1) (h2 : StdMap.WF m2)
    (h : ∀ k, StdMap.find m1 k = StdMap.find m2 k) : m1 = m2 := by
  induction m1 generalizing m2 with
  | nil =>
    cases m2 with
    | nil => rfl
    | cons q r2 =>
      have := h q.1
      simp [StdMap.find] at this
  | cons p r1 ih =>
    cases m2 with
    | nil =>
      have := h p.1
      simp [StdMap.find] at this
    | cons q r2 =>
      obtain ⟨k1, v1⟩ := p
      obtain ⟨k2, v2⟩ := q
      rw [StdMap.wf_cons_iff] at h1 h2
      obtain ⟨hlt1, hr1⟩ := h1
      obtain ⟨hlt2, hr2⟩ := h2
      have hk : k1 = k2 := by
        by_contra hne
        have a := h k1
        have b := h k2
        have hne' : ¬ k2 = k1 := fun e => hne e.symm
        simp only [StdMap.find, if_true, hne, hne', if_false] at a b
        have a' : k1 ∈ StdMap.keys r2 := by
          rw [← StdMap.find_isSome_iff, ← a]; rfl
        have b' : k2 ∈ StdMap.keys r1 := by
          rw [← StdMap.find_isSome_iff, b]; rfl
        exact lt_asymm (hlt1 k2 b') (hlt2 k1 a')
      subst hk
      have hv : v1 = v2 := by
        have a := h k1
        simpa [StdMap.find] using a
      subst hv
      congr 1
      apply ih r2 hr1 hr2
      intro k
      by_cases e : k1 = k
      · subst e
        rw [(StdMap.find_eq_none_iff r1 k1).mpr (StdMap.not_mem_keys_of_lt r1 k1 hlt1),
          (StdMap.find_eq_none_iff r2 k1).mpr (StdMap.not_mem_keys_of_lt r2 k1 hlt2)]
      · have a := h k
        simpa [StdMap.find, e] using a

/-! ## Facts about the merge loop -/

theorem merge_local_nil (m : ResultMap D) : merge_local m [] = m := rfl

theorem merge_local_cons (m : ResultMap D) (p : String × D) (cs : List (String × D)) :
    merge_local m (p :: cs) = merge_local (StdMap.addTo m p.1 p.2) cs := rfl

theorem merge_local_append (m : ResultMap D) (as bs : List (String × D)) :
    merge_local m (as ++ bs) = merge_local (merge_local m as) bs := by
  simp [merge_local, List.foldl_append]

theorem merge_local_wf (m : ResultMap D) (cs : List (String × D)) (h : StdMap.WF m) :
    StdMap.WF (merge_local m cs) := by
  induction cs generalizing m with
  | nil => exact h
  | cons p cs ih =>
    rw [merge_local_cons]
    exact ih _ (StdMap.addTo_wf m p.1 p.2 h)

theorem mem_keys_cons {D : Type} (p : String × D) (cs : List (String × D)) (n : String) :
    n ∈ StdMap.keys (p :: cs) ↔ n = p.1 ∨ n ∈ StdMap.keys cs := by
  simp [StdMap.keys]

theorem merge_results_cons (l : ResultMap D) (locals : List (ResultMap D)) (m : ResultMap D) :
    merge_results (l :: locals) m = merge_results locals (merge_local m l) := rfl

theorem merge_results_wf (locals : List (ResultMap D)) (m : ResultMap D) (h : StdMap.WF m) :
    StdMap.WF (merge_results locals m) := by
  induction locals generalizing m with
  | nil => exact h
  | cons l locals ih =>
    rw [merge_results_cons]
    exact ih _ (merge_local_wf m l h)

theorem merge_results_of_all_nil (locals : List (ResultMap D)) (m : ResultMap D)
    (h : ∀ l ∈ locals, l = []) : merge_results locals m = m := by
  induction locals generalizing m with
  | nil => rfl
  | cons l locals ih =>
    rw [merge_results_cons, h l (List.mem_cons_self l locals), merge_local_nil]
    exact ih m (fun l' hl' => h l' (List.mem_cons_of_mem l hl'))

/-! ## Facts about the worker loop -/

theorem foldl_chunk_step (start_date end_date : String) (t : Tables D) (key : Int)
    (facts : List (Lineitem D)) (m : ResultMap D) :
    List.foldl (chunk_step start_date end_date t key) m facts =
      merge_local m (contributions start_date end_date t key facts) := by
  induction facts generalizing m with
  | nil => rfl
  | cons L facts ih =>
    rw [List.foldl_cons, ih]
    unfold chunk_step contributions
    cases hL : lineitem_revenue start_date end_date t key L with
    | none => simp [List.filterMap_cons, hL]
    | some p => simp [List.filterMap_cons, hL, merge_local_cons]

theorem chunk_loop_ok (start_date end_date : String) (t : Tables D) (key : Int)
    (count i : Nat) (m : ResultMap D) (h : i + count ≤ t.lineitem_data.length) :
    chunk_loop start_date end_date t key count i m =
      .ok (List.foldl (chunk_step start_date end_date t key) m
        ((t.lineitem_data.drop i).take count)) := by
  induction count generalizing i m with
  | zero => simp [chunk_loop]
  | succ count ih =>
    have hi : i < t.lineitem_data.length := by omega
    have hget : t.lineitem_data[i]? = some (t.lineitem_data[i]) := List.getElem?_eq_getElem hi
    have hdrop : t.lineitem_data.drop i = t.lineitem_data[i] :: t.lineitem_data.drop (i + 1) :=
      List.drop_eq_getElem_cons hi
    rw [chunk_loop, hget]
    simp only []
    rw [ih (i + 1) _ (by omega), hdrop, List.take_succ_cons, List.foldl_cons]

theorem process_lineitem_chunk_ok (r_name start_date end_date : String) (t : Tables D)
    (lo hi : Nat) (m : ResultMap D) (hlo : lo ≤ hi) (hhi : hi ≤ t.lineitem_data.length) :
    process_lineitem_chunk r_name start_date end_date t lo hi m =
      .ok (if find_target_region_key r_name t.region_data = -1 then m
        else merge_local m (contributions start_date end_date t
          (find_target_region_key r_name t.region_data) (chunk_facts t.lineitem_data lo hi))) := by
  unfold process_lineitem_chunk
  by_cases hk : find_target_region_key r_name t.region_data = -1
  · simp [hk]
  · simp only [hk, if_false]
    rw [chunk_loop_ok _ _ _ _ _ _ _ (by omega), foldl_chunk_step]
    rfl

theorem find_target_region_key_absent (r_name : String) (region_data : RegionMap)
    (h : ∀ p ∈ region_data, p.2.R_NAME ≠ r_name) :
    find_target_region_key r_name region_data = -1 := by
  induction region_data with
  | nil => rfl
  | cons p rest ih =>
    obtain ⟨k, r⟩ := p
    unfold find_target_region_key
    rw [if_neg (h (k, r) (List.mem_cons_self _ _))]
    exact ih (fun q hq => h q (List.mem_cons_of_mem _ hq))

theorem mem_of_mem_chunk_facts {D : Type} (facts : List (Lineitem D)) (lo hi : Nat) (f : Lineitem D)
    (h : f ∈ chunk_facts facts lo hi) : f ∈ facts :=
  List.mem_of_mem_drop (List.mem_of_mem_take h)

/-! ## The partition of the lineitem vector -/

theorem thread_start_le_total (N W i : Nat) (hi : i < W) : thread_start (N / W) i ≤ N := by
  unfold thread_start
  calc i * (N / W) ≤ W * (N / W) := Nat.mul_le_mul_right _ (Nat.le_of_lt hi)
    _ ≤ N := Nat.mul_div_le N W

theorem thread_end_le_total (N W i : Nat) (hi : i < W) : thread_end N (N / W) W i ≤ N := by
  unfold thread_end
  by_cases h : i = W - 1
  · simp [h]
  · rw [if_neg h]
    calc (i + 1) * (N / W) ≤ W * (N / W) := Nat.mul_le_mul_right _ hi
      _ ≤ N := Nat.mul_div_le N W

theorem thread_start_le_end (N W i : Nat) (hi : i < W) :
    thread_start (N / W) i ≤ thread_end N (N / W) W i := by
  by_cases h : i = W - 1
  · have := thread_start_le_total N W i hi
    simpa [thread_end, h] using this
  · simp only [thread_start, thread_end, if_neg h]
    exact Nat.mul_le_mul_right _ (Nat.le_succ i)

theorem thread_end_eq_next_start (N W i : Nat) (hi : i + 1 < W) :
    thread_end N (N / W) W i = thread_start (N / W) (i + 1) := by
  have h : i ≠ W - 1 := by omega
  simp [thread_end, thread_start, h]

theorem thread_end_last (N W : Nat) : thread_end N (N / W) W (W - 1) = N := by
  simp [thread_end]

theorem thread_end_le_start_of_lt (N W i j : Nat) (hij : i < j) (hj : j < W) :
    thread_end N (N / W) W i ≤ thread_start (N / W) j := by
  have h : i ≠ W - 1 := by omega
  simp only [thread_end, thread_start, if_neg h]
  exact Nat.mul_le_mul_right _ hij

theorem thread_ranges_disjoint (N W i j x : Nat) (hi : i < W) (hj : j < W)
    (hxi : thread_start (N / W) i ≤ x ∧ x < thread_end N (N / W) W i)
    (hxj : thread_start (N / W) j ≤ x ∧ x < thread_end N (N / W) W j) : i = j := by
  rcases Nat.lt_trichotomy i j with h | h | h
  · have := thread_end_le_start_of_lt N W i j h hj
    omega
  · exact h
  · have := thread_end_le_start_of_lt N W j i h hi
    omega

theorem thread_ranges_cover (N W x : Nat) (hW : 1 ≤ W) (hx : x < N) :
    ∃ i, i < W ∧ thread_start (N / W) i ≤ x ∧ x < thread_end N (N / W) W i := by
  by_cases hq : x / (N / W) < W - 1 ∧ 0 < N / W
  · obtain ⟨hq, hc⟩ := hq
    refine ⟨x / (N / W), by omega, ?_, ?_⟩
    · exact Nat.div_mul_le_self x (N / W)
    · have h : x / (N / W) ≠ W - 1 := by omega
      simp only [thread_end, if_neg h]
      have hlt := Nat.lt_mul_div_succ x hc
      rw [Nat.mul_comm] at hlt
      exact hlt
  · refine ⟨W - 1, by omega, ?_, ?_⟩
    · simp only [thread_start]
      by_cases hc : 0 < N / W
      · have hq' : W - 1 ≤ x / (N / W) := by
          by_contra hcon
          exact hq ⟨by omega, hc⟩
        calc (W - 1) * (N / W) ≤ x / (N / W) * (N / W) := Nat.mul_le_mul_right _ hq'
          _ ≤ x := Nat.div_mul_le_self x (N / W)
      · have hz : N / W = 0 := Nat.eq_zero_of_not_pos hc
        simp [hz]
    · simpa [thread_end] using hx

/-! ## Facts about the orchestrator -/

theorem mapM_ok {α β ε : Type} (f : α → Except ε β) (g : α → β) (l : List α)
    (h : ∀ x ∈ l, f x = .ok (g x)) : List.mapM f l = .ok (l.map g) := by
  induction l with
  | nil => rfl
  | cons a l ih =>
    rw [List.mapM_cons, h a (List.mem_cons_self a l),
      ih (fun x hx => h x (List.mem_cons_of_mem a hx))]
    rfl

theorem run_threads_ok (r_name start_date end_date : String) (t : Tables D) (W : Nat) :
    run_threads r_name start_date end_date t t.lineitem_data.length
        (t.lineitem_data.length / W) W =
      .ok ((List.range W).map (thread_local r_name start_date end_date t W)) := by
  unfold run_threads
  apply mapM_ok
  intro i hi
  rw [List.mem_range] at hi
  rw [process_lineitem_chunk_ok _ _ _ _ _ _ _ (thread_start_le_end _ W i hi)
    (thread_end_le_total _ W i hi)]
  unfold thread_local
  by_cases hk : find_target_region_key r_name t.region_data = -1 <;> simp [hk, merge_local_nil]

theorem contributions_append (start_date end_date : String) (t : Tables D) (key : Int)
    (as bs : List (Lineitem D)) :
    contributions start_date end_date t key (as ++ bs) =
      contributions start_date end_date t key as ++ contributions start_date end_date t key bs := by
  simp [contributions, List.filterMap_append]

theorem take_append_chunk_facts {D : Type} (facts : List (Lineitem D)) (lo hi : Nat)
    (h : lo ≤ hi) :
    facts.take lo ++ chunk_facts facts lo hi = facts.take hi := by
  unfold chunk_facts
  have e : hi = lo + (hi - lo) := by omega
  conv_rhs => rw [e, List.take_add]

theorem executeQuery5_ok (r_name start_date end_date : String) (num_threads : Int)
    (t : Tables D) (final_results : ResultMap D) (hne : t.lineitem_data ≠ [])
    (hW : 1 ≤ num_threads) :
    executeQuery5 r_name start_date end_date num_threads t final_results =
      .ok (true, merge_results
        ((List.range num_threads.toNat).map
          (thread_local r_name start_date end_date t num_threads.toNat)) final_results) := by
  unfold executeQuery5
  have h1 : t.lineitem_data.isEmpty = false := by
    cases hl : t.lineitem_data with
    | nil => exact absurd hl hne
    | cons a l => rfl
  have h2 : ¬ num_threads = 0 := by omega
  have h3 : ¬ num_threads < 0 := by omega
  simp only [h1, h2, h3, if_false, Bool.false_eq_true]
  rw [run_threads_ok]

theorem executeQuery5_empty (r_name start_date end_date : String) (num_threads : Int)
    (t : Tables D) (final_results : ResultMap D) (he : t.lineitem_data = []) :
    executeQuery5 r_name start_date end_date num_threads t final_results =
      .ok (false, final_results) := by
  unfold executeQuery5
  rw [he]
  rfl

theorem thread_local_of_no_match (r_name start_date end_date : String) (t : Tables D)
    (W i : Nat)
    (h : find_target_region_key r_name t.region_data = -1 ∨
      ∀ f ∈ t.lineitem_data, lineitem_revenue start_date end_date t
        (find_target_region_key r_name t.region_data) f = none) :
    thread_local r_name start_date end_date t W i = [] := by
  unfold thread_local
  by_cases hk : find_target_region_key r_name t.region_data = -1
  · rw [if_pos hk]
  · rw [if_neg hk]
    have hall := h.resolve_left hk
    have hc : contributions start_date end_date t
        (find_target_region_key r_name t.region_data)
        (chunk_facts t.lineitem_data (thread_start (t.lineitem_data.length / W) i)
          (thread_end t.lineitem_data.length (t.lineitem_data.length / W) W i)) = [] := by
      unfold contributions
      rw [List.filterMap_eq_nil_iff]
      intro f hf
      exact hall f (mem_of_mem_chunk_facts _ _ _ f hf)
    rw [hc]
    rfl

/-! ## The join/filter chain against the specification -/

theorem spec_accept_eq (start_date end_date : String) (t : Tables D) (key : Int) (f : Lineitem D) :
    (spec_accept start_date end_date t key f).map (fun N => (N.N_NAME, revenue f)) =
      lineitem_revenue start_date end_date t key f := by
  unfold spec_accept lineitem_revenue revenue
  cases hO : StdMap.find t.orders_data f.L_ORDERKEY with
  | none => rfl
  | some O =>
    simp only [Option.bind]
    by_cases hd : date_filter_rejects start_date end_date O = true
    · have hd' : ¬ (start_date ≤ O.O_ORDERDATE ∧ O.O_ORDERDATE < end_date) := fun hc =>
        (date_filter_accepts_iff start_date end_date O).mpr hc hd
      rw [if_pos hd, if_pos hd']
      rfl
    · have hd' : ¬ ¬ (start_date ≤ O.O_ORDERDATE ∧ O.O_ORDERDATE < end_date) :=
        not_not.mpr ((date_filter_accepts_iff start_date end_date O).mp hd)
      rw [if_neg hd, if_neg hd']
      cases hC : StdMap.find t.customer_data O.O_CUSTKEY with
      | none => rfl
      | some C =>
        cases hS : StdMap.find t.supplier_data f.L_SUPPKEY with
        | none => rfl
        | some S =>
          simp only []
          by_cases hn : C.C_NATIONKEY = S.S_NATIONKEY
          · rw [if_neg (not_not.mpr hn), if_neg (not_not.mpr hn), hn]
            cases hN : StdMap.find t.nation_data S.S_NATIONKEY with
            | none => rfl
            | some N =>
              simp only []
              by_cases hr : N.N_REGIONKEY = key
              · rw [if_neg (not_not.mpr hr), if_neg (not_not.mpr hr)]
                rfl
              · rw [if_pos hr, if_pos hr]
                rfl
          · rw [if_pos hn, if_pos hn]
            rfl

theorem spec_step_eq (start_date end_date : String) (t : Tables D) (key : Int) :
    spec_step start_date end_date t key = chunk_step start_date end_date t key := by
  funext m f
  unfold spec_step chunk_step
  rw [← spec_accept_eq]
  cases spec_accept start_date end_date t key f <;> rfl

theorem mem_keys_contributions (start_date end_date : String) (t : Tables D) (key : Int)
    (n : String) (facts : List (Lineitem D)) :
    n ∈ StdMap.keys (contributions start_date end_date t key facts) ↔
      ∃ f ∈ facts, q5_accepts start_date end_date t key n f := by
  unfold StdMap.keys contributions
  rw [List.mem_map]
  constructor
  · rintro ⟨⟨n', x⟩, hp, rfl⟩
    obtain ⟨f, hf, hL⟩ := List.mem_filterMap.mp hp
    exact ⟨f, hf, ((lineitem_revenue_eq_some_iff start_date end_date t key f n' x).mp hL).1⟩
  · rintro ⟨f, hf, hacc⟩
    refine ⟨(n, revenue f), List.mem_filterMap.mpr ⟨f, hf, ?_⟩, rfl⟩
    exact (lineitem_revenue_eq_some_iff start_date end_date t key f n (revenue f)).mpr
      ⟨hacc, rfl⟩

/-! ## Facts about the ranking -/

theorem sort_insert_perm {α : Type} (comp : α → α → Bool) (x : α) (l : List α) :
    List.Perm (sort_insert comp x l) (x :: l) := by
  induction l with
  | nil => exact List.Perm.refl _
  | cons y ys ih =>
    unfold sort_insert
    by_cases h : comp y x = true
    · rw [if_pos h]
      exact (List.Perm.cons y ih).trans (List.Perm.swap x y ys)
    · rw [if_neg h]

theorem std_sort_perm {α : Type} (comp : α → α → Bool) (l : List α) :
    List.Perm (std_sort comp l) l := by
  induction l with
  | nil => exact List.Perm.refl _
  | cons x xs ih =>
    unfold std_sort
    exact (sort_insert_perm comp x (std_sort comp xs)).trans (List.Perm.cons x ih)

/-! ## Facts about the argument check -/

theorem parseArgs_true_threads_pos (stoi : String → Option Int) (argv : List String)
    (a : Args) (h : (parseArgs stoi argv a).1 = true) :
    0 < (parseArgs stoi argv a).2.num_threads := by
  unfold parseArgs at h ⊢
  cases hl : parseArgs_loop stoi (argv.drop 1) { a with num_threads := 1 } with
  | mk b a' =>
    rw [hl] at h
    cases b with
    | false => exact absurd h (by simp)
    | true =>
      simp only [Bool.and_eq_true, decide_eq_true_eq] at h
      exact h.1.1.2

/-! ## The claims -/

/-- C3.  Partition completeness: for every lineitem count `N` and worker count
`W >= 1`, the ranges `[start_i, end_i)` that `executeQuery5` computes satisfy
`start_0 = 0`, `start_i <= end_i`, `end_i = start_(i+1)` and `end_(W-1) = N`;
two ranges with a common index are the same range, every index below `N` lies
in a range, and no range holds an index `>= N`. -/
theorem partition_complete (N W : Nat) (hW : 1 ≤ W) :
    thread_start (N / W) 0 = 0 ∧
    (∀ i, i < W → thread_start (N / W) i ≤ thread_end N (N / W) W i) ∧
    (∀ i, i + 1 < W → thread_end N (N / W) W i = thread_start (N / W) (i + 1)) ∧
    thread_end N (N / W) W (W - 1) = N ∧
    (∀ i j x, i < W → j < W →
      thread_start (N / W) i ≤ x ∧ x < thread_end N (N / W) W i →
      thread_start (N / W) j ≤ x ∧ x < thread_end N (N / W) W j → i = j) ∧
    (∀ x, x < N → ∃ i, i < W ∧ thread_start (N / W) i ≤ x ∧ x < thread_end N (N / W) W i) ∧
    (∀ i x, i < W → x < thread_end N (N / W) W i → x < N) :=
  ⟨by simp [thread_start],
    fun i hi => thread_start_le_end N W i hi,
    fun i hi => thread_end_eq_next_start N W i hi,
    thread_end_last N W,
    fun i j x hi hj hxi hxj => thread_ranges_disjoint N W i j x hi hj hxi hxj,
    fun x hx => thread_ranges_cover N W x hW hx,
    fun i x hi hx => Nat.lt_of_lt_of_le hx (thread_end_le_total N W i hi)⟩

/-- C3, witness: ten lineitems split over three workers as `[0,3)`, `[3,6)`,
`[6,10)`. -/
theorem partition_complete_witness :
    (List.range 3).map (fun i => (thread_start (10 / 3) i, thread_end 10 (10 / 3) 3 i)) =
      [(0, 3), (3, 6), (6, 10)] ∧
    (∀ x, x < 10 →
      ∃ i, i < 3 ∧ thread_start (10 / 3) i ≤ x ∧ x < thread_end 10 (10 / 3) 3 i) ∧
    (∀ i x, i < 3 → x < thread_end 10 (10 / 3) 3 i → x < 10) :=
  ⟨by decide, (partition_complete 10 3 (by decide)).2.2.2.2.2.1,
    (partition_complete 10 3 (by decide)).2.2.2.2.2.2⟩

/-- C7.  Half-open date filter: a lineitem reaches the revenue line only if
its order's date `d` satisfies `start_date <= d < end_date` in the string
order; a lineitem whose order date equals `end_date` is rejected and leaves
every local map unchanged; and an order dated `start_date`, with
`start_date < end_date`, is not rejected by the date filter. -/
theorem date_filter_half_open (start_date end_date : String) (t : Tables D) (key : Int)
    (L : Lineitem D) :
    (∀ p, lineitem_revenue start_date end_date t key L = some p →
      ∃ O, StdMap.find t.orders_data L.L_ORDERKEY = some O ∧
        start_date ≤ O.O_ORDERDATE ∧ O.O_ORDERDATE < end_date) ∧
    (∀ O, StdMap.find t.orders_data L.L_ORDERKEY = some O → O.O_ORDERDATE = end_date →
      lineitem_revenue start_date end_date t key L = none ∧
      ∀ m, chunk_step start_date end_date t key m L = m) ∧
    (∀ O : Orders, O.O_ORDERDATE = start_date → start_date < end_date →
      date_filter_rejects start_date end_date O = false) := by
  refine ⟨?_, ?_, ?_⟩
  · rintro ⟨n, x⟩ h
    obtain ⟨⟨O, _, _, _, hO, h1, h2, _⟩, _⟩ :=
      (lineitem_revenue_eq_some_iff start_date end_date t key L n x).mp h
    exact ⟨O, hO, h1, h2⟩
  · intro O hO hd
    have hrej : date_filter_rejects start_date end_date O = true :=
      (date_filter_rejects_iff start_date end_date O).mpr (Or.inr (ge_of_eq hd))
    have hnone : lineitem_revenue start_date end_date t key L = none := by
      unfold lineitem_revenue
      rw [hO]
      simp only []
      rw [if_pos hrej]
    refine ⟨hnone, fun m => ?_⟩
    unfold chunk_step
    rw [hnone]
  · intro O hd hlt
    cases hrej : date_filter_rejects start_date end_date O with
    | false => rfl
    | true =>
      rcases (date_filter_rejects_iff start_date end_date O).mp hrej with h | h
      · rw [hd] at h
        exact absurd h (lt_irrefl _)
      · rw [hd] at h
        exact absurd hlt (not_lt.mpr h)

/-- C7, witness: in the scenario the order is dated 2024-03-10; with that date
as the exclusive end bound the query result is empty, with it as the inclusive
start bound the result is INDIA -> 90. -/
theorem date_filter_half_open_witness :
    executeQuery5 "ASIA" "2024-01-01" "2024-03-10" 2 scenario [] = .ok (true, []) ∧
    executeQuery5 "ASIA" "2024-03-10" "2024-06-01" 2 scenario [] =
      .ok (true, [("INDIA", 90)]) ∧
    lineitem_revenue "2024-01-01" "2024-03-10" scenario 0 ⟨1000, 200, 100, tenth⟩ = none ∧
    date_filter_rejects "2024-03-10" "2024-06-01" ⟨1000, 100, "2024-03-10"⟩ = false :=
  ⟨by decide!, by decide!,
    ((date_filter_half_open "2024-01-01" "2024-03-10" scenario 0 ⟨1000, 200, 100, tenth⟩).2.1
      ⟨1000, 100, "2024-03-10"⟩ (by decide!) rfl).1,
    (date_filter_half_open "2024-03-10" "2024-06-01" scenario 0 ⟨1000, 200, 100, tenth⟩).2.2
      ⟨1000, 100, "2024-03-10"⟩ rfl (by decide!)⟩

/-- C8.  Empty region: when no region record has the name `r_name`, every call
of the worker on an empty local map returns with the map still empty, and for a
non-empty lineitem vector and `num_threads >= 1` every worker's local map is
empty and `executeQuery5` returns `true` with a results map that is still empty
when it was empty on entry. -/
theorem empty_region (r_name start_date end_date : String) (num_threads : Int) (t : Tables D)
    (hne : t.lineitem_data ≠ []) (hW : 1 ≤ num_threads)
    (habs : ∀ p ∈ t.region_data, p.2.R_NAME ≠ r_name) :
    (∀ lo hi, process_lineitem_chunk r_name start_date end_date t lo hi [] = .ok []) ∧
    run_threads r_name start_date end_date t t.lineitem_data.length
      (t.lineitem_data.length / num_threads.toNat) num_threads.toNat =
        .ok (List.replicate num_threads.toNat []) ∧
    executeQuery5 r_name start_date end_date num_threads t [] = .ok (true, []) := by
  have hk := find_target_region_key_absent r_name t.region_data habs
  have hloc : ∀ i, thread_local r_name start_date end_date t num_threads.toNat i = [] :=
    fun i => thread_local_of_no_match r_name start_date end_date t _ i (Or.inl hk)
  refine ⟨?_, ?_, ?_⟩
  · intro lo hi
    unfold process_lineitem_chunk
    simp only [hk, if_true]
  · rw [run_threads_ok]
    congr 1
    apply List.ext_getElem
    · simp
    · intro i h1 h2
      simp [hloc]
  · rw [executeQuery5_ok r_name start_date end_date num_threads t [] hne hW]
    rw [merge_results_of_all_nil]
    intro l hl
    obtain ⟨i, _, rfl⟩ := List.mem_map.mp hl
    exact hloc i

/-- C8, witness: the scenario queried for the region EUROPE, which its region
table does not hold, with two workers. -/
theorem empty_region_witness :
    (∀ lo hi, process_lineitem_chunk "EUROPE" "2024-01-01" "2024-06-01" scenario lo hi [] =
      .ok []) ∧
    run_threads "EUROPE" "2024-01-01" "2024-06-01" scenario scenario.lineitem_data.length
      (scenario.lineitem_data.length / (2 : Int).toNat) (2 : Int).toNat =
        .ok (List.replicate (2 : Int).toNat []) ∧
    executeQuery5 "EUROPE" "2024-01-01" "2024-06-01" 2 scenario [] = .ok (true, []) :=
  empty_region "EUROPE" "2024-01-01" "2024-06-01" 2 scenario (by decide) (by decide)
    (by decide)

/-- C9.  For `num_threads >= 1`, `executeQuery5` returns `false` exactly when the
lineitem vector is empty; it then leaves the results map as it was on entry, and
does so whatever the worker count, so before the division and before any worker;
on a non-empty vector it returns `true`, and when no lineitem of the vector is
accepted (or the region scan ends on `-1`) the results map is unchanged. -/
theorem executeQuery5_false_iff_empty (r_name start_date end_date : String)
    (num_threads : Int) (t : Tables D) (final_results : ResultMap D) (hW : 1 ≤ num_threads) :
    ((∃ m, executeQuery5 r_name start_date end_date num_threads t final_results =
        .ok (false, m)) ↔ t.lineitem_data = []) ∧
    (t.lineitem_data = [] → ∀ n : Int,
      executeQuery5 r_name start_date end_date n t final_results =
        .ok (false, final_results)) ∧
    (t.lineitem_data ≠ [] →
      ∃ m, executeQuery5 r_name start_date end_date num_threads t final_results =
        .ok (true, m)) ∧
    (t.lineitem_data ≠ [] →
      (find_target_region_key r_name t.region_data = -1 ∨
        ∀ f ∈ t.lineitem_data, lineitem_revenue start_date end_date t
          (find_target_region_key r_name t.region_data) f = none) →
      executeQuery5 r_name start_date end_date num_threads t final_results =
        .ok (true, final_results)) := by
  refine ⟨⟨?_, ?_⟩, ?_, ?_, ?_⟩
  · rintro ⟨m, hm⟩
    by_contra hne
    rw [executeQuery5_ok r_name start_date end_date num_threads t final_results hne hW] at hm
    injection hm with hm
    injection hm with hb _
    exact Bool.noConfusion hb
  · intro he
    exact ⟨final_results, executeQuery5_empty r_name start_date end_date num_threads t
      final_results he⟩
  · intro he n
    exact executeQuery5_empty r_name start_date end_date n t final_results he
  · intro hne
    exact ⟨_, executeQuery5_ok r_name start_date end_date num_threads t final_results hne hW⟩
  · intro hne hno
    rw [executeQuery5_ok r_name start_date end_date num_threads t final_results hne hW,
      merge_results_of_all_nil]
    intro l hl
    obtain ⟨i, _, rfl⟩ := List.mem_map.mp hl
    exact thread_local_of_no_match r_name start_date end_date t _ i hno

/-- C9, witness: with no lineitem loaded the call returns `false` and leaves
the results map `{INDIA -> 1}` as it was; on the scenario with a date range that
holds no order it returns `true` and leaves the map as it was. -/
theorem executeQuery5_false_iff_empty_witness :
    executeQuery5 "ASIA" "2024-01-01" "2024-06-01" 2 scenario_no_facts [("INDIA", 1)] =
      .ok (false, [("INDIA", 1)]) ∧
    executeQuery5 "ASIA" "2024-06-01" "2024-07-01" 2 scenario [("INDIA", 1)] =
      .ok (true, [("INDIA", 1)]) ∧
    ((∃ m, executeQuery5 "ASIA" "2024-01-01" "2024-06-01" 2 scenario [("INDIA", 1)] =
      .ok (false, m)) ↔ scenario.lineitem_data = []) :=
  ⟨(executeQuery5_false_iff_empty "ASIA" "2024-01-01" "2024-06-01" 2 scenario_no_facts
      [("INDIA", 1)] (by decide)).2.1 rfl 2,
    (executeQuery5_false_iff_empty "ASIA" "2024-06-01" "2024-07-01" 2 scenario
      [("INDIA", 1)] (by decide)).2.2.2 (by decide) (Or.inr (by decide!)),
    (executeQuery5_false_iff_empty "ASIA" "2024-01-01" "2024-06-01" 2 scenario
      [("INDIA", 1)] (by decide)).1⟩

/-- C10 as stated fails: on the scenario's non-empty lineitem vector
`executeQuery5` with `num_threads = 0` reaches the division `total_items /
num_threads`, and with `num_threads = -1` the construction of `thread_results`;
in neither case does it return `false`. -/
theorem executeQuery5_invalid_threads_counterexample :
    scenario.lineitem_data ≠ [] ∧
    executeQuery5 "ASIA" "2024-01-01" "2024-06-01" 0 scenario [] =
      .error Fault.division_by_zero ∧
    executeQuery5 "ASIA" "2024-01-01" "2024-06-01" (-1) scenario [] =
      .error Fault.length_error ∧
    executeQuery5 "ASIA" "2024-01-01" "2024-06-01" 0 scenario [] ≠ .ok (false, []) ∧
    executeQuery5 "ASIA" "2024-01-01" "2024-06-01" (-1) scenario [] ≠ .ok (false, []) :=
  ⟨by decide, by decide!, by decide!, by decide!, by decide!⟩

/-- C10, amended.  The worker count is checked by `parseArgs`, not by
`executeQuery5`: `parseArgs` returns `true` only with `num_threads >= 1`, so
whenever the count it leaves in `num_threads` is zero or negative it returns
`false`, and `main` then exits with status 1 whatever the table files hold, so
without loading them, without calling `executeQuery5` and without any fault. -/
theorem invalid_worker_count_rejected (stoi : String → Option Int) (argv : List String) :
    (∀ a, (parseArgs stoi argv a).1 = true → 1 ≤ (parseArgs stoi argv a).2.num_threads) ∧
    (∀ a, (parseArgs stoi argv a).2.num_threads ≤ 0 → (parseArgs stoi argv a).1 = false) ∧
    ((parseArgs stoi argv initial_args).2.num_threads ≤ 0 →
      ∀ (readTPCHData : String → Option (Tables D)) output_ok,
        main stoi readTPCHData output_ok argv = .ok 1) := by
  have hfalse : ∀ a, (parseArgs stoi argv a).2.num_threads ≤ 0 →
      (parseArgs stoi argv a).1 = false := by
    intro a h
    cases hb : (parseArgs stoi argv a).1 with
    | false => rfl
    | true =>
      have := parseArgs_true_threads_pos stoi argv a hb
      omega
  refine ⟨fun a h => parseArgs_true_threads_pos stoi argv a h, hfalse, ?_⟩
  intro h readTPCHData output_ok
  have hb := hfalse initial_args h
  unfold main
  cases hp : parseArgs stoi argv initial_args with
  | mk b a' =>
    rw [hp] at hb
    simp only at hb
    subst hb
    rfl

/-- C10, witness: the command line `--threads 0` with every other flag given;
`parseArgs` returns `false` and `main` exits with status 1 even when the loader
would deliver the scenario's non-empty tables. -/
theorem invalid_worker_count_rejected_witness :
    parseArgs String.toInt?
      ["tpch_query5", "--r_name", "ASIA", "--start_date", "2024-01-01", "--end_date",
        "2024-06-01", "--threads", "0", "--table_path", "data", "--result_path", "out.txt"]
      initial_args =
      (false, ⟨"ASIA", "2024-01-01", "2024-06-01", 0, "data", "out.txt"⟩) ∧
    main String.toInt? (fun _ => some scenario) (fun _ => true)
      ["tpch_query5", "--r_name", "ASIA", "--start_date", "2024-01-01", "--end_date",
        "2024-06-01", "--threads", "0", "--table_path", "data", "--result_path", "out.txt"] =
      .ok 1 :=
  ⟨by decide!,
    (invalid_worker_count_rejected String.toInt?
      ["tpch_query5", "--r_name", "ASIA", "--start_date", "2024-01-01", "--end_date",
        "2024-06-01", "--threads", "0", "--table_path", "data", "--result_path", "out.txt"]).2.2
      (by decide!) (fun _ => some scenario) (fun _ => true)⟩

/-! ## Facts for the claims on dangling keys, sizes and reordering -/

theorem lineitem_revenue_with_lineitems (start_date end_date : String) (t : Tables D)
    (facts : LineitemVector D) (key : Int) (L : Lineitem D) :
    lineitem_revenue start_date end_date (with_lineitems t facts) key L =
      lineitem_revenue start_date end_date t key L := rfl

theorem contributions_with_lineitems (start_date end_date : String) (t : Tables D)
    (facts : LineitemVector D) (key : Int) (l : List (Lineitem D)) :
    contributions start_date end_date (with_lineitems t facts) key l =
      contributions start_date end_date t key l := rfl

theorem lineitem_revenue_of_dangling (start_date end_date : String) (t : Tables D) (key : Int)
    (f : Lineitem D) (hd : dangling t f) :
    lineitem_revenue start_date end_date t key f = none := by
  cases hL : lineitem_revenue start_date end_date t key f with
  | none => rfl
  | some p =>
    obtain ⟨n, x⟩ := p
    obtain ⟨⟨O, C, S, N, hO, _, _, hC, hS, hn, hN, _, _⟩, _⟩ :=
      (lineitem_revenue_eq_some_iff start_date end_date t key f n x).mp hL
    rcases hd with h | ⟨O', hO', h⟩ | h | ⟨O', C', S', hO', hC', hS', _, h⟩
    · rw [hO] at h
      exact Option.noConfusion h
    · rw [hO] at hO'
      injection hO' with e
      subst e
      rw [hC] at h
      exact Option.noConfusion h
    · rw [hS] at h
      exact Option.noConfusion h
    · rw [hO] at hO'
      injection hO' with e
      subst e
      rw [hC] at hC'
      injection hC' with e
      subst e
      rw [hN] at h
      exact Option.noConfusion h

theorem chunk_facts_with_fact {D : Type} (pre post : List (Lineitem D)) (f : Lineitem D)
    (lo hi : Nat)
    (hlo : lo ≤ pre.length) (hhi : pre.length < hi) :
    chunk_facts (pre ++ f :: post) lo hi =
      pre.drop lo ++ f :: post.take (hi - 1 - pre.length) := by
  unfold chunk_facts
  rw [List.drop_append_of_le_length hlo, List.take_append_eq_append_take,
    List.take_of_length_le (by rw [List.length_drop]; omega), List.length_drop]
  have e : hi - lo - (pre.length - lo) = (hi - 1 - pre.length) + 1 := by omega
  rw [e, List.take_succ_cons]

theorem chunk_facts_without_fact {D : Type} (pre post : List (Lineitem D)) (lo hi : Nat)
    (hlo : lo ≤ pre.length) (hhi : pre.length < hi) :
    chunk_facts (pre ++ post) lo (hi - 1) = pre.drop lo ++ post.take (hi - 1 - pre.length) := by
  unfold chunk_facts
  rw [List.drop_append_of_le_length hlo, List.take_append_eq_append_take,
    List.take_of_length_le (by rw [List.length_drop]; omega), List.length_drop]
  have e : hi - 1 - lo - (pre.length - lo) = hi - 1 - pre.length := by omega
  rw [e]

theorem lineitem_revenue_reordered_eq (start_date end_date : String) (t : Tables D) (key : Int)
    (L : Lineitem D) :
    lineitem_revenue_reordered start_date end_date t key L =
      lineitem_revenue start_date end_date t key L := by
  unfold lineitem_revenue_reordered lineitem_revenue
  cases hO : StdMap.find t.orders_data L.L_ORDERKEY with
  | none => rfl
  | some O =>
    simp only []
    cases hC : StdMap.find t.customer_data O.O_CUSTKEY with
    | none =>
      by_cases hd : date_filter_rejects start_date end_date O = true
      · rw [if_pos hd]
      · rw [if_neg hd]
    | some C =>
      cases hS : StdMap.find t.supplier_data L.L_SUPPKEY with
      | none =>
        by_cases hd : date_filter_rejects start_date end_date O = true
        · rw [if_pos hd]
        · rw [if_neg hd]
      | some S =>
        simp only []
        cases hN : StdMap.find t.nation_data S.S_NATIONKEY with
        | none =>
          simp only []
          by_cases hd : date_filter_rejects start_date end_date O = true
          · rw [if_pos hd]
          · rw [if_neg hd]
            by_cases hn : C.C_NATIONKEY ≠ S.S_NATIONKEY
            · rw [if_pos hn]
            · rw [if_neg hn]
        | some N =>
          simp only []
          by_cases hd : date_filter_rejects start_date end_date O = true
          · rw [if_pos hd, if_pos hd]
            by_cases hr : N.N_REGIONKEY ≠ key
            · rw [if_pos hr]
            · rw [if_neg hr]
              by_cases hn : C.C_NATIONKEY ≠ S.S_NATIONKEY
              · rw [if_pos hn]
              · rw [if_neg hn]
          · rw [if_neg hd, if_neg hd]
            by_cases hn : C.C_NATIONKEY ≠ S.S_NATIONKEY
            · rw [if_pos hn, if_pos hn]
              by_cases hr : N.N_REGIONKEY ≠ key
              · rw [if_pos hr]
              · rw [if_neg hr]
            · rw [if_neg hn, if_neg hn]

/-- C11.  Dangling foreign keys are silently excluded: a fact whose order key,
whose order's customer key, whose supplier key or whose shared nation key does
not resolve is rejected by the join/filter chain and leaves every local map
unchanged; and the worker, run over a range that holds the fact, returns
normally with the same local map as over the same range of the vector with the
fact removed. -/
theorem dangling_fact_excluded (r_name start_date end_date : String) (t : Tables D)
    (pre post : List (Lineitem D)) (f : Lineitem D) (lo hi : Nat) (m : ResultMap D) (key : Int)
    (hd : dangling t f) (hlo : lo ≤ pre.length) (hhi : pre.length < hi)
    (hN : hi ≤ (pre ++ f :: post).length) :
    lineitem_revenue start_date end_date t key f = none ∧
    chunk_step start_date end_date t key m f = m ∧
    ∃ m',
      process_lineitem_chunk r_name start_date end_date (with_lineitems t (pre ++ f :: post))
        lo hi m = .ok m' ∧
      process_lineitem_chunk r_name start_date end_date (with_lineitems t (pre ++ post))
        lo (hi - 1) m = .ok m' := by
  have hnone := lineitem_revenue_of_dangling start_date end_date t key f hd
  refine ⟨hnone, ?_, ?_⟩
  · unfold chunk_step
    rw [hnone]
  · have hlen : (pre ++ f :: post).length = pre.length + post.length + 1 := by
      simp [Nat.add_assoc]
    have hlen' : (pre ++ post).length = pre.length + post.length := by simp
    refine ⟨_, process_lineitem_chunk_ok r_name start_date end_date
      (with_lineitems t (pre ++ f :: post)) lo hi m (by omega) hN, ?_⟩
    rw [process_lineitem_chunk_ok r_name start_date end_date
      (with_lineitems t (pre ++ post)) lo (hi - 1) m (by omega)
      (by show hi - 1 ≤ (pre ++ post).length; omega)]
    congr 1
    show (if find_target_region_key r_name t.region_data = -1 then m
      else merge_local m (contributions start_date end_date (with_lineitems t (pre ++ post))
        (find_target_region_key r_name t.region_data) (chunk_facts (pre ++ post) lo (hi - 1)))) =
      (if find_target_region_key r_name t.region_data = -1 then m
      else merge_local m (contributions start_date end_date
        (with_lineitems t (pre ++ f :: post))
        (find_target_region_key r_name t.region_data) (chunk_facts (pre ++ f :: post) lo hi)))
    rw [contributions_with_lineitems, contributions_with_lineitems,
      chunk_facts_with_fact pre post f lo hi hlo hhi,
      chunk_facts_without_fact pre post lo hi hlo hhi, contributions_append,
      contributions_append]
    have hf : contributions start_date end_date t
        (find_target_region_key r_name t.region_data)
        (f :: post.take (hi - 1 - pre.length)) =
        contributions start_date end_date t (find_target_region_key r_name t.region_data)
          (post.take (hi - 1 - pre.length)) := by
      unfold contributions
      rw [List.filterMap_cons_none
        (lineitem_revenue_of_dangling start_date end_date t _ f hd)]
    rw [hf]

/-- C11, witness: in the scenario extended by a fact whose order key 9999 is
not in the orders map, the worker over `[0, 3)` gives the same local map as over
`[0, 2)` of the scenario's own two facts. -/
theorem dangling_fact_excluded_witness :
    process_lineitem_chunk "ASIA" "2024-01-01" "2024-06-01"
      (with_lineitems scenario
        ([⟨1000, 200, 100, tenth⟩] ++ ⟨9999, 200, 70, 0⟩ :: [⟨1000, 201, 50, 0⟩]))
      0 3 [] = .ok [("INDIA", 90)] ∧
    ∃ m',
      process_lineitem_chunk "ASIA" "2024-01-01" "2024-06-01"
        (with_lineitems scenario
          ([⟨1000, 200, 100, tenth⟩] ++ ⟨9999, 200, 70, 0⟩ :: [⟨1000, 201, 50, 0⟩]))
        0 3 [] = .ok m' ∧
      process_lineitem_chunk "ASIA" "2024-01-01" "2024-06-01"
        (with_lineitems scenario ([⟨1000, 200, 100, tenth⟩] ++ [⟨1000, 201, 50, 0⟩]))
        0 (3 - 1) [] = .ok m' :=
  ⟨by decide!,
    (dangling_fact_excluded "ASIA" "2024-01-01" "2024-06-01" scenario
      [⟨1000, 200, 100, tenth⟩] [⟨1000, 201, 50, 0⟩] ⟨9999, 200, 70, 0⟩ 0 3 [] 0
      (Or.inl (by decide!)) (by decide) (by decide) (by decide)).2.2⟩

/-- C12.  Partition sizes: for every lineitem count `N` and worker count
`W >= 1`, every range but the last has exactly `N / W` elements, the last has
`N / W + N % W` elements and ends at `N`; and when `W > N` every range but the
last is the empty range at 0 and the last range is all of `[0, N)`. -/
theorem partition_sizes (N W : Nat) (hW : 1 ≤ W) :
    (∀ i, i + 1 < W → thread_end N (N / W) W i - thread_start (N / W) i = N / W) ∧
    thread_end N (N / W) W (W - 1) - thread_start (N / W) (W - 1) = N / W + N % W ∧
    thread_end N (N / W) W (W - 1) = N ∧
    (N < W →
      (∀ i, i + 1 < W → thread_start (N / W) i = 0 ∧ thread_end N (N / W) W i = 0) ∧
      thread_start (N / W) (W - 1) = 0 ∧ thread_end N (N / W) W (W - 1) = N) := by
  refine ⟨?_, ?_, thread_end_last N W, ?_⟩
  · intro i hi
    have h : i ≠ W - 1 := by omega
    simp only [thread_end, thread_start, if_neg h, Nat.succ_mul]
    exact Nat.add_sub_cancel_left _ _
  · rw [thread_end_last]
    unfold thread_start
    obtain ⟨k, rfl⟩ : ∃ k, W = k + 1 := ⟨W - 1, by omega⟩
    have hdm := Nat.div_add_mod N (k + 1)
    rw [Nat.succ_mul] at hdm
    simp only [Nat.add_sub_cancel]
    generalize N / (k + 1) = q at hdm ⊢
    generalize N % (k + 1) = r at hdm ⊢
    generalize k * q = p at hdm ⊢
    omega
  · intro hlt
    have hz : N / W = 0 := Nat.div_eq_of_lt hlt
    refine ⟨?_, ?_, thread_end_last N W⟩
    · intro i hi
      have h : i ≠ W - 1 := by omega
      simp [thread_end, thread_start, if_neg h, hz]
    · simp [thread_start, hz]

/-- C12, witness: ten lineitems over three workers give sizes 3, 3 and 4; two
lineitems over five workers leave the first four ranges empty. -/
theorem partition_sizes_witness :
    (List.range 3).map (fun i => thread_end 10 (10 / 3) 3 i - thread_start (10 / 3) i) =
      [3, 3, 4] ∧
    (List.range 5).map (fun i => (thread_start (2 / 5) i, thread_end 2 (2 / 5) 5 i)) =
      [(0, 0), (0, 0), (0, 0), (0, 0), (0, 2)] ∧
    thread_end 10 (10 / 3) 3 (3 - 1) - thread_start (10 / 3) (3 - 1) = 10 / 3 + 10 % 3 ∧
    ((∀ i, i + 1 < 5 → thread_start (2 / 5) i = 0 ∧ thread_end 2 (2 / 5) 5 i = 0) ∧
      thread_start (2 / 5) (5 - 1) = 0 ∧ thread_end 2 (2 / 5) 5 (5 - 1) = 2) :=
  ⟨by decide, by decide, (partition_sizes 10 3 (by decide)).2.1,
    (partition_sizes 2 5 (by decide)).2.2.2 (by decide)⟩

/-- C13.  Filter conjunction commutativity: the worker's short-circuit chain
accepts a fact exactly when the plain conjunction of the join and filter
conditions holds, and then yields the nation's name and the fact's revenue; so
every chain whose decision is that conjunction, whatever the order of its
steps, agrees with the worker's on every fact and builds the same local map
from every list of facts; one such chain applies the region filter before the
local-supplier filter and the date filter last. -/
theorem filter_conjunction_commutes (start_date end_date : String) (t : Tables D) (key : Int) :
    (∀ f, (lineitem_revenue start_date end_date t key f).isSome = true ↔
      ∃ (O : Orders) (C : Customer) (S : Supplier) (N : Nation),
        StdMap.find t.orders_data f.L_ORDERKEY = some O ∧
        start_date ≤ O.O_ORDERDATE ∧ O.O_ORDERDATE < end_date ∧
        StdMap.find t.customer_data O.O_CUSTKEY = some C ∧
        StdMap.find t.supplier_data f.L_SUPPKEY = some S ∧
        C.C_NATIONKEY = S.S_NATIONKEY ∧
        StdMap.find t.nation_data C.C_NATIONKEY = some N ∧
        N.N_REGIONKEY = key) ∧
    (∀ f n x, lineitem_revenue start_date end_date t key f = some (n, x) ↔
      q5_accepts start_date end_date t key n f ∧ x = revenue f) ∧
    (∀ other : Lineitem D → Option (String × D),
      (∀ f n x, other f = some (n, x) ↔
        q5_accepts start_date end_date t key n f ∧ x = revenue f) →
      (∀ f, other f = lineitem_revenue start_date end_date t key f) ∧
      ∀ facts m,
        List.foldl (fun acc L => match other L with
          | none => acc
          | some (name, revenue) => StdMap.addTo acc name revenue) m facts =
        List.foldl (chunk_step start_date end_date t key) m facts) ∧
    (∀ f, lineitem_revenue_reordered start_date end_date t key f =
      lineitem_revenue start_date end_date t key f) ∧
    (∀ facts m, List.foldl (chunk_step_reordered start_date end_date t key) m facts =
      List.foldl (chunk_step start_date end_date t key) m facts) := by
  refine ⟨?_, fun f n x => lineitem_revenue_eq_some_iff start_date end_date t key f n x, ?_,
    fun f => lineitem_revenue_reordered_eq start_date end_date t key f, ?_⟩
  · intro f
    constructor
    · intro h
      cases hL : lineitem_revenue start_date end_date t key f with
      | none => rw [hL] at h; exact absurd h (by simp)
      | some p =>
        obtain ⟨n, x⟩ := p
        obtain ⟨⟨O, C, S, N, hO, h1, h2, hC, hS, hn, hN, hr, _⟩, _⟩ :=
          (lineitem_revenue_eq_some_iff start_date end_date t key f n x).mp hL
        exact ⟨O, C, S, N, hO, h1, h2, hC, hS, hn, hN, hr⟩
    · rintro ⟨O, C, S, N, hO, h1, h2, hC, hS, hn, hN, hr⟩
      rw [(lineitem_revenue_eq_some_iff start_date end_date t key f N.N_NAME (revenue f)).mpr
        ⟨⟨O, C, S, N, hO, h1, h2, hC, hS, hn, hN, hr, rfl⟩, rfl⟩]
      rfl
  · intro other hother
    have heq : ∀ f, other f = lineitem_revenue start_date end_date t key f := by
      intro f
      cases ho : other f with
      | some p =>
        obtain ⟨n, x⟩ := p
        exact ((lineitem_revenue_eq_some_iff start_date end_date t key f n x).mpr
          ((hother f n x).mp ho)).symm
      | none =>
        cases hL : lineitem_revenue start_date end_date t key f with
        | none => rfl
        | some p =>
          obtain ⟨n, x⟩ := p
          have := (hother f n x).mpr
            ((lineitem_revenue_eq_some_iff start_date end_date t key f n x).mp hL)
          rw [ho] at this
          exact Option.noConfusion this
    refine ⟨heq, fun facts m => ?_⟩
    have hstep : (fun (acc : ResultMap D) L => match other L with
        | none => acc
        | some (name, revenue) => StdMap.addTo acc name revenue) =
        chunk_step start_date end_date t key := by
      funext acc L
      unfold chunk_step
      rw [heq L]
    rw [hstep]
  · intro facts m
    have hstep : chunk_step_reordered start_date end_date t key =
        chunk_step start_date end_date t key := by
      funext m' L
      unfold chunk_step_reordered chunk_step
      rw [lineitem_revenue_reordered_eq]
    rw [hstep]

/-- C13, witness: on the scenario the chain in the other order takes the
worker's decision on both facts, and a worker built on it produces the
worker's local map `INDIA -> 90`. -/
theorem filter_conjunction_commutes_witness :
    lineitem_revenue_reordered "2024-01-01" "2024-06-01" scenario 0 ⟨1000, 200, 100, tenth⟩ =
      some ("INDIA", 90) ∧
    lineitem_revenue_reordered "2024-01-01" "2024-06-01" scenario 0 ⟨1000, 201, 50, 0⟩ =
      none ∧
    List.foldl (chunk_step_reordered "2024-01-01" "2024-06-01" scenario 0) []
        scenario.lineitem_data = [("INDIA", 90)] ∧
    (∀ f, lineitem_revenue_reordered "2024-01-01" "2024-06-01" scenario 0 f =
      lineitem_revenue "2024-01-01" "2024-06-01" scenario 0 f) :=
  ⟨by decide!, by decide!, by decide!,
    ((filter_conjunction_commutes "2024-01-01" "2024-06-01" scenario 0).2.2.1
      (lineitem_revenue_reordered "2024-01-01" "2024-06-01" scenario 0)
      (fun f n x => by
        rw [lineitem_revenue_reordered_eq]
        exact lineitem_revenue_eq_some_iff "2024-01-01" "2024-06-01" scenario 0 f n x)).1⟩

/-! ## Facts for the claims on ties, locality and the region scan -/

theorem chunk_facts_congr {D : Type} (facts1 facts2 : List (Lineitem D)) (lo hi : Nat)
    (hagree : ∀ i, lo ≤ i → i < hi → facts1[i]? = facts2[i]?) :
    chunk_facts facts1 lo hi = chunk_facts facts2 lo hi := by
  unfold chunk_facts
  apply List.ext_getElem?
  intro j
  by_cases hj : j < hi - lo
  · rw [List.getElem?_take_of_lt hj, List.getElem?_take_of_lt hj, List.getElem?_drop,
      List.getElem?_drop]
    exact hagree (lo + j) (by omega) (by omega)
  · rw [List.getElem?_eq_none (by rw [List.length_take]; omega),
      List.getElem?_eq_none (by rw [List.length_take]; omega)]

theorem find_target_region_key_first (r_name : String) (pre post : RegionMap) (k : Int)
    (r : Region) (hpre : ∀ p ∈ pre, p.2.R_NAME ≠ r_name) (hname : r.R_NAME = r_name) :
    find_target_region_key r_name (pre ++ (k, r) :: post) = k := by
  induction pre with
  | nil => simp [find_target_region_key, hname]
  | cons p pre ih =>
    obtain ⟨k', r'⟩ := p
    have hne : ¬ r'.R_NAME = r_name := hpre (k', r') (List.mem_cons_self _ _)
    simp only [List.cons_append, find_target_region_key, if_neg hne]
    exact ih (fun q hq => hpre q (List.mem_cons_of_mem _ hq))

theorem find_target_region_key_mem (r_name : String) (region_data : RegionMap)
    (hex : ∃ p ∈ region_data, p.2.R_NAME = r_name) :
    ∃ r, (find_target_region_key r_name region_data, r) ∈ region_data ∧ r.R_NAME = r_name := by
  induction region_data with
  | nil =>
    obtain ⟨p, hp, _⟩ := hex
    exact absurd hp (List.not_mem_nil p)
  | cons q rest ih =>
    obtain ⟨k, r⟩ := q
    by_cases hn : r.R_NAME = r_name
    · exact ⟨r, by simp [find_target_region_key, hn], hn⟩
    · have hex' : ∃ p ∈ rest, p.2.R_NAME = r_name := by
        obtain ⟨p, hp, hpn⟩ := hex
        rcases List.mem_cons.mp hp with e | e
        · subst e
          exact absurd hpn hn
        · exact ⟨p, e, hpn⟩
      obtain ⟨r', hr', hn'⟩ := ih hex'
      refine ⟨r', ?_, hn'⟩
      simp only [find_target_region_key, if_neg hn]
      exact List.mem_cons_of_mem _ hr'

theorem find_target_region_key_le (r_name : String) (region_data : RegionMap)
    (hwf : StdMap.WF region_data) (p : Int × Region) (hp : p ∈ region_data)
    (hpn : p.2.R_NAME = r_name) :
    find_target_region_key r_name region_data ≤ p.1 := by
  induction region_data with
  | nil => exact absurd hp (List.not_mem_nil p)
  | cons q rest ih =>
    obtain ⟨k, r⟩ := q
    rw [StdMap.wf_cons_iff] at hwf
    by_cases hn : r.R_NAME = r_name
    · simp only [find_target_region_key, if_pos hn]
      rcases List.mem_cons.mp hp with e | e
      · subst e
        exact le_refl _
      · exact le_of_lt (hwf.1 p.1 (List.mem_map.mpr ⟨p, e, rfl⟩))
    · simp only [find_target_region_key, if_neg hn]
      rcases List.mem_cons.mp hp with e | e
      · subst e
        exact absurd hpn hn
      · exact ih hwf.2 e

theorem lineitem_revenue_of_other_region (start_date end_date : String) (t : Tables D)
    (key : Int) (f : Lineitem D) (S : Supplier) (N : Nation)
    (hS : StdMap.find t.supplier_data f.L_SUPPKEY = some S)
    (hN : StdMap.find t.nation_data S.S_NATIONKEY = some N) (hr : N.N_REGIONKEY ≠ key) :
    lineitem_revenue start_date end_date t key f = none := by
  cases hL : lineitem_revenue start_date end_date t key f with
  | none => rfl
  | some p =>
    obtain ⟨n, x⟩ := p
    obtain ⟨⟨O, C, S', N', _, _, _, _, hS', hn, hN', hr', _⟩, _⟩ :=
      (lineitem_revenue_eq_some_iff start_date end_date t key f n x).mp hL
    rw [hS] at hS'
    injection hS' with e
    subst e
    rw [hn, hN] at hN'
    injection hN' with e
    subst e
    exact absurd hr' hr

/-- C18.  Worker range locality: for a range `lo <= hi` and two lineitem
vectors of length at least `hi` that agree at every index of `[lo, hi)`, with
the same five maps, region name and date bounds, the worker returns with the
same local map. -/
theorem worker_range_local (r_name start_date end_date : String) (t : Tables D)
    (facts1 facts2 : List (Lineitem D)) (lo hi : Nat) (m : ResultMap D) (hlo : lo ≤ hi)
    (h1 : hi ≤ facts1.length) (h2 : hi ≤ facts2.length)
    (hagree : ∀ i, lo ≤ i → i < hi → facts1[i]? = facts2[i]?) :
    process_lineitem_chunk r_name start_date end_date (with_lineitems t facts1) lo hi m =
      process_lineitem_chunk r_name start_date end_date (with_lineitems t facts2) lo hi m := by
  rw [process_lineitem_chunk_ok r_name start_date end_date (with_lineitems t facts1) lo hi m
      hlo h1,
    process_lineitem_chunk_ok r_name start_date end_date (with_lineitems t facts2) lo hi m
      hlo h2]
  congr 1
  show (if find_target_region_key r_name t.region_data = -1 then m
      else merge_local m (contributions start_date end_date (with_lineitems t facts1)
        (find_target_region_key r_name t.region_data) (chunk_facts facts1 lo hi))) =
    (if find_target_region_key r_name t.region_data = -1 then m
      else merge_local m (contributions start_date end_date (with_lineitems t facts2)
        (find_target_region_key r_name t.region_data) (chunk_facts facts2 lo hi)))
  rw [contributions_with_lineitems, contributions_with_lineitems,
    chunk_facts_congr facts1 facts2 lo hi hagree]

/-- C18, witness: the worker on the range `[0, 1)` of the scenario's vector and
of a vector that differs from it only at index 1. -/
theorem worker_range_local_witness :
    process_lineitem_chunk "ASIA" "2024-01-01" "2024-06-01"
        (with_lineitems scenario [⟨1000, 200, 100, tenth⟩, ⟨1000, 201, 50, 0⟩]) 0 1 [] =
      process_lineitem_chunk "ASIA" "2024-01-01" "2024-06-01"
        (with_lineitems scenario [⟨1000, 200, 100, tenth⟩, ⟨1000, 200, 70, 0⟩]) 0 1 [] ∧
    process_lineitem_chunk "ASIA" "2024-01-01" "2024-06-01"
        (with_lineitems scenario [⟨1000, 200, 100, tenth⟩, ⟨1000, 200, 70, 0⟩]) 0 1 [] =
      .ok [("INDIA", 90)] :=
  ⟨worker_range_local "ASIA" "2024-01-01" "2024-06-01" scenario
      [⟨1000, 200, 100, tenth⟩, ⟨1000, 201, 50, 0⟩]
      [⟨1000, 200, 100, tenth⟩, ⟨1000, 200, 70, 0⟩] 0 1 [] (by decide) (by decide) (by decide)
      (by
        intro i _ hi
        have hi0 : i = 0 := by omega
        subst hi0
        rfl),
    by decide!⟩

/-- C19.  Sentinel collision: when the first region record in the map's
iteration order whose name is `r_name` has `R_REGIONKEY = -1` (and is stored
under that key, as `parseRegion` stores it), the region scan ends on `-1` and
the worker returns with its local map unchanged for every range, as it does
when no region has the name. -/
theorem sentinel_region_key (r_name start_date end_date : String) (t : Tables D)
    (pre post : RegionMap) (k : Int) (r : Region)
    (hmap : t.region_data = pre ++ (k, r) :: post)
    (hpre : ∀ p ∈ pre, p.2.R_NAME ≠ r_name) (hname : r.R_NAME = r_name)
    (hkeyed : k = r.R_REGIONKEY) (hsent : r.R_REGIONKEY = -1) :
    find_target_region_key r_name t.region_data = -1 ∧
    ∀ lo hi m, process_lineitem_chunk r_name start_date end_date t lo hi m = .ok m := by
  have hk : find_target_region_key r_name t.region_data = -1 := by
    rw [hmap, find_target_region_key_first r_name pre post k r hpre hname, hkeyed, hsent]
  refine ⟨hk, fun lo hi m => ?_⟩
  unfold process_lineitem_chunk
  simp only [hk, if_true]

/-- C19, witness: in the scenario with `ASIA` stored under the key `-1` the
first fact passes every join and filter for the region key `-1`, and the worker
still returns with the local map unchanged. -/
theorem sentinel_region_key_witness :
    q5_accepts "2024-01-01" "2024-06-01" sentinel_scenario (-1) "INDIA"
      ⟨1000, 200, 100, tenth⟩ ∧
    find_target_region_key "ASIA" sentinel_scenario.region_data = -1 ∧
    ∀ lo hi m,
      process_lineitem_chunk "ASIA" "2024-01-01" "2024-06-01" sentinel_scenario lo hi m =
        .ok m :=
  ⟨by decide!,
    sentinel_region_key "ASIA" "2024-01-01" "2024-06-01" sentinel_scenario [] []
      (-1) ⟨-1, "ASIA"⟩ rfl (fun p hp => absurd hp (List.not_mem_nil p)) rfl rfl rfl⟩

/-! ## Facts about loading -/

theorem StdMap.mem_keys_assign {K V : Type} [LinearOrder K] (m : StdMap K V) (k : K) (v : V)
    (k' : K) : k' ∈ StdMap.keys (StdMap.assign m k v) ↔ k' = k ∨ k' ∈ StdMap.keys m := by
  induction m with
  | nil => simp [StdMap.assign, StdMap.keys]
  | cons p rest ih =>
    obtain ⟨k1, v1⟩ := p
    simp only [StdMap.keys] at ih
    by_cases h1 : k < k1
    · simp [StdMap.assign, StdMap.keys, h1]
    · by_cases h2 : k = k1
      · subst h2
        simp [StdMap.assign, StdMap.keys]
      · simp only [StdMap.assign, StdMap.keys, h1, h2, if_false, List.map_cons, List.mem_cons,
          ih]
        tauto

theorem StdMap.assign_wf {K V : Type} [LinearOrder K] (m : StdMap K V) (k : K) (v : V)
    (h : StdMap.WF m) : StdMap.WF (StdMap.assign m k v) := by
  induction m with
  | nil => simp [StdMap.assign, StdMap.WF]
  | cons p rest ih =>
    obtain ⟨k1, v1⟩ := p
    rw [StdMap.wf_cons_iff] at h
    obtain ⟨hlt, hrest⟩ := h
    by_cases h1 : k < k1
    · simp only [StdMap.assign, h1, if_true]
      rw [StdMap.wf_cons_iff, StdMap.wf_cons_iff]
      refine ⟨?_, hlt, hrest⟩
      intro k' hk'
      simp only [StdMap.keys, List.map_cons, List.mem_cons] at hk'
      rcases hk' with rfl | hk'
      · exact h1
      · exact lt_trans h1 (hlt k' hk')
    · by_cases h2 : k = k1
      · subst h2
        simp only [StdMap.assign, h1, if_false, if_true]
        rw [StdMap.wf_cons_iff]
        exact ⟨hlt, hrest⟩
      · simp only [StdMap.assign, h1, h2, if_false]
        rw [StdMap.wf_cons_iff]
        refine ⟨?_, ih hrest⟩
        intro k' hk'
        rw [StdMap.mem_keys_assign] at hk'
        rcases hk' with rfl | hk'
        · exact lt_of_le_of_ne (not_lt.mp h1) (fun e => h2 e.symm)
        · exact hlt k' hk'

theorem StdMap.find_assign {K V : Type} [DecidableEq K] [LinearOrder K] (m : StdMap K V)
    (k : K) (v : V) (k' : K) (h : StdMap.WF m) :
    StdMap.find (StdMap.assign m k v) k' = if k' = k then some v else StdMap.find m k' := by
  induction m with
  | nil =>
    by_cases e : k' = k
    · simp [StdMap.assign, StdMap.find, e]
    · have e' : ¬ k = k' := fun e2 => e e2.symm
      simp [StdMap.assign, StdMap.find, e, e']
  | cons p rest ih =>
    obtain ⟨k1, v1⟩ := p
    rw [StdMap.wf_cons_iff] at h
    obtain ⟨hlt, hrest⟩ := h
    by_cases h1 : k < k1
    · have hne : ¬ k1 = k := fun e => lt_irrefl k (e ▸ h1)
      by_cases e : k' = k
      · subst e
        simp [StdMap.assign, StdMap.find, h1]
      · have e' : ¬ k = k' := fun e2 => e e2.symm
        simp [StdMap.assign, StdMap.find, h1, e, e']
    · by_cases h2 : k = k1
      · subst h2
        by_cases e : k' = k
        · subst e
          simp [StdMap.assign, StdMap.find]
        · have e' : ¬ k = k' := fun e2 => e e2.symm
          simp [StdMap.assign, StdMap.find, e, e']
      · have h2' : ¬ k1 = k := fun e => h2 e.symm
        simp only [StdMap.assign, h1, h2, if_false, StdMap.find]
        rw [ih hrest]
        by_cases e : k' = k
        · subst e
          simp [h2']
        · simp [e]

theorem foldl_assign_wf {V : Type} (key : V → Int) (records : List V) (m : StdMap Int V)
    (h : StdMap.WF m) :
    StdMap.WF (List.foldl (fun m r => StdMap.assign m (key r) r) m records) := by
  induction records generalizing m with
  | nil => exact h
  | cons r records ih => exact ih _ (StdMap.assign_wf m (key r) r h)

theorem find_foldl_assign {V : Type} (key : V → Int) (records : List V) (m : StdMap Int V)
    (k : Int) (h : StdMap.WF m) :
    StdMap.find (List.foldl (fun m r => StdMap.assign m (key r) r) m records) k =
      (records.reverse.find? (fun r => decide (key r = k))).or (StdMap.find m k) := by
  induction records generalizing m with
  | nil => simp
  | cons r records ih =>
    rw [List.foldl_cons, ih _ (StdMap.assign_wf m (key r) r h), StdMap.find_assign _ _ _ _ h,
      List.reverse_cons, List.find?_append, Option.or_assoc, List.find?_singleton]
    by_cases e : k = key r
    · have e' : decide (key r = k) = true := decide_eq_true e.symm
      rw [if_pos e, if_pos e']
      rfl
    · have e' : ¬ decide (key r = k) = true := by
        rw [decide_eq_true_iff]
        exact fun e2 => e e2.symm
      rw [if_neg e, if_neg e']
      rfl

theorem find_load_records {V : Type} (key : V → Int) (records : List V) (k : Int) :
    StdMap.find (load_records key records) k =
      records.reverse.find? (fun r => decide (key r = k)) := by
  unfold load_records
  rw [find_foldl_assign key records [] k StdMap.wf_nil]
  simp [StdMap.find]

theorem mem_keys_load_records {V : Type} (key : V → Int) (records : List V) (k : Int) :
    k ∈ StdMap.keys (load_records key records) ↔ ∃ r ∈ records, key r = k := by
  rw [← StdMap.find_isSome_iff, find_load_records, List.find?_isSome]
  constructor
  · rintro ⟨r, hr, hk⟩
    exact ⟨r, List.mem_reverse.mp hr, of_decide_eq_true hk⟩
  · rintro ⟨r, hr, hk⟩
    exact ⟨r, List.mem_reverse.mpr hr, decide_eq_true hk⟩

theorem readFile_loop_well_formed {V : Type}
    (parser : String → StdMap Int V → Bool × StdMap Int V) (record_of : String → Option V)
    (key : V → Int)
    (hparser : ∀ line m r, record_of line = some r →
      parser line m = (true, StdMap.assign m (key r) r))
    (lines : List String) (records : List V)
    (h : well_formed_lines record_of lines records) (m : StdMap Int V) :
    readFile_loop parser lines m =
      List.foldl (fun m r => StdMap.assign m (key r) r) m records := by
  unfold well_formed_lines at h
  induction h generalizing m with
  | nil => rfl
  | cons hhead _ ih =>
    rw [readFile_loop, if_neg hhead.1, hparser _ m _ hhead.2, List.foldl_cons]
    exact ih _

theorem parser_last_write_wins {V : Type}
    (parser : String → StdMap Int V → Bool × StdMap Int V) (record_of : String → Option V)
    (key : V → Int)
    (hparser : ∀ line m r, record_of line = some r →
      parser line m = (true, StdMap.assign m (key r) r)) :
    LastWriteWins parser record_of key := by
  refine ⟨hparser, ?_⟩
  intro lines records h
  refine ⟨?_, foldl_assign_wf key records [] StdMap.wf_nil,
    fun k => mem_keys_load_records key records k, fun k => find_load_records key records k⟩
  show (true, readFile_loop parser lines []) = (true, load_records key records)
  rw [readFile_loop_well_formed parser record_of key hparser lines records h []]
  rfl

theorem readFile_loop_filter {C : Type} (parser : String → C → Bool × C)
    (h1 : ∀ line c, (parser line c).1 = false → (parser line c).2 = c)
    (h2 : ∀ line c c', (parser line c).1 = (parser line c').1)
    (lines : List String) (c c0 : C) :
    readFile_loop parser lines c =
      readFile_loop parser
        (lines.filter (fun l => (parser (strip_trailing_bar l) c0).1)) c := by
  induction lines generalizing c with
  | nil => rfl
  | cons line rest ih =>
    cases hp : (parser (strip_trailing_bar line) c0).1 with
    | true =>
      rw [List.filter_cons]
      simp only [hp, if_true]
      by_cases he : line = ""
      · rw [readFile_loop, if_pos he, readFile_loop, if_pos he]
        exact ih c
      · rw [readFile_loop, if_neg he, readFile_loop, if_neg he]
        exact ih _
    | false =>
      rw [List.filter_cons]
      simp only [hp, Bool.false_eq_true, if_false]
      by_cases he : line = ""
      · rw [readFile_loop, if_pos he]
        exact ih c
      · have hc : (parser (strip_trailing_bar line) c).1 = false := by
          rw [h2 _ c c0]
          exact hp
        rw [readFile_loop, if_neg he, h1 _ c hc]
        exact ih c

theorem parser_skips_malformed {C : Type} (parser : String → C → Bool × C)
    (h1 : ∀ line c, (parser line c).1 = false → (parser line c).2 = c)
    (h2 : ∀ line c c', (parser line c).1 = (parser line c').1) :
    SkipsMalformed parser := by
  refine ⟨h1, h2, ?_⟩
  intro lines c c0
  show (true, readFile_loop parser lines c) = _
  rw [← readFile_loop_filter parser h1 h2 lines c c0]

theorem find?_key_of_nodup {V : Type} (key : V → Int) (l : List V) (r : V) (k : Int)
    (hnd : (l.map key).Nodup) (hr : r ∈ l) (hk : key r = k) :
    l.find? (fun x => decide (key x = k)) = some r := by
  induction l with
  | nil => exact absurd hr (List.not_mem_nil r)
  | cons a l ih =>
    rw [List.map_cons, List.nodup_cons] at hnd
    rcases List.mem_cons.mp hr with e | e
    · subst e
      simp [List.find?_cons, hk]
    · have hne : ¬ key a = k := by
        intro hak
        exact hnd.1 (List.mem_map.mpr ⟨r, e, by rw [hk, hak]⟩)
      simp only [List.find?_cons, decide_eq_false hne]
      exact ih hnd.2 e

theorem load_records_perm {V : Type} (key : V → Int) (records1 records2 : List V)
    (hperm : List.Perm records1 records2) (hnd : (records1.map key).Nodup) :
    load_records key records1 = load_records key records2 := by
  have hnd2 : (records2.map key).Nodup := (hperm.map key).nodup_iff.mp hnd
  have hr1 : (records1.reverse.map key).Nodup :=
    ((List.reverse_perm records1).map key).nodup_iff.mpr hnd
  have hr2 : (records2.reverse.map key).Nodup :=
    ((List.reverse_perm records2).map key).nodup_iff.mpr hnd2
  apply StdMap.ext _ _ (foldl_assign_wf key records1 [] StdMap.wf_nil)
    (foldl_assign_wf key records2 [] StdMap.wf_nil)
  intro k
  show StdMap.find (load_records key records1) k = StdMap.find (load_records key records2) k
  rw [find_load_records, find_load_records]
  cases h1 : records1.reverse.find? (fun r => decide (key r = k)) with
  | some r =>
    have hmem : r ∈ records1.reverse := List.mem_of_find?_eq_some h1
    have hp := List.find?_some h1
    have hk : key r = k := by simpa using hp
    have hmem2 : r ∈ records2.reverse :=
      List.mem_reverse.mpr (hperm.mem_iff.mp (List.mem_reverse.mp hmem))
    exact (find?_key_of_nodup key _ r k hr2 hmem2 hk).symm
  | none =>
    cases h2 : records2.reverse.find? (fun r => decide (key r = k)) with
    | none => rfl
    | some r =>
      have hmem : r ∈ records2.reverse := List.mem_of_find?_eq_some h2
      have hp := List.find?_some h2
      have hk : key r = k := by simpa using hp
      have hmem1 : r ∈ records1.reverse :=
        List.mem_reverse.mpr (hperm.mem_iff.mpr (List.mem_reverse.mp hmem))
      rw [find?_key_of_nodup key _ r k hr1 hmem1 hk] at h1
      exact Option.noConfusion h1

/-- C15.  Last-write-wins dimension index: for each of the five keyed tables
(region, nation, customer, supplier, orders), a well-formed line is stored under
its key without an error whatever the map already holds, and loading the
well-formed lines of a sequence of records in file order into an empty map
returns `true` with a well-formed map whose key set is exactly the set of keys
of the sequence and whose entry under each key is the last record of the
sequence with that key. -/
theorem last_write_wins (stoi : String → Option Int) :
    LastWriteWins (parseRegion stoi) (parseRegion_record stoi) Region.R_REGIONKEY ∧
    LastWriteWins (parseNation stoi) (parseNation_record stoi) Nation.N_NATIONKEY ∧
    LastWriteWins (parseCustomer stoi) (parseCustomer_record stoi) Customer.C_CUSTKEY ∧
    LastWriteWins (parseSupplier stoi) (parseSupplier_record stoi) Supplier.S_SUPPKEY ∧
    LastWriteWins (parseOrders stoi) (parseOrders_record stoi) Orders.O_ORDERKEY := by
  refine ⟨?_, ?_, ?_, ?_, ?_⟩
  · apply parser_last_write_wins
    intro line m r h
    unfold parseRegion
    rw [h]
  · apply parser_last_write_wins
    intro line m r h
    unfold parseNation
    rw [h]
  · apply parser_last_write_wins
    intro line m r h
    unfold parseCustomer
    rw [h]
  · apply parser_last_write_wins
    intro line m r h
    unfold parseSupplier
    rw [h]
  · apply parser_last_write_wins
    intro line m r h
    unfold parseOrders
    rw [h]

/-- C15, witness: a region file with the key 0 on its first and on its third
line; the map holds the third line's record under 0. -/
theorem last_write_wins_witness :
    readFile (some ["0|AFRICA|first|", "2|ASIA|second|", "0|AMERICA|third|"]) []
        (parseRegion String.toInt?) =
      (true, [(0, ⟨0, "AMERICA"⟩), (2, ⟨2, "ASIA"⟩)]) ∧
    readFile (some ["0|AFRICA|first|", "2|ASIA|second|", "0|AMERICA|third|"]) []
        (parseRegion String.toInt?) =
      (true, load_records Region.R_REGIONKEY
        [⟨0, "AFRICA"⟩, ⟨2, "ASIA"⟩, ⟨0, "AMERICA"⟩]) ∧
    StdMap.find (load_records Region.R_REGIONKEY
        [⟨0, "AFRICA"⟩, ⟨2, "ASIA"⟩, ⟨0, "AMERICA"⟩]) 0 =
      [(⟨0, "AFRICA"⟩ : Region), ⟨2, "ASIA"⟩, ⟨0, "AMERICA"⟩].reverse.find?
        (fun r => decide (r.R_REGIONKEY = 0)) :=
  ⟨by decide!,
    ((last_write_wins String.toInt?).1.2
      ["0|AFRICA|first|", "2|ASIA|second|", "0|AMERICA|third|"]
      [⟨0, "AFRICA"⟩, ⟨2, "ASIA"⟩, ⟨0, "AMERICA"⟩]
      (List.Forall₂.cons ⟨by decide, by decide!⟩
        (List.Forall₂.cons ⟨by decide, by decide!⟩
          (List.Forall₂.cons ⟨by decide, by decide!⟩ List.Forall₂.nil)))).1,
    ((last_write_wins String.toInt?).1.2
      ["0|AFRICA|first|", "2|ASIA|second|", "0|AMERICA|third|"]
      [⟨0, "AFRICA"⟩, ⟨2, "ASIA"⟩, ⟨0, "AMERICA"⟩]
      (List.Forall₂.cons ⟨by decide, by decide!⟩
        (List.Forall₂.cons ⟨by decide, by decide!⟩
          (List.Forall₂.cons ⟨by decide, by decide!⟩ List.Forall₂.nil)))).2.2.2 0⟩

/-- C16.  A malformed record is skipped atomically: for each of the six
parsers, a line on which the parser throws leaves the container exactly as it
was, whether it throws depends on the line only, and `readFile` goes on with the
lines after it and returns `true`, so that the loaded container is the one that
loading only the lines that parse gives. -/
theorem malformed_record_skipped {D : Type} (stoi : String → Option Int)
    (stod : String → Option D) :
    SkipsMalformed (parseRegion stoi) ∧
    SkipsMalformed (parseNation stoi) ∧
    SkipsMalformed (parseCustomer stoi) ∧
    SkipsMalformed (parseSupplier stoi) ∧
    SkipsMalformed (parseOrders stoi) ∧
    SkipsMalformed (parseLineitem stoi stod) := by
  refine ⟨?_, ?_, ?_, ?_, ?_, ?_⟩
  · apply parser_skips_malformed
    · intro line c h
      unfold parseRegion at h ⊢
      cases hr : parseRegion_record stoi line with
      | none => rfl
      | some r => rw [hr] at h; exact Bool.noConfusion h
    · intro line c c'
      unfold parseRegion
      cases parseRegion_record stoi line <;> rfl
  · apply parser_skips_malformed
    · intro line c h
      unfold parseNation at h ⊢
      cases hr : parseNation_record stoi line with
      | none => rfl
      | some r => rw [hr] at h; exact Bool.noConfusion h
    · intro line c c'
      unfold parseNation
      cases parseNation_record stoi line <;> rfl
  · apply parser_skips_malformed
    · intro line c h
      unfold parseCustomer at h ⊢
      cases hr : parseCustomer_record stoi line with
      | none => rfl
      | some r => rw [hr] at h; exact Bool.noConfusion h
    · intro line c c'
      unfold parseCustomer
      cases parseCustomer_record stoi line <;> rfl
  · apply parser_skips_malformed
    · intro line c h
      unfold parseSupplier at h ⊢
      cases hr : parseSupplier_record stoi line with
      | none => rfl
      | some r => rw [hr] at h; exact Bool.noConfusion h
    · intro line c c'
      unfold parseSupplier
      cases parseSupplier_record stoi line <;> rfl
  · apply parser_skips_malformed
    · intro line c h
      unfold parseOrders at h ⊢
      cases hr : parseOrders_record stoi line with
      | none => rfl
      | some r => rw [hr] at h; exact Bool.noConfusion h
    · intro line c c'
      unfold parseOrders
      cases parseOrders_record stoi line <;> rfl
  · apply parser_skips_malformed
    · intro line c h
      unfold parseLineitem at h ⊢
      cases hr : parseLineitem_record stoi stod line with
      | none => rfl
      | some r => rw [hr] at h; exact Bool.noConfusion h
    · intro line c c'
      unfold parseLineitem
      cases parseLineitem_record stoi stod line <;> rfl

/-- C16, witness: a region file whose second line has a non-numeric key; the
line is skipped, the third line is loaded, and the result is that of the file
without the second line. -/
theorem malformed_record_skipped_witness :
    readFile (some ["0|AFRICA|first|", "x|BAD|second|", "2|ASIA|third|"]) []
        (parseRegion String.toInt?) =
      (true, [(0, ⟨0, "AFRICA"⟩), (2, ⟨2, "ASIA"⟩)]) ∧
    parseRegion String.toInt? "x|BAD|second" [(0, ⟨0, "AFRICA"⟩)] =
      (false, [(0, ⟨0, "AFRICA"⟩)]) ∧
    readFile (some ["0|AFRICA|first|", "x|BAD|second|", "2|ASIA|third|"]) []
        (parseRegion String.toInt?) =
      (true, readFile_loop (parseRegion String.toInt?)
        (["0|AFRICA|first|", "x|BAD|second|", "2|ASIA|third|"].filter
          (fun l => (parseRegion String.toInt? (strip_trailing_bar l) []).1)) []) :=
  ⟨by decide!, by decide!,
    (malformed_record_skipped String.toInt? (fun _ => (none : Option Binary64))).1.2.2
      ["0|AFRICA|first|", "x|BAD|second|", "2|ASIA|third|"] [] []⟩

/-- C20.  Region-name resolution: for every region map (keys strictly
ascending) in which some region has the name `r_name`, the key that the worker's
scan yields belongs to a region of that name and is the smallest key among the
regions of that name; a fact whose supplier's nation lies in a region with any
other key, such as another region of the same name, is rejected; and loading the
same region records with pairwise distinct keys in another order gives the same
key. -/
theorem target_region_key_smallest (r_name start_date end_date : String) (t : Tables D)
    (hwf : StdMap.WF t.region_data) (hex : ∃ p ∈ t.region_data, p.2.R_NAME = r_name) :
    (∃ r, (find_target_region_key r_name t.region_data, r) ∈ t.region_data ∧
      r.R_NAME = r_name) ∧
    (∀ p ∈ t.region_data, p.2.R_NAME = r_name →
      find_target_region_key r_name t.region_data ≤ p.1) ∧
    (∀ f S N, StdMap.find t.supplier_data f.L_SUPPKEY = some S →
      StdMap.find t.nation_data S.S_NATIONKEY = some N →
      N.N_REGIONKEY ≠ find_target_region_key r_name t.region_data →
      lineitem_revenue start_date end_date t
        (find_target_region_key r_name t.region_data) f = none) ∧
    (∀ records1 records2 : List Region, List.Perm records1 records2 →
      (records1.map Region.R_REGIONKEY).Nodup →
      find_target_region_key r_name (load_records Region.R_REGIONKEY records1) =
        find_target_region_key r_name (load_records Region.R_REGIONKEY records2)) := by
  refine ⟨find_target_region_key_mem r_name t.region_data hex,
    fun p hp hpn => find_target_region_key_le r_name t.region_data hwf p hp hpn,
    fun f S N hS hN hr =>
      lineitem_revenue_of_other_region start_date end_date t _ f S N hS hN hr, ?_⟩
  intro records1 records2 hperm hnd
  rw [load_records_perm Region.R_REGIONKEY records1 records2 hperm hnd]

/-- C20, witness: with `ASIA` stored under the keys 0 and 3 the scan yields 0;
the fact of `CHINA`, whose region is the other `ASIA` with key 3, is rejected,
and the query result holds `INDIA` only. -/
theorem target_region_key_smallest_witness :
    find_target_region_key "ASIA" twin_region_scenario.region_data = 0 ∧
    executeQuery5 "ASIA" "2024-01-01" "2024-06-01" 1 twin_region_scenario [] =
      .ok (true, [("INDIA", 90)]) ∧
    lineitem_revenue "2024-01-01" "2024-06-01" twin_region_scenario
      (find_target_region_key "ASIA" twin_region_scenario.region_data)
      ⟨1001, 201, 50, 0⟩ = none ∧
    (∀ p ∈ twin_region_scenario.region_data, p.2.R_NAME = "ASIA" →
      find_target_region_key "ASIA" twin_region_scenario.region_data ≤ p.1) :=
  ⟨by decide!, by decide!,
    (target_region_key_smallest "ASIA" "2024-01-01" "2024-06-01" twin_region_scenario
      (by unfold StdMap.WF; decide!) ⟨(0, ⟨0, "ASIA"⟩), by decide, rfl⟩).2.2.1
      ⟨1001, 201, 50, 0⟩ ⟨201, 1⟩ ⟨1, "CHINA", 3⟩ (by decide!) (by decide!) (by decide!),
    (target_region_key_smallest "ASIA" "2024-01-01" "2024-06-01" twin_region_scenario
      (by unfold StdMap.WF; decide!) ⟨(0, ⟨0, "ASIA"⟩), by decide, rfl⟩).2.1⟩

/-! ## Facts about `parseArgs` -/

theorem pairs_induction {α : Type} {P : List α → Prop} (h0 : P []) (h1 : ∀ x, P [x])
    (h2 : ∀ x y rest, P rest → P (x :: y :: rest)) : ∀ l, P l
  | [] => h0
  | [x] => h1 x
  | x :: y :: rest => h2 x y rest (pairs_induction h0 h1 h2 rest)

theorem parseArgs_loop_step (stoi : String → Option Int) (x y : String) (rest : List String)
    (a : Args) :
    parseArgs_loop stoi (x :: y :: rest) a = (false, a) ∨
    ∃ a', parseArgs_loop stoi (x :: y :: rest) a = parseArgs_loop stoi rest a' ∧
      (x ≠ "--threads" → a'.num_threads = a.num_threads) := by
  rw [parseArgs_loop]
  split_ifs with h1 h2 h3 h4 h5 h6
  · exact Or.inr ⟨_, rfl, fun _ => rfl⟩
  · exact Or.inr ⟨_, rfl, fun _ => rfl⟩
  · exact Or.inr ⟨_, rfl, fun _ => rfl⟩
  · cases stoi y with
    | none => exact Or.inl rfl
    | some n => exact Or.inr ⟨_, rfl, fun hne => absurd h4 hne⟩
  · exact Or.inr ⟨_, rfl, fun _ => rfl⟩
  · exact Or.inr ⟨_, rfl, fun _ => rfl⟩
  · exact Or.inl rfl

theorem parseArgs_loop_unknown_head (stoi : String → Option Int) (x y : String)
    (rest : List String) (a : Args) (h : x ∉ known_flags) :
    parseArgs_loop stoi (x :: y :: rest) a = (false, a) := by
  simp only [known_flags, List.mem_cons, List.mem_singleton, List.not_mem_nil, or_false,
    not_or] at h
  obtain ⟨h1, h2, h3, h4, h5, h6⟩ := h
  rw [parseArgs_loop, if_neg h1, if_neg h2, if_neg h3, if_neg h4, if_neg h5, if_neg h6]

theorem parseArgs_loop_threads_head (stoi : String → Option Int) (y : String)
    (rest : List String) (a : Args) (h : stoi y = none) :
    parseArgs_loop stoi ("--threads" :: y :: rest) a = (false, a) := by
  rw [parseArgs_loop, if_neg (by decide), if_neg (by decide), if_neg (by decide),
    if_pos rfl, h]

theorem parseArgs_loop_unknown (stoi : String → Option Int) (l : List String) :
    ∀ a, (∃ arg ∈ flag_positions l, arg ∉ known_flags) →
      (parseArgs_loop stoi l a).1 = false := by
  induction l using pairs_induction with
  | h0 =>
    rintro a ⟨arg, harg, _⟩
    exact absurd harg (List.not_mem_nil arg)
  | h1 x =>
    intro a _
    rfl
  | h2 x y rest ih =>
    rintro a ⟨arg, harg, hun⟩
    rcases List.mem_cons.mp harg with e | e
    · subst e
      rw [parseArgs_loop_unknown_head stoi arg y rest a hun]
    · rcases parseArgs_loop_step stoi x y rest a with h | ⟨a', h, _⟩
      · rw [h]
      · rw [h]
        exact ih a' ⟨arg, e, hun⟩

theorem parseArgs_loop_odd (stoi : String → Option Int) (l : List String) :
    ∀ a, l.length % 2 = 1 → (parseArgs_loop stoi l a).1 = false := by
  induction l using pairs_induction with
  | h0 =>
    intro a h
    exact absurd h (by decide)
  | h1 x =>
    intro a _
    rfl
  | h2 x y rest ih =>
    intro a h
    have hrest : rest.length % 2 = 1 := by
      simp only [List.length_cons] at h
      omega
    rcases parseArgs_loop_step stoi x y rest a with h' | ⟨a', h', _⟩
    · rw [h']
    · rw [h']
      exact ih a' hrest

theorem parseArgs_loop_bad_threads (stoi : String → Option Int) (l : List String) :
    ∀ a, (∃ value, ("--threads", value) ∈ flag_values l ∧ stoi value = none) →
      (parseArgs_loop stoi l a).1 = false := by
  induction l using pairs_induction with
  | h0 =>
    rintro a ⟨v, hv, _⟩
    exact absurd hv (List.not_mem_nil _)
  | h1 x =>
    intro a _
    rfl
  | h2 x y rest ih =>
    rintro a ⟨v, hv, hs⟩
    rcases List.mem_cons.mp hv with e | e
    · injection e with e1 e2
      subst e1
      subst e2
      rw [parseArgs_loop_threads_head stoi v rest a hs]
    · rcases parseArgs_loop_step stoi x y rest a with h | ⟨a', h, _⟩
      · rw [h]
      · rw [h]
        exact ih a' ⟨v, e, hs⟩

theorem parseArgs_loop_threads_kept (stoi : String → Option Int) (l : List String) :
    ∀ a, "--threads" ∉ flag_positions l →
      (parseArgs_loop stoi l a).2.num_threads = a.num_threads := by
  induction l using pairs_induction with
  | h0 =>
    intro a _
    rfl
  | h1 x =>
    intro a _
    rfl
  | h2 x y rest ih =>
    intro a h
    have hx : x ≠ "--threads" := fun e => h (e ▸ List.mem_cons_self _ _)
    have hrest : "--threads" ∉ flag_positions rest := fun e => h (List.mem_cons_of_mem _ e)
    rcases parseArgs_loop_step stoi x y rest a with h' | ⟨a', h', hn⟩
    · rw [h']
    · rw [h', ih a' hrest, hn hx]

theorem parseArgs_of_loop_false (stoi : String → Option Int) (argv : List String) (a : Args)
    (h : (parseArgs_loop stoi (argv.drop 1) { a with num_threads := 1 }).1 = false) :
    (parseArgs stoi argv a).1 = false := by
  unfold parseArgs
  cases hl : parseArgs_loop stoi (argv.drop 1) { a with num_threads := 1 } with
  | mk b a' =>
    rw [hl] at h
    simp only at h
    subst h
    rfl

theorem parseArgs_snd (stoi : String → Option Int) (argv : List String) (a : Args) :
    (parseArgs stoi argv a).2 =
      (parseArgs_loop stoi (argv.drop 1) { a with num_threads := 1 }).2 := by
  unfold parseArgs
  cases hl : parseArgs_loop stoi (argv.drop 1) { a with num_threads := 1 } with
  | mk b a' => cases b <;> rfl

/-- C17.  Argument validation: `parseArgs` returns `true` only if afterwards
`r_name`, `start_date`, `end_date`, `table_path` and `result_path` are all
non-empty and `num_threads > 0`; it returns `false` whenever an argument in flag
position is not one of the six known flags, or the last argument is in flag
position and so has no value after it, or the value of a `--threads` flag does
not convert to an integer; and when no argument in flag position is `--threads`
it leaves `num_threads` at 1. -/
theorem parseArgs_validates (stoi : String → Option Int) (argv : List String) (a : Args) :
    ((parseArgs stoi argv a).1 = true →
      (parseArgs stoi argv a).2.r_name ≠ "" ∧
      (parseArgs stoi argv a).2.start_date ≠ "" ∧
      (parseArgs stoi argv a).2.end_date ≠ "" ∧
      (parseArgs stoi argv a).2.table_path ≠ "" ∧
      (parseArgs stoi argv a).2.result_path ≠ "" ∧
      0 < (parseArgs stoi argv a).2.num_threads) ∧
    ((∃ arg ∈ flag_positions (argv.drop 1), arg ∉ known_flags) →
      (parseArgs stoi argv a).1 = false) ∧
    ((argv.drop 1).length % 2 = 1 → (parseArgs stoi argv a).1 = false) ∧
    ((∃ value, ("--threads", value) ∈ flag_values (argv.drop 1) ∧ stoi value = none) →
      (parseArgs stoi argv a).1 = false) ∧
    ("--threads" ∉ flag_positions (argv.drop 1) →
      (parseArgs stoi argv a).2.num_threads = 1) := by
  refine ⟨?_, ?_, ?_, ?_, ?_⟩
  · intro h
    unfold parseArgs at h ⊢
    cases hl : parseArgs_loop stoi (argv.drop 1) { a with num_threads := 1 } with
    | mk b a' =>
      rw [hl] at h
      cases b with
      | false => exact absurd h (by simp)
      | true =>
        simp only [Bool.and_eq_true, decide_eq_true_eq, Bool.not_eq_true',
          ← Bool.not_eq_true, String.isEmpty_iff] at h
        exact ⟨h.1.1.1.1.1, h.1.1.1.1.2, h.1.1.1.2, h.1.2, h.2, h.1.1.2⟩
  · intro h
    exact parseArgs_of_loop_false stoi argv a (parseArgs_loop_unknown stoi _ _ h)
  · intro h
    exact parseArgs_of_loop_false stoi argv a (parseArgs_loop_odd stoi _ _ h)
  · intro h
    exact parseArgs_of_loop_false stoi argv a (parseArgs_loop_bad_threads stoi _ _ h)
  · intro h
    rw [parseArgs_snd, parseArgs_loop_threads_kept stoi _ _ h]

/-- C17, witness: a complete command line without `--threads` is accepted with
`num_threads = 1`; an unknown flag, a flag without a value and a worker count
that is not a number are each rejected. -/
theorem parseArgs_validates_witness :
    parseArgs String.toInt?
      ["tpch_query5", "--r_name", "ASIA", "--start_date", "2024-01-01", "--end_date",
        "2024-06-01", "--table_path", "data", "--result_path", "out.txt"] initial_args =
      (true, ⟨"ASIA", "2024-01-01", "2024-06-01", 1, "data", "out.txt"⟩) ∧
    (parseArgs String.toInt?
      ["tpch_query5", "--r_name", "ASIA", "--start_date", "2024-01-01", "--end_date",
        "2024-06-01", "--table_path", "data", "--result_path", "out.txt"]
      initial_args).2.num_threads = 1 ∧
    (parseArgs String.toInt? ["tpch_query5", "--region", "ASIA"] initial_args).1 = false ∧
    (parseArgs String.toInt? ["tpch_query5", "--r_name"] initial_args).1 = false ∧
    (parseArgs String.toInt? ["tpch_query5", "--threads", "four"] initial_args).1 = false :=
  ⟨by decide!,
    (parseArgs_validates String.toInt?
      ["tpch_query5", "--r_name", "ASIA", "--start_date", "2024-01-01", "--end_date",
        "2024-06-01", "--table_path", "data", "--result_path", "out.txt"]
      initial_args).2.2.2.2 (by decide),
    (parseArgs_validates String.toInt? ["tpch_query5", "--region", "ASIA"]
      initial_args).2.1 ⟨"--region", by decide, by decide⟩,
    (parseArgs_validates String.toInt? ["tpch_query5", "--r_name"]
      initial_args).2.2.1 (by decide),
    (parseArgs_validates String.toInt? ["tpch_query5", "--threads", "four"]
      initial_args).2.2.2.1 ⟨"four", by decide, by decide!⟩⟩

/-! ## Sums of doubles in the order the program adds them -/

theorem double_sum_nil : double_sum ([] : List D) = 0 := rfl

theorem values_for_cons {D : Type} (n : String) (p : String × D) (cs : List (String × D)) :
    values_for n (p :: cs) = if p.1 = n then p.2 :: values_for n cs else values_for n cs := by
  by_cases h : p.1 = n <;> simp [values_for, List.filter_cons, h]

theorem values_for_of_not_mem {D : Type} (n : String) (cs : List (String × D))
    (h : n ∉ StdMap.keys cs) : values_for n cs = [] := by
  induction cs with
  | nil => rfl
  | cons p cs ih =>
    simp only [StdMap.keys, List.map_cons, List.mem_cons, not_or] at h
    have hp : ¬ p.1 = n := fun e => h.1 e.symm
    rw [values_for_cons, if_neg hp]
    exact ih h.2

theorem values_for_eq_nil_iff {D : Type} (n : String) (cs : List (String × D)) :
    values_for n cs = [] ↔ n ∉ StdMap.keys cs := by
  constructor
  · intro h hmem
    obtain ⟨p, hp, hn⟩ := List.mem_map.mp hmem
    have : p.2 ∈ values_for n cs :=
      List.mem_map.mpr ⟨p, List.mem_filter.mpr ⟨hp, by simpa using hn⟩, rfl⟩
    rw [h] at this
    exact absurd this (List.not_mem_nil _)
  · exact values_for_of_not_mem n cs

theorem values_for_of_wf {D : Type} (n : String) (m : ResultMap D) (h : StdMap.WF m) :
    values_for n m = (StdMap.find m n).toList := by
  induction m with
  | nil => rfl
  | cons p rest ih =>
    obtain ⟨k, v⟩ := p
    rw [StdMap.wf_cons_iff] at h
    obtain ⟨hlt, hrest⟩ := h
    rw [values_for_cons]
    by_cases e : k = n
    · subst e
      rw [if_pos rfl, values_for_of_not_mem k rest (StdMap.not_mem_keys_of_lt rest k hlt)]
      simp [StdMap.find]
    · rw [if_neg e, ih hrest]
      simp [StdMap.find, e]

/-- The lookup function of a map after the merge loop has added a list of
(name, value) pairs to it: the values under a name are added to the entry one
after the other, in the order of the list, the entry starting at `0.0` when the
name is new. -/
theorem find_merge_local (m : ResultMap D) (cs : List (String × D)) (n : String)
    (h : StdMap.WF m) :
    StdMap.find (merge_local m cs) n =
      if (values_for n cs).isEmpty then StdMap.find m n
      else some (List.foldl (· + ·) ((StdMap.find m n).getD 0) (values_for n cs)) := by
  induction cs generalizing m with
  | nil => rfl
  | cons p cs ih =>
    rw [merge_local_cons, ih _ (StdMap.addTo_wf m p.1 p.2 h), StdMap.find_addTo _ _ _ _ h,
      values_for_cons]
    by_cases e : p.1 = n
    · rw [if_pos e.symm, if_pos e, e]
      cases hv : values_for n cs with
      | nil => rfl
      | cons x xs => rfl
    · have e' : ¬ n = p.1 := fun e2 => e e2.symm
      rw [if_neg e', if_neg e]

theorem find_merge_local_wf (m l : ResultMap D) (n : String) (hm : StdMap.WF m)
    (hl : StdMap.WF l) :
    StdMap.find (merge_local m l) n =
      match StdMap.find l n with
      | some v => some ((StdMap.find m n).getD 0 + v)
      | none => StdMap.find m n := by
  rw [find_merge_local m l n hm, values_for_of_wf n l hl]
  cases StdMap.find l n <;> rfl

theorem mem_keys_merge_local (m : ResultMap D) (cs : List (String × D)) (n : String)
    (h : StdMap.WF m) :
    n ∈ StdMap.keys (merge_local m cs) ↔ n ∈ StdMap.keys m ∨ n ∈ StdMap.keys cs := by
  rw [← StdMap.find_isSome_iff, find_merge_local m cs n h, ← StdMap.find_isSome_iff]
  by_cases hn : n ∈ StdMap.keys cs
  · have hv : values_for n cs ≠ [] := fun hc => (values_for_eq_nil_iff n cs).mp hc hn
    cases hvs : values_for n cs with
    | nil => exact absurd hvs hv
    | cons x xs => simp [hn]
  · rw [(values_for_eq_nil_iff n cs).mpr hn]
    simp [hn]

/-- The lookup function of the merged map: the values that the locals hold
under a name are added to the entry one after the other in the order of the
locals, a local without the name adding nothing. -/
theorem find_merge_results (locals : List (ResultMap D)) (m : ResultMap D) (n : String)
    (hm : StdMap.WF m) (hwf : ∀ l ∈ locals, StdMap.WF l) :
    StdMap.find (merge_results locals m) n =
      if (locals.filterMap (fun l => StdMap.find l n)).isEmpty then StdMap.find m n
      else some (List.foldl (· + ·) ((StdMap.find m n).getD 0)
        (locals.filterMap (fun l => StdMap.find l n))) := by
  induction locals generalizing m with
  | nil => rfl
  | cons l locals ih =>
    have hl : StdMap.WF l := hwf l (List.mem_cons_self l locals)
    have hrest : ∀ l' ∈ locals, StdMap.WF l' := fun l' h' => hwf l' (List.mem_cons_of_mem l h')
    rw [merge_results_cons, ih _ (merge_local_wf m l hm) hrest, find_merge_local_wf m l n hm hl]
    cases hf : StdMap.find l n with
    | none =>
      rw [List.filterMap_cons_none (f := fun l => StdMap.find l n) (a := l) hf]
    | some v =>
      rw [List.filterMap_cons_some (f := fun l => StdMap.find l n) (a := l) hf]
      cases hvs : locals.filterMap (fun l => StdMap.find l n) with
      | nil => rfl
      | cons x xs => rfl

theorem filterMap_find_eq_nil_iff {D : Type} (locals : List (ResultMap D)) (n : String) :
    locals.filterMap (fun l => StdMap.find l n) = [] ↔
      ¬ ∃ l ∈ locals, n ∈ StdMap.keys l := by
  rw [List.filterMap_eq_nil_iff]
  constructor
  · rintro h ⟨l, hl, hn⟩
    exact (StdMap.find_eq_none_iff l n).mp (h l hl) hn
  · intro h l hl
    exact (StdMap.find_eq_none_iff l n).mpr (fun hn => h ⟨l, hl, hn⟩)

theorem mem_keys_merge_results (locals : List (ResultMap D)) (m : ResultMap D) (n : String)
    (hm : StdMap.WF m) :
    n ∈ StdMap.keys (merge_results locals m) ↔
      n ∈ StdMap.keys m ∨ ∃ l ∈ locals, n ∈ StdMap.keys l := by
  induction locals generalizing m with
  | nil => simp [merge_results]
  | cons l locals ih =>
    rw [merge_results_cons, ih _ (merge_local_wf m l hm), mem_keys_merge_local m l n hm]
    simp only [List.mem_cons, exists_eq_or_imp]
    tauto

/-! ## What the workers and the merge compute -/

theorem values_for_contributions (start_date end_date : String) (t : Tables D) (key : Int)
    (n : String) (facts : List (Lineitem D)) :
    values_for n (contributions start_date end_date t key facts) =
      q5_revenues start_date end_date t key n facts := by
  induction facts with
  | nil => rfl
  | cons f facts ih =>
    unfold contributions q5_revenues at ih ⊢
    cases hL : lineitem_revenue start_date end_date t key f with
    | none =>
      have hacc : ¬ q5_accepts start_date end_date t key n f := by
        rw [q5_accepts_iff_name, hL]
        simp
      rw [List.filterMap_cons_none hL, ih, List.filter_cons_of_neg (by simpa using hacc)]
    | some p =>
      obtain ⟨n', x⟩ := p
      have hx := ((lineitem_revenue_eq_some_iff start_date end_date t key f n' x).mp hL).2
      rw [List.filterMap_cons_some hL, values_for_cons, ih]
      by_cases e : n' = n
      · have hacc : q5_accepts start_date end_date t key n f := by
          rw [q5_accepts_iff_name, hL]
          simp [e]
        rw [List.filter_cons_of_pos (by simpa using hacc)]
        simp [e, hx]
      · have hacc : ¬ q5_accepts start_date end_date t key n f := by
          rw [q5_accepts_iff_name, hL]
          simpa using e
        rw [List.filter_cons_of_neg (by simpa using hacc)]
        simp [e]

theorem q5_revenues_eq_nil_iff (start_date end_date : String) (t : Tables D) (key : Int)
    (n : String) (facts : List (Lineitem D)) :
    q5_revenues start_date end_date t key n facts = [] ↔
      ¬ ∃ f ∈ facts, q5_accepts start_date end_date t key n f := by
  unfold q5_revenues
  rw [List.map_eq_nil_iff, List.filter_eq_nil_iff]
  constructor
  · rintro h ⟨f, hf, hacc⟩
    exact h f hf (by simpa using hacc)
  · intro h f hf hacc
    exact h ⟨f, hf, by simpa using hacc⟩

theorem q5_revenues_append (start_date end_date : String) (t : Tables D) (key : Int)
    (n : String) (as bs : List (Lineitem D)) :
    q5_revenues start_date end_date t key n (as ++ bs) =
      q5_revenues start_date end_date t key n as ++
        q5_revenues start_date end_date t key n bs := by
  simp [q5_revenues, List.filter_append]

theorem q5_revenues_flatten (start_date end_date : String) (t : Tables D) (key : Int)
    (n : String) (groups : List (List (Lineitem D))) :
    q5_revenues start_date end_date t key n groups.flatten =
      (groups.map (q5_revenues start_date end_date t key n)).flatten := by
  induction groups with
  | nil => rfl
  | cons g groups ih =>
    rw [List.flatten_cons, q5_revenues_append, ih, List.map_cons, List.flatten_cons]

/-- The lookup function of the local map that a worker builds from an empty
map over a list of facts: the revenues of the facts accepted for a name, added
up from `0.0` in the order of the list. -/
theorem find_merge_contributions (start_date end_date : String) (t : Tables D) (key : Int)
    (n : String) (facts : List (Lineitem D)) :
    StdMap.find (merge_local [] (contributions start_date end_date t key facts)) n =
      if ∃ f ∈ facts, q5_accepts start_date end_date t key n f
      then some (double_sum (q5_revenues start_date end_date t key n facts)) else none := by
  rw [find_merge_local [] _ n StdMap.wf_nil, values_for_contributions]
  by_cases h : ∃ f ∈ facts, q5_accepts start_date end_date t key n f
  · have hne : q5_revenues start_date end_date t key n facts ≠ [] := fun hc =>
      (q5_revenues_eq_nil_iff start_date end_date t key n facts).mp hc h
    rw [if_pos h]
    cases hq : q5_revenues start_date end_date t key n facts with
    | nil => exact absurd hq hne
    | cons x xs => rfl
  · rw [if_neg h, (q5_revenues_eq_nil_iff start_date end_date t key n facts).mpr h]
    rfl

theorem thread_local_wf (r_name start_date end_date : String) (t : Tables D) (W i : Nat) :
    StdMap.WF (thread_local r_name start_date end_date t W i) := by
  unfold thread_local
  by_cases hk : find_target_region_key r_name t.region_data = -1
  · rw [if_pos hk]
    exact StdMap.wf_nil
  · rw [if_neg hk]
    exact merge_local_wf _ _ StdMap.wf_nil

theorem find_thread_local (r_name start_date end_date : String) (t : Tables D) (W i : Nat)
    (n : String) (hk : find_target_region_key r_name t.region_data ≠ -1) :
    StdMap.find (thread_local r_name start_date end_date t W i) n =
      if (q5_revenues start_date end_date t (find_target_region_key r_name t.region_data) n
        (worker_facts t W i)).isEmpty then none
      else some (double_sum (q5_revenues start_date end_date t
        (find_target_region_key r_name t.region_data) n (worker_facts t W i))) := by
  unfold thread_local
  rw [if_neg hk]
  show StdMap.find (merge_local [] (contributions start_date end_date t
    (find_target_region_key r_name t.region_data) (worker_facts t W i))) n = _
  rw [find_merge_contributions]
  by_cases h : ∃ f ∈ worker_facts t W i, q5_accepts start_date end_date t
      (find_target_region_key r_name t.region_data) n f
  · have hne : q5_revenues start_date end_date t (find_target_region_key r_name t.region_data) n
        (worker_facts t W i) ≠ [] := fun hc =>
      (q5_revenues_eq_nil_iff _ _ _ _ _ _).mp hc h
    rw [if_pos h]
    cases hq : q5_revenues start_date end_date t (find_target_region_key r_name t.region_data) n
        (worker_facts t W i) with
    | nil => exact absurd hq hne
    | cons x xs => rfl
  · rw [if_neg h, (q5_revenues_eq_nil_iff _ _ _ _ _ _).mpr h]
    rfl

theorem filterMap_thread_local (r_name start_date end_date : String) (t : Tables D) (W : Nat)
    (n : String) (hk : find_target_region_key r_name t.region_data ≠ -1) :
    ((List.range W).map (thread_local r_name start_date end_date t W)).filterMap
        (fun l => StdMap.find l n) =
      worker_totals start_date end_date t (find_target_region_key r_name t.region_data) W n := by
  rw [List.filterMap_map]
  unfold worker_totals
  congr 1
  funext i
  exact find_thread_local r_name start_date end_date t W i n hk

theorem worker_facts_prefix {D : Type} (t : Tables D) (W j : Nat) (hj : j < W) :
    ((List.range j).map (worker_facts t W)).flatten =
      t.lineitem_data.take (thread_start (t.lineitem_data.length / W) j) := by
  induction j with
  | zero => simp [thread_start]
  | succ j ih =>
    have hj' : j < W := by omega
    rw [List.range_succ, List.map_append, List.flatten_append, ih hj']
    simp only [List.map_cons, List.map_nil, List.flatten_cons, List.flatten_nil,
      List.append_nil]
    unfold worker_facts
    rw [thread_end_eq_next_start _ W j hj]
    exact take_append_chunk_facts _ _ _ (by
      unfold thread_start
      exact Nat.mul_le_mul_right _ (Nat.le_succ j))

/-- The ranges of the workers, one after the other in worker-index order, are
the lineitem vector. -/
theorem worker_facts_flatten {D : Type} (t : Tables D) (W : Nat) (hW : 1 ≤ W) :
    ((List.range W).map (worker_facts t W)).flatten = t.lineitem_data := by
  obtain ⟨j, rfl⟩ : ∃ j, W = j + 1 := ⟨W - 1, by omega⟩
  rw [List.range_succ, List.map_append, List.flatten_append,
    worker_facts_prefix t (j + 1) j (Nat.lt_succ_self j)]
  simp only [List.map_cons, List.map_nil, List.flatten_cons, List.flatten_nil,
    List.append_nil]
  unfold worker_facts
  have hlast := thread_end_last t.lineitem_data.length (j + 1)
  simp only [Nat.add_sub_cancel] at hlast
  rw [hlast, take_append_chunk_facts _ _ _
    (thread_start_le_total _ (j + 1) j (Nat.lt_succ_self j)), List.take_length]

theorem worker_totals_eq_nil_iff (start_date end_date : String) (t : Tables D) (key : Int)
    (W : Nat) (n : String) (hW : 1 ≤ W) :
    worker_totals start_date end_date t key W n = [] ↔
      ¬ ∃ f ∈ t.lineitem_data, q5_accepts start_date end_date t key n f := by
  unfold worker_totals
  rw [List.filterMap_eq_nil_iff]
  constructor
  · rintro h ⟨f, hf, hacc⟩
    rw [← worker_facts_flatten t W hW] at hf
    obtain ⟨l, hl, hfl⟩ := List.mem_flatten.mp hf
    obtain ⟨i, hi, rfl⟩ := List.mem_map.mp hl
    have hi' := h i hi
    by_cases he : (q5_revenues start_date end_date t key n (worker_facts t W i)).isEmpty = true
    · rw [List.isEmpty_iff] at he
      exact (q5_revenues_eq_nil_iff _ _ _ _ _ _).mp he ⟨f, hfl, hacc⟩
    · rw [if_neg he] at hi'
      exact Option.noConfusion hi'
  · intro h i hi
    have hnil : q5_revenues start_date end_date t key n (worker_facts t W i) = [] := by
      rw [q5_revenues_eq_nil_iff]
      rintro ⟨f, hf, hacc⟩
      exact h ⟨f, mem_of_mem_chunk_facts _ _ _ f hf, hacc⟩
    rw [hnil]
    rfl

/-- What `executeQuery5` leaves in `final_results` for a positive worker count
on a non-empty lineitem vector when the region scan ends on a key other than
`-1`: under each name, the local totals of the workers are added to the entry
one after the other in worker-index order, the entry starting at `0.0` when the
name is new. -/
theorem executeQuery5_find (r_name start_date end_date : String) (num_threads : Int)
    (t : Tables D) (final_results : ResultMap D) (hwf : StdMap.WF final_results)
    (hne : t.lineitem_data ≠ []) (hW : 1 ≤ num_threads)
    (hk : find_target_region_key r_name t.region_data ≠ -1) :
    ∃ results,
      executeQuery5 r_name start_date end_date num_threads t final_results =
        .ok (true, results) ∧
      StdMap.WF results ∧
      ∀ n, StdMap.find results n =
        if (worker_totals start_date end_date t
          (find_target_region_key r_name t.region_data) num_threads.toNat n).isEmpty
        then StdMap.find final_results n
        else some (List.foldl (· + ·) ((StdMap.find final_results n).getD 0)
          (worker_totals start_date end_date t
            (find_target_region_key r_name t.region_data) num_threads.toNat n)) := by
  refine ⟨_, executeQuery5_ok r_name start_date end_date num_threads t final_results hne hW,
    merge_results_wf _ _ hwf, fun n => ?_⟩
  rw [find_merge_results _ _ n hwf (by
    intro l hl
    obtain ⟨i, _, rfl⟩ := List.mem_map.mp hl
    exact thread_local_wf r_name start_date end_date t _ i),
    filterMap_thread_local r_name start_date end_date t _ n hk]

/-- What `executeQuery5` does when the region scan ends on `-1`: it returns
`true` and leaves `final_results` as it was. -/
theorem executeQuery5_of_sentinel (r_name start_date end_date : String) (num_threads : Int)
    (t : Tables D) (final_results : ResultMap D) (hne : t.lineitem_data ≠ [])
    (hW : 1 ≤ num_threads) (hk : find_target_region_key r_name t.region_data = -1) :
    executeQuery5 r_name start_date end_date num_threads t final_results =
      .ok (true, final_results) := by
  rw [executeQuery5_ok r_name start_date end_date num_threads t final_results hne hW,
    merge_results_of_all_nil]
  intro l hl
  obtain ⟨i, _, rfl⟩ := List.mem_map.mp hl
  exact thread_local_of_no_match r_name start_date end_date t _ i (Or.inl hk)

/-! ## Sums where addition is exact -/

theorem foldl_add_assoc (hassoc : ∀ a b c : D, a + b + c = a + (b + c)) (a b : D)
    (zs : List D) : List.foldl (· + ·) (a + b) zs = a + List.foldl (· + ·) b zs := by
  induction zs generalizing b with
  | nil => rfl
  | cons z zs ih => rw [List.foldl_cons, List.foldl_cons, hassoc, ih]

theorem foldl_add_double_sum (hassoc : ∀ a b c : D, a + b + c = a + (b + c))
    (hzero : ∀ a : D, 0 + a = a) (a : D) (ys : List D) (hne : ys ≠ []) :
    List.foldl (· + ·) a ys = a + double_sum ys := by
  cases ys with
  | nil => exact absurd rfl hne
  | cons y ys =>
    unfold double_sum
    rw [List.foldl_cons, List.foldl_cons, hzero, foldl_add_assoc hassoc]

/-- Where addition is associative and `0 + x = x`, adding up the sums of the
non-empty groups of a list is adding up the list. -/
theorem foldl_group_sums (hassoc : ∀ a b c : D, a + b + c = a + (b + c))
    (hzero : ∀ a : D, 0 + a = a) (a : D) (groups : List (List D)) :
    List.foldl (· + ·) a
        (groups.filterMap (fun g => if g.isEmpty then none else some (double_sum g))) =
      List.foldl (· + ·) a groups.flatten := by
  induction groups generalizing a with
  | nil => rfl
  | cons g groups ih =>
    cases g with
    | nil =>
      rw [List.filterMap_cons_none (by rfl), List.flatten_cons, List.nil_append]
      exact ih a
    | cons x xs =>
      rw [List.filterMap_cons_some (b := double_sum (x :: xs)) (by rfl), List.foldl_cons,
        ih, List.flatten_cons, List.foldl_append,
        foldl_add_double_sum hassoc hzero a (x :: xs) (List.cons_ne_nil x xs)]

theorem double_sum_worker_totals (hassoc : ∀ a b c : D, a + b + c = a + (b + c))
    (hzero : ∀ a : D, 0 + a = a) (start_date end_date : String) (t : Tables D) (key : Int)
    (W : Nat) (n : String) (hW : 1 ≤ W) (a : D) :
    List.foldl (· + ·) a (worker_totals start_date end_date t key W n) =
      List.foldl (· + ·) a (q5_revenues start_date end_date t key n t.lineitem_data) := by
  have h : worker_totals start_date end_date t key W n =
      (((List.range W).map (worker_facts t W)).map
        (q5_revenues start_date end_date t key n)).filterMap
        (fun g => if g.isEmpty then none else some (double_sum g)) := by
    rw [List.map_map, List.filterMap_map]
    rfl
  rw [h, foldl_group_sums hassoc hzero, ← q5_revenues_flatten, worker_facts_flatten t W hW]

/-- The revenues of the accepted lineitems of the workers' ranges, range after
range, are the revenues of the accepted lineitems of the vector. -/
theorem worker_revenues_flatten (start_date end_date : String) (t : Tables D) (key : Int)
    (W : Nat) (n : String) (hW : 1 ≤ W) :
    ((List.range W).map (fun i =>
      q5_revenues start_date end_date t key n (worker_facts t W i))).flatten =
      q5_revenues start_date end_date t key n t.lineitem_data := by
  have h : (List.range W).map (fun i =>
      q5_revenues start_date end_date t key n (worker_facts t W i)) =
      ((List.range W).map (worker_facts t W)).map
        (q5_revenues start_date end_date t key n) := by
    rw [List.map_map]
    rfl
  rw [h, ← q5_revenues_flatten, worker_facts_flatten t W hW]

theorem find_eq_grouped_sum (start_date end_date : String) (t : Tables D) (key : Int)
    (W : Nat) (n : String) (results : ResultMap D) (hW : 1 ≤ W)
    (h : StdMap.find results n =
      if ∃ f ∈ t.lineitem_data, q5_accepts start_date end_date t key n f
      then some (double_sum (worker_totals start_date end_date t key W n)) else none) :
    StdMap.find results n = grouped_sum ((List.range W).map (fun i =>
      q5_revenues start_date end_date t key n (worker_facts t W i))) := by
  have ht : ((List.range W).map (fun i =>
      q5_revenues start_date end_date t key n (worker_facts t W i))).filterMap
      (fun g => if g.isEmpty then none else some (double_sum g)) =
      worker_totals start_date end_date t key W n := by
    rw [List.filterMap_map]
    rfl
  unfold grouped_sum
  rw [h, ht]
  by_cases hacc : ∃ f ∈ t.lineitem_data, q5_accepts start_date end_date t key n f
  · have hne : worker_totals start_date end_date t key W n ≠ [] := fun hc =>
      (worker_totals_eq_nil_iff _ _ _ _ _ _ hW).mp hc hacc
    rw [if_pos hacc]
    cases hq : worker_totals start_date end_date t key W n with
    | nil => exact absurd hq hne
    | cons x xs => rfl
  · rw [if_neg hacc, (worker_totals_eq_nil_iff _ _ _ _ _ _ hW).mpr hacc]
    rfl

/-- What `executeQuery5` leaves in a results map that is empty on entry, for a
positive worker count on a non-empty lineitem vector when the region scan ends
on a key other than `-1`. -/
theorem executeQuery5_on_empty (r_name start_date end_date : String) (num_threads : Int)
    (t : Tables D) (hne : t.lineitem_data ≠ []) (hW : 1 ≤ num_threads)
    (hsent : find_target_region_key r_name t.region_data ≠ -1) :
    ∃ results,
      executeQuery5 r_name start_date end_date num_threads t [] = .ok (true, results) ∧
      StdMap.WF results ∧
      (∀ n, StdMap.find results n =
        if ∃ f ∈ t.lineitem_data, q5_accepts start_date end_date t
          (find_target_region_key r_name t.region_data) n f
        then some (double_sum (worker_totals start_date end_date t
          (find_target_region_key r_name t.region_data) num_threads.toNat n))
        else none) ∧
      ((∀ a b c : D, a + b + c = a + (b + c)) → (∀ a : D, 0 + a = a) →
        ∀ n, StdMap.find results n =
          if ∃ f ∈ t.lineitem_data, q5_accepts start_date end_date t
            (find_target_region_key r_name t.region_data) n f
          then some (double_sum (q5_revenues start_date end_date t
            (find_target_region_key r_name t.region_data) n t.lineitem_data))
          else none) := by
  obtain ⟨results, hrun, hwf, hfind⟩ := executeQuery5_find r_name start_date end_date
    num_threads t [] StdMap.wf_nil hne hW hsent
  have hW' : 1 ≤ num_threads.toNat := by omega
  have hmain : ∀ n, StdMap.find results n =
      if ∃ f ∈ t.lineitem_data, q5_accepts start_date end_date t
        (find_target_region_key r_name t.region_data) n f
      then some (double_sum (worker_totals start_date end_date t
        (find_target_region_key r_name t.region_data) num_threads.toNat n))
      else none := by
    intro n
    rw [hfind n]
    by_cases h : ∃ f ∈ t.lineitem_data, q5_accepts start_date end_date t
        (find_target_region_key r_name t.region_data) n f
    · have hne' : worker_totals start_date end_date t
          (find_target_region_key r_name t.region_data) num_threads.toNat n ≠ [] := fun hc =>
        (worker_totals_eq_nil_iff _ _ _ _ _ _ hW').mp hc h
      rw [if_pos h]
      cases hq : worker_totals start_date end_date t
          (find_target_region_key r_name t.region_data) num_threads.toNat n with
      | nil => exact absurd hq hne'
      | cons x xs => rfl
    · rw [if_neg h, (worker_totals_eq_nil_iff _ _ _ _ _ _ hW').mpr h]
      rfl
  refine ⟨results, hrun, hwf, hmain, fun hassoc hzero n => ?_⟩
  rw [hmain n]
  unfold double_sum
  rw [double_sum_worker_totals hassoc hzero _ _ _ _ _ _ hW']

/-! ## The claims on the computed sums -/

/-- C1 as stated fails.  The three facts of `rounding_scenario` are accepted for
INDIA with the revenues `2^53`, 1 and 1, each computed without rounding; their
exact sum is `2^53 + 2`.  With one worker `executeQuery5` returns `true` and
leaves INDIA -> `2^53`: adding 1 to `2^53` rounds back to `2^53`, twice.  With
two workers it leaves INDIA -> `2^53 + 2`, which is not the double sum of the
three revenues in vector order either, that sum being `2^53`. -/
theorem executeQuery5_rounding_counterexample :
    rounding_scenario.lineitem_data ≠ [] ∧
    find_target_region_key "ASIA" rounding_scenario.region_data = 0 ∧
    (∀ f ∈ rounding_scenario.lineitem_data,
      q5_accepts "2024-01-01" "2024-06-01" rounding_scenario 0 "INDIA" f) ∧
    rounding_scenario.lineitem_data.map (fun f => (revenue f).to_rat) =
      [9007199254740992, 1, 1] ∧
    exact_revenue "2024-01-01" "2024-06-01" rounding_scenario 0 "INDIA"
      rounding_scenario.lineitem_data = 9007199254740994 ∧
    executeQuery5 "ASIA" "2024-01-01" "2024-06-01" 1 rounding_scenario [] =
      .ok (true, [("INDIA", 9007199254740992)]) ∧
    double_sum (q5_revenues "2024-01-01" "2024-06-01" rounding_scenario 0 "INDIA"
      rounding_scenario.lineitem_data) = 9007199254740992 ∧
    executeQuery5 "ASIA" "2024-01-01" "2024-06-01" 2 rounding_scenario [] =
      .ok (true, [("INDIA", 9007199254740994)]) ∧
    (9007199254740992 : Binary64) ≠ 9007199254740994 ∧
    ¬ ∃ results,
      executeQuery5 "ASIA" "2024-01-01" "2024-06-01" 1 rounding_scenario [] =
        .ok (true, results) ∧
      (StdMap.find results "INDIA").map Binary64.to_rat =
        some (exact_revenue "2024-01-01" "2024-06-01" rounding_scenario 0 "INDIA"
          rounding_scenario.lineitem_data) := by
  have hrun : executeQuery5 "ASIA" "2024-01-01" "2024-06-01" 1 rounding_scenario [] =
      .ok (true, [("INDIA", 9007199254740992)]) := by decide!
  refine ⟨by decide, by decide!, by decide!, by decide!, by decide!, hrun, by decide!,
    by decide!, by decide!, ?_⟩
  rintro ⟨results, h1, h2⟩
  rw [hrun] at h1
  injection h1 with h1
  injection h1 with _ h1
  subst h1
  revert h2
  decide!

/-- C1, amended.  For a non-empty lineitem vector, a worker count `W >= 1`, a
region scan that resolves `r_name` to a key other than `-1`, and a results map
that is empty on entry, `executeQuery5` returns `true` and leaves a well-formed
results map that has an entry exactly for the nation names `n` for which the
query accepts a lineitem of the vector.  The value under `n` is the sum of
doubles that the program computes: every worker whose range holds a lineitem
accepted for `n` adds up, from `0.0` and in vector order, the revenues
`extended_price * (1 - discount)` of the accepted lineitems of its range, and
these local totals are added up from `0.0` in worker-index order.  Where
addition is associative and `0.0 + x = x`, as in exact arithmetic, that value
is the sum of the revenues of all the accepted lineitems of the vector. -/
theorem executeQuery5_result (r_name start_date end_date : String) (num_threads : Int)
    (t : Tables D) (key : Int) (hne : t.lineitem_data ≠ []) (hW : 1 ≤ num_threads)
    (hkey : find_target_region_key r_name t.region_data = key) (hsent : key ≠ -1) :
    ∃ results,
      executeQuery5 r_name start_date end_date num_threads t [] = .ok (true, results) ∧
      StdMap.WF results ∧
      (∀ n, StdMap.find results n =
        if ∃ f ∈ t.lineitem_data, q5_accepts start_date end_date t key n f
        then some (double_sum
          (worker_totals start_date end_date t key num_threads.toNat n))
        else none) ∧
      ((∀ a b c : D, a + b + c = a + (b + c)) → (∀ a : D, 0 + a = a) →
        ∀ n, StdMap.find results n =
          if ∃ f ∈ t.lineitem_data, q5_accepts start_date end_date t key n f
          then some (double_sum (q5_revenues start_date end_date t key n t.lineitem_data))
          else none) := by
  subst hkey
  exact executeQuery5_on_empty r_name start_date end_date num_threads t hne hW hsent

/-- C1, witness: the specification's ASIA scenario with two workers yields
exactly the map with the single entry INDIA -> 90, the double that
`100 * (1 - 0.10)` rounds to; and in exact arithmetic the value under INDIA is
the sum over all the accepted lineitems, 90. -/
theorem executeQuery5_result_witness :
    executeQuery5 "ASIA" "2024-01-01" "2024-06-01" 2 scenario [] =
        .ok (true, [("INDIA", 90)]) ∧
    worker_totals "2024-01-01" "2024-06-01" scenario 0 (2 : Int).toNat "INDIA" = [90] ∧
    (∃ results,
      executeQuery5 "ASIA" "2024-01-01" "2024-06-01" 2 scenario [] = .ok (true, results) ∧
      StdMap.WF results ∧
      ∀ n, StdMap.find results n =
        if ∃ f ∈ scenario.lineitem_data, q5_accepts "2024-01-01" "2024-06-01" scenario 0 n f
        then some (double_sum
          (worker_totals "2024-01-01" "2024-06-01" scenario 0 (2 : Int).toNat n))
        else none) ∧
    double_sum (q5_revenues "2024-01-01" "2024-06-01" exact_scenario 0 "INDIA"
      exact_scenario.lineitem_data) = 90 ∧
    ∃ results,
      executeQuery5 "ASIA" "2024-01-01" "2024-06-01" 2 exact_scenario [] =
        .ok (true, results) ∧
      StdMap.find results "INDIA" =
        some (double_sum (q5_revenues "2024-01-01" "2024-06-01" exact_scenario 0 "INDIA"
          exact_scenario.lineitem_data)) := by
  obtain ⟨results, h1, h2, h3, _⟩ := executeQuery5_result "ASIA" "2024-01-01" "2024-06-01" 2
    scenario 0 (by decide) (by decide) (by decide!) (by decide)
  obtain ⟨exact_results, e1, _, _, e4⟩ := executeQuery5_result "ASIA" "2024-01-01"
    "2024-06-01" 2 exact_scenario 0 (by decide) (by decide) (by decide!) (by decide)
  have e5 := e4 (fun a b c => add_assoc a b c) (fun a => zero_add a) "INDIA"
  rw [if_pos (by decide!)] at e5
  exact ⟨by decide!, by decide!, ⟨results, h1, h2, h3⟩, by decide!, exact_results, e1, e5⟩

/-- C2 as stated fails.  On the range `[0, 3)` of `rounding_scenario` the worker
returns with the local map INDIA -> `2^53`; the accepted lineitems of the range
have the revenues `2^53`, 1 and 1, whose sum is `2^53 + 2`. -/
theorem process_lineitem_chunk_rounding_counterexample :
    (∀ f ∈ chunk_facts rounding_scenario.lineitem_data 0 3,
      q5_accepts "2024-01-01" "2024-06-01" rounding_scenario 0 "INDIA" f) ∧
    (chunk_facts rounding_scenario.lineitem_data 0 3).map (fun f => (revenue f).to_rat) =
      [9007199254740992, 1, 1] ∧
    exact_revenue "2024-01-01" "2024-06-01" rounding_scenario 0 "INDIA"
      (chunk_facts rounding_scenario.lineitem_data 0 3) = 9007199254740994 ∧
    process_lineitem_chunk "ASIA" "2024-01-01" "2024-06-01" rounding_scenario 0 3 [] =
      .ok [("INDIA", 9007199254740992)] ∧
    (StdMap.find [("INDIA", (9007199254740992 : Binary64))] "INDIA").map Binary64.to_rat ≠
      some (exact_revenue "2024-01-01" "2024-06-01" rounding_scenario 0 "INDIA"
        (chunk_facts rounding_scenario.lineitem_data 0 3)) :=
  ⟨by decide!, by decide!, by decide!, by decide!, by decide!⟩

/-- C2, amended.  For a range `lo <= hi <= N` of a lineitem vector of length `N`,
a region scan that resolves `r_name` to a key other than `-1`, and a local map
that is empty on entry, `process_lineitem_chunk` returns with the local map
equal to the left-to-right fold of the specification's per-fact algorithm
(§4.3 steps 1-7) over the lineitems `lo, ..., hi-1`; that map is well formed,
has an entry exactly for the nation names of the accepted lineitems of the
range, and each value is the sum of doubles that the loop computes: the
revenues of the accepted lineitems of that name added up from `0.0` in the order
of the range. -/
theorem process_lineitem_chunk_fold (r_name start_date end_date : String) (t : Tables D)
    (lo hi : Nat) (key : Int) (hlo : lo ≤ hi) (hhi : hi ≤ t.lineitem_data.length)
    (hkey : find_target_region_key r_name t.region_data = key) (hsent : key ≠ -1) :
    process_lineitem_chunk r_name start_date end_date t lo hi [] =
        .ok (List.foldl (spec_step start_date end_date t key) []
          (chunk_facts t.lineitem_data lo hi)) ∧
    StdMap.WF (List.foldl (spec_step start_date end_date t key) []
      (chunk_facts t.lineitem_data lo hi)) ∧
    ∀ n, StdMap.find (List.foldl (spec_step start_date end_date t key) []
          (chunk_facts t.lineitem_data lo hi)) n =
        if ∃ f ∈ chunk_facts t.lineitem_data lo hi, q5_accepts start_date end_date t key n f
        then some (double_sum
          (q5_revenues start_date end_date t key n (chunk_facts t.lineitem_data lo hi)))
        else none := by
  subst hkey
  rw [spec_step_eq, foldl_chunk_step]
  refine ⟨?_, merge_local_wf _ _ StdMap.wf_nil,
    fun n => find_merge_contributions start_date end_date t _ n _⟩
  rw [process_lineitem_chunk_ok _ _ _ _ _ _ _ hlo hhi, if_neg hsent]

/-- C2, witness: the first worker of the ASIA scenario, on the range `[0, 1)`,
leaves the local map with the single entry INDIA -> 90. -/
theorem process_lineitem_chunk_fold_witness :
    process_lineitem_chunk "ASIA" "2024-01-01" "2024-06-01" scenario 0 1 [] =
        .ok [("INDIA", 90)] ∧
    (process_lineitem_chunk "ASIA" "2024-01-01" "2024-06-01" scenario 0 1 [] =
        .ok (List.foldl (spec_step "2024-01-01" "2024-06-01" scenario 0) []
          (chunk_facts scenario.lineitem_data 0 1)) ∧
    StdMap.WF (List.foldl (spec_step "2024-01-01" "2024-06-01" scenario 0) []
      (chunk_facts scenario.lineitem_data 0 1)) ∧
    ∀ n, StdMap.find (List.foldl (spec_step "2024-01-01" "2024-06-01" scenario 0) []
          (chunk_facts scenario.lineitem_data 0 1)) n =
        if ∃ f ∈ chunk_facts scenario.lineitem_data 0 1,
          q5_accepts "2024-01-01" "2024-06-01" scenario 0 n f
        then some (double_sum (q5_revenues "2024-01-01" "2024-06-01" scenario 0 n
          (chunk_facts scenario.lineitem_data 0 1)))
        else none) :=
  ⟨by decide!,
    process_lineitem_chunk_fold "ASIA" "2024-01-01" "2024-06-01" scenario 0 1 0 (by decide)
      (by decide) (by decide!) (by decide)⟩

/-- In binary64 the totals do depend on the worker count: on the three facts of
`rounding_scenario` one worker leaves INDIA -> `2^53` and two workers leave
INDIA -> `2^53 + 2`, the second worker adding `1 + 1 = 2` on its own. -/
theorem executeQuery5_grouping_rounds :
    executeQuery5 "ASIA" "2024-01-01" "2024-06-01" 1 rounding_scenario [] =
      .ok (true, [("INDIA", 9007199254740992)]) ∧
    executeQuery5 "ASIA" "2024-01-01" "2024-06-01" 2 rounding_scenario [] =
      .ok (true, [("INDIA", 9007199254740994)]) ∧
    (9007199254740992 : Binary64) ≠ 9007199254740994 :=
  ⟨by decide!, by decide!, by decide!⟩

/-- C4.  Partition invariance: for a fixed input with a non-empty lineitem
vector and a results map that is empty on entry, and every two worker counts
`W1 >= 1` and `W2 >= 1`, `executeQuery5` returns `true` both times and the two
results maps have the same key set.  Under each name the two totals are formed
from one and the same sequence of doubles, cut into groups in two ways, each
group added up on its own and the sums of the groups added up in order; so in
exact arithmetic, that is where addition is associative and `0.0 + x = x`, the
two results maps are the same map. -/
theorem executeQuery5_partition_invariant (r_name start_date end_date : String)
    (W1 W2 : Int) (t : Tables D) (hne : t.lineitem_data ≠ []) (h1 : 1 ≤ W1) (h2 : 1 ≤ W2) :
    ∃ results1 results2,
      executeQuery5 r_name start_date end_date W1 t [] = .ok (true, results1) ∧
      executeQuery5 r_name start_date end_date W2 t [] = .ok (true, results2) ∧
      (∀ n, n ∈ StdMap.keys results1 ↔ n ∈ StdMap.keys results2) ∧
      (∀ n, ∃ groups1 groups2 : List (List D),
        groups1.flatten = groups2.flatten ∧
        StdMap.find results1 n = grouped_sum groups1 ∧
        StdMap.find results2 n = grouped_sum groups2) ∧
      ((∀ a b c : D, a + b + c = a + (b + c)) → (∀ a : D, 0 + a = a) →
        results1 = results2) := by
  by_cases hk : find_target_region_key r_name t.region_data = -1
  · exact ⟨[], [],
      executeQuery5_of_sentinel r_name start_date end_date W1 t [] hne h1 hk,
      executeQuery5_of_sentinel r_name start_date end_date W2 t [] hne h2 hk,
      fun n => Iff.rfl, fun n => ⟨[], [], rfl, rfl, rfl⟩, fun _ _ => rfl⟩
  · obtain ⟨r1, hr1, hwf1, hf1, he1⟩ := executeQuery5_on_empty r_name start_date end_date W1 t
      hne h1 hk
    obtain ⟨r2, hr2, hwf2, hf2, he2⟩ := executeQuery5_on_empty r_name start_date end_date W2 t
      hne h2 hk
    refine ⟨r1, r2, hr1, hr2, fun n => ?_, fun n => ?_, fun hassoc hzero => ?_⟩
    · rw [← StdMap.find_isSome_iff, ← StdMap.find_isSome_iff, hf1 n, hf2 n]
      by_cases h : ∃ f ∈ t.lineitem_data, q5_accepts start_date end_date t
          (find_target_region_key r_name t.region_data) n f
      · rw [if_pos h, if_pos h]
        simp
      · rw [if_neg h, if_neg h]
    · refine ⟨_, _, ?_,
        find_eq_grouped_sum start_date end_date t _ W1.toNat n r1 (by omega) (hf1 n),
        find_eq_grouped_sum start_date end_date t _ W2.toNat n r2 (by omega) (hf2 n)⟩
      rw [worker_revenues_flatten start_date end_date t _ W1.toNat n (by omega),
        worker_revenues_flatten start_date end_date t _ W2.toNat n (by omega)]
    · apply StdMap.ext r1 r2 hwf1 hwf2
      intro n
      rw [he1 hassoc hzero n, he2 hassoc hzero n]

/-- C4, witness: on the ASIA scenario one worker and eight workers give the
same results map, in binary64 as it happens and in exact arithmetic by the
theorem. -/
theorem executeQuery5_partition_invariant_witness :
    executeQuery5 "ASIA" "2024-01-01" "2024-06-01" 1 scenario [] =
      executeQuery5 "ASIA" "2024-01-01" "2024-06-01" 8 scenario [] ∧
    executeQuery5 "ASIA" "2024-01-01" "2024-06-01" 1 exact_scenario [] =
      executeQuery5 "ASIA" "2024-01-01" "2024-06-01" 8 exact_scenario [] ∧
    executeQuery5 "ASIA" "2024-01-01" "2024-06-01" 8 exact_scenario [] =
      .ok (true, [("INDIA", 90)]) := by
  obtain ⟨r1, r2, h1, h2, _, _, heq⟩ := executeQuery5_partition_invariant "ASIA" "2024-01-01"
    "2024-06-01" 1 8 exact_scenario (by decide) (by decide) (by decide)
  refine ⟨by decide!, ?_, by decide!⟩
  rw [h1, h2, heq (fun a b c => add_assoc a b c) (fun a => zero_add a)]

/-- C5 as stated fails.  The locals `{INDIA -> 2^53}`, `{INDIA -> 1}` and
`{INDIA -> 1}` are merged into `{INDIA -> 2^53}`, while the sum of INDIA's values
over the three locals is `2^53 + 2`. -/
theorem merge_results_rounding_counterexample :
    (∀ l ∈ [[("INDIA", (9007199254740992 : Binary64))], [("INDIA", 1)], [("INDIA", 1)]],
      StdMap.WF l) ∧
    merge_results [[("INDIA", (9007199254740992 : Binary64))], [("INDIA", 1)], [("INDIA", 1)]]
      [] = [("INDIA", 9007199254740992)] ∧
    ([[("INDIA", (9007199254740992 : Binary64))], [("INDIA", 1)], [("INDIA", 1)]].map
      (fun l => ((StdMap.find l "INDIA").map Binary64.to_rat).getD 0)).sum =
        9007199254740994 ∧
    (StdMap.find (merge_results
      [[("INDIA", (9007199254740992 : Binary64))], [("INDIA", 1)], [("INDIA", 1)]] [])
      "INDIA").map Binary64.to_rat ≠ some 9007199254740994 :=
  ⟨by
      intro l hl
      simp only [List.mem_cons, List.mem_singleton, List.not_mem_nil, or_false] at hl
      rcases hl with rfl | rfl | rfl <;> unfold StdMap.WF <;> decide!,
    by decide!, by decide!, by decide!⟩

/-- C5, amended.  Merge-reduce: for every list of local aggregates (each a map
with strictly ascending keys), the merge loop of `executeQuery5`, run in
worker-index order on a map that is empty on entry, yields a well-formed map
whose key set is the union of the locals' key sets and whose value at each name
is the sum of doubles that the loop computes: the values that the locals hold
under the name, added up from `0.0` in worker-index order, a local without the
name adding nothing. -/
theorem merge_results_sum (locals : List (ResultMap D)) (hwf : ∀ l ∈ locals, StdMap.WF l) :
    StdMap.WF (merge_results locals []) ∧
    (∀ n, n ∈ StdMap.keys (merge_results locals []) ↔ ∃ l ∈ locals, n ∈ StdMap.keys l) ∧
    ∀ n, StdMap.find (merge_results locals []) n =
      if ∃ l ∈ locals, n ∈ StdMap.keys l
      then some (double_sum (locals.filterMap (fun l => StdMap.find l n))) else none := by
  refine ⟨merge_results_wf locals [] StdMap.wf_nil, fun n => ?_, fun n => ?_⟩
  · rw [mem_keys_merge_results locals [] n StdMap.wf_nil]
    simp [StdMap.keys]
  · rw [find_merge_results locals [] n StdMap.wf_nil hwf]
    by_cases h : ∃ l ∈ locals, n ∈ StdMap.keys l
    · have hne : locals.filterMap (fun l => StdMap.find l n) ≠ [] := fun hc =>
        (filterMap_find_eq_nil_iff locals n).mp hc h
      rw [if_pos h]
      cases hq : locals.filterMap (fun l => StdMap.find l n) with
      | nil => exact absurd hq hne
      | cons x xs => rfl
    · rw [if_neg h, (filterMap_find_eq_nil_iff locals n).mpr h]
      rfl

/-- C5, witness: merging `{CHINA -> 5, INDIA -> 90}` and `{INDIA -> 10, JAPAN -> 7}`
gives `{CHINA -> 5, INDIA -> 100, JAPAN -> 7}`. -/
theorem merge_results_sum_witness :
    merge_results [[("CHINA", (5 : Binary64)), ("INDIA", 90)], [("INDIA", 10), ("JAPAN", 7)]]
      [] = [("CHINA", 5), ("INDIA", 100), ("JAPAN", 7)] ∧
    ∀ n, StdMap.find (merge_results
        [[("CHINA", (5 : Binary64)), ("INDIA", 90)], [("INDIA", 10), ("JAPAN", 7)]] []) n =
      if ∃ l ∈ [[("CHINA", (5 : Binary64)), ("INDIA", 90)], [("INDIA", 10), ("JAPAN", 7)]],
        n ∈ StdMap.keys l
      then some (double_sum
        ([[("CHINA", (5 : Binary64)), ("INDIA", 90)], [("INDIA", 10), ("JAPAN", 7)]].filterMap
          (fun l => StdMap.find l n))) else none :=
  ⟨by decide!,
    (merge_results_sum [[("CHINA", 5), ("INDIA", 90)], [("INDIA", 10), ("JAPAN", 7)]]
      (by
        intro l hl
        simp only [List.mem_cons, List.mem_singleton, List.not_mem_nil, or_false] at hl
        rcases hl with rfl | rfl <;> unfold StdMap.WF <;> decide!)).2.2⟩

/-- C21 as stated fails.  On the two facts of `unit_scenario` with two workers
the call computes INDIA -> 2 into an empty map.  Started on the results map
`{INDIA -> 2^53}` it ends with `{INDIA -> 2^53}`: each worker's total 1 is added
on its own and rounded away.  The value on entry plus the merged revenue is
`2^53 + 2`, in exact arithmetic and in binary64 alike. -/
theorem executeQuery5_accumulates_counterexample :
    executeQuery5 "ASIA" "2024-01-01" "2024-06-01" 2 unit_scenario [] =
      .ok (true, [("INDIA", 2)]) ∧
    executeQuery5 "ASIA" "2024-01-01" "2024-06-01" 2 unit_scenario
      [("INDIA", 9007199254740992)] = .ok (true, [("INDIA", 9007199254740992)]) ∧
    (9007199254740992 : Binary64) + 2 = 9007199254740994 ∧
    (9007199254740992 : Binary64).to_rat + (2 : Binary64).to_rat = 9007199254740994 ∧
    (9007199254740992 : Binary64) ≠ 9007199254740994 :=
  ⟨by decide!, by decide!, by decide!, by decide!, by decide!⟩

/-- C21, amended.  Results are accumulated, not reset: for a non-empty lineitem
vector, `num_threads >= 1` and every results map passed to `executeQuery5` (keys
strictly ascending), the call returns `true` and removes no entry; its key set
on return is the key set on entry together with the names for which the call
computes something.  A key present on entry with the value `v` ends with the
value obtained from `v` by adding to it, one after the other in worker-index
order, the local totals that the workers hold for the key; a key for which the
call computes nothing keeps what it had on entry; a key absent on entry
receives what the call computes into an empty map.  Where addition is
associative and `0.0 + x = x`, as in exact arithmetic, a key present on entry
for which the call computes `w` ends with `v + w`. -/
theorem executeQuery5_accumulates (r_name start_date end_date : String) (num_threads : Int)
    (t : Tables D) (final_results : ResultMap D) (hwf : StdMap.WF final_results)
    (hne : t.lineitem_data ≠ []) (hW : 1 ≤ num_threads) :
    ∃ locals fresh results,
      run_threads r_name start_date end_date t t.lineitem_data.length
        (t.lineitem_data.length / num_threads.toNat) num_threads.toNat = .ok locals ∧
      executeQuery5 r_name start_date end_date num_threads t [] = .ok (true, fresh) ∧
      executeQuery5 r_name start_date end_date num_threads t final_results =
        .ok (true, results) ∧
      StdMap.WF results ∧
      (∀ k, k ∈ StdMap.keys results ↔
        k ∈ StdMap.keys final_results ∨ k ∈ StdMap.keys fresh) ∧
      (∀ k v, StdMap.find final_results k = some v →
        StdMap.find results k =
          some (List.foldl (· + ·) v (locals.filterMap (fun l => StdMap.find l k)))) ∧
      (∀ k, k ∉ StdMap.keys fresh → StdMap.find results k = StdMap.find final_results k) ∧
      (∀ k, StdMap.find final_results k = none →
        StdMap.find results k = StdMap.find fresh k) ∧
      ((∀ a b c : D, a + b + c = a + (b + c)) → (∀ a : D, 0 + a = a) →
        ∀ k v w, StdMap.find final_results k = some v → StdMap.find fresh k = some w →
          StdMap.find results k = some (v + w)) := by
  have hlw : ∀ l ∈ (List.range num_threads.toNat).map
      (thread_local r_name start_date end_date t num_threads.toNat), StdMap.WF l := by
    intro l hl
    obtain ⟨i, _, rfl⟩ := List.mem_map.mp hl
    exact thread_local_wf r_name start_date end_date t _ i
  refine ⟨_, _, _, run_threads_ok r_name start_date end_date t num_threads.toNat,
    executeQuery5_ok r_name start_date end_date num_threads t [] hne hW,
    executeQuery5_ok r_name start_date end_date num_threads t final_results hne hW,
    merge_results_wf _ _ hwf, ?_, ?_, ?_, ?_, ?_⟩
  · intro k
    rw [mem_keys_merge_results _ _ k hwf, mem_keys_merge_results _ _ k StdMap.wf_nil]
    simp [StdMap.keys]
  · intro k v hv
    rw [find_merge_results _ _ k hwf hlw, hv]
    cases ((List.range num_threads.toNat).map
      (thread_local r_name start_date end_date t num_threads.toNat)).filterMap
      (fun l => StdMap.find l k) <;> rfl
  · intro k hk
    rw [mem_keys_merge_results _ _ k StdMap.wf_nil] at hk
    have hnil := (filterMap_find_eq_nil_iff _ k).mpr (fun hc => hk (Or.inr hc))
    rw [find_merge_results _ _ k hwf hlw, hnil]
    rfl
  · intro k hnone
    rw [find_merge_results _ _ k hwf hlw, find_merge_results _ _ k StdMap.wf_nil hlw, hnone]
    rfl
  · intro hassoc hzero k v w hv hw
    rw [find_merge_results _ _ k StdMap.wf_nil hlw] at hw
    rw [find_merge_results _ _ k hwf hlw, hv]
    cases hq : ((List.range num_threads.toNat).map
      (thread_local r_name start_date end_date t num_threads.toNat)).filterMap
      (fun l => StdMap.find l k) with
    | nil =>
      rw [hq] at hw
      exact Option.noConfusion hw
    | cons x xs =>
      rw [hq] at hw
      have hw' : List.foldl (· + ·) ((StdMap.find ([] : ResultMap D) k).getD 0) (x :: xs) = w :=
        Option.some.inj hw
      show some (List.foldl (· + ·) ((some v).getD 0) (x :: xs)) = some (v + w)
      rw [← hw']
      show some (List.foldl (· + ·) v (x :: xs)) = some (v + double_sum (x :: xs))
      rw [foldl_add_double_sum hassoc hzero v (x :: xs) (List.cons_ne_nil x xs)]

/-- C21, witness: the scenario run on the results map `{INDIA -> 1, ZED -> 3}`
ends with `{INDIA -> 91, ZED -> 3}`, the first worker holding 90 for `INDIA` and
no worker anything for `ZED`; and in exact arithmetic `INDIA` ends with `1 + 90`. -/
theorem executeQuery5_accumulates_witness :
    executeQuery5 "ASIA" "2024-01-01" "2024-06-01" 2 scenario [("INDIA", 1), ("ZED", 3)] =
      .ok (true, [("INDIA", 91), ("ZED", 3)]) ∧
    run_threads "ASIA" "2024-01-01" "2024-06-01" scenario scenario.lineitem_data.length
      (scenario.lineitem_data.length / (2 : Int).toNat) (2 : Int).toNat =
        .ok [[("INDIA", 90)], []] ∧
    (∃ locals fresh results,
      run_threads "ASIA" "2024-01-01" "2024-06-01" scenario scenario.lineitem_data.length
        (scenario.lineitem_data.length / (2 : Int).toNat) (2 : Int).toNat = .ok locals ∧
      executeQuery5 "ASIA" "2024-01-01" "2024-06-01" 2 scenario [] = .ok (true, fresh) ∧
      executeQuery5 "ASIA" "2024-01-01" "2024-06-01" 2 scenario [("INDIA", 1), ("ZED", 3)] =
        .ok (true, results) ∧
      StdMap.WF results ∧
      (∀ k, k ∈ StdMap.keys results ↔
        k ∈ StdMap.keys [("INDIA", (1 : Binary64)), ("ZED", 3)] ∨ k ∈ StdMap.keys fresh) ∧
      (∀ k v, StdMap.find [("INDIA", (1 : Binary64)), ("ZED", 3)] k = some v →
        StdMap.find results k =
          some (List.foldl (· + ·) v (locals.filterMap (fun l => StdMap.find l k)))) ∧
      (∀ k, k ∉ StdMap.keys fresh →
        StdMap.find results k = StdMap.find [("INDIA", (1 : Binary64)), ("ZED", 3)] k) ∧
      (∀ k, StdMap.find [("INDIA", (1 : Binary64)), ("ZED", 3)] k = none →
        StdMap.find results k = StdMap.find fresh k)) ∧
    ∃ results,
      executeQuery5 "ASIA" "2024-01-01" "2024-06-01" 2 exact_scenario
        [("INDIA", 1), ("ZED", 3)] = .ok (true, results) ∧
      StdMap.find results "INDIA" = some (1 + 90) := by
  obtain ⟨locals, fresh, results, h1, h2, h3, h4, h5, h6, h7, h8, _⟩ :=
    executeQuery5_accumulates "ASIA" "2024-01-01" "2024-06-01" 2 scenario
      [("INDIA", 1), ("ZED", 3)] (by unfold StdMap.WF; decide!) (by decide) (by decide)
  obtain ⟨_, efresh, eresults, _, e2, e3, _, _, _, _, _, e9⟩ :=
    executeQuery5_accumulates "ASIA" "2024-01-01" "2024-06-01" 2 exact_scenario
      [("INDIA", 1), ("ZED", 3)] (by unfold StdMap.WF; decide!) (by decide) (by decide)
  have hfresh : efresh = [("INDIA", 90)] := by
    have hrun : executeQuery5 "ASIA" "2024-01-01" "2024-06-01" 2 exact_scenario [] =
        .ok (true, [("INDIA", 90)]) := by decide!
    rw [hrun] at e2
    injection e2 with e2
    injection e2 with _ e2
    exact e2.symm
  have e10 := e9 (fun a b c => add_assoc a b c) (fun a => zero_add a) "INDIA" 1 90
    (by decide!) (by rw [hfresh]; decide!)
  exact ⟨by decide!, by decide!, ⟨locals, fresh, results, h1, h2, h3, h4, h5, h6, h7, h8⟩,
    eresults, e3, e10⟩

/-! ## Facts about the ranking under a strict weak order -/

theorem strict_weak_on_asymm (l : List (String × D)) (h : strict_weak_on l)
    (a b : String × D) (ha : a ∈ l) (hb : b ∈ l) (hab : DoubleOps.gt a.2 b.2 = true) :
    DoubleOps.gt b.2 a.2 = false := by
  cases hba : DoubleOps.gt b.2 a.2 with
  | false => rfl
  | true =>
    have haa := h.2.1 a ha b hb a ha hab hba
    rw [h.1 a ha] at haa
    exact Bool.noConfusion haa

theorem strict_weak_on_neg_trans (l : List (String × D)) (h : strict_weak_on l)
    (a b c : String × D) (ha : a ∈ l) (hb : b ∈ l) (hc : c ∈ l)
    (hab : DoubleOps.gt a.2 b.2 = false) (hbc : DoubleOps.gt b.2 c.2 = false) :
    DoubleOps.gt a.2 c.2 = false := by
  cases hac : DoubleOps.gt a.2 c.2 with
  | false => rfl
  | true =>
    cases hba : DoubleOps.gt b.2 a.2 with
    | true =>
      have := h.2.1 b hb a ha c hc hba hac
      rw [hbc] at this
      exact Bool.noConfusion this
    | false =>
      cases hcb : DoubleOps.gt c.2 b.2 with
      | true =>
        have := h.2.1 a ha c hc b hb hac hcb
        rw [hab] at this
        exact Bool.noConfusion this
      | false =>
        have := (h.2.2 a ha b hb c hc hab hba hbc hcb).1
        rw [hac] at this
        exact Bool.noConfusion this

theorem sort_insert_ranked (results : List (String × D)) (h : strict_weak_on results)
    (x : String × D) (l : List (String × D)) (hx : x ∈ results)
    (hl : ∀ a ∈ l, a ∈ results)
    (hs : List.Pairwise (fun a b => DoubleOps.gt b.2 a.2 = false) l) :
    List.Pairwise (fun a b => DoubleOps.gt b.2 a.2 = false) (sort_insert revenue_desc x l) := by
  induction l with
  | nil => simp [sort_insert]
  | cons y ys ih =>
    rw [List.pairwise_cons] at hs
    have hy : y ∈ results := hl y (List.mem_cons_self y ys)
    have hys : ∀ a ∈ ys, a ∈ results := fun a ha => hl a (List.mem_cons_of_mem y ha)
    unfold sort_insert
    by_cases hc : revenue_desc y x = true
    · rw [if_pos hc, List.pairwise_cons]
      refine ⟨?_, ih hys hs.2⟩
      intro b hb
      rcases List.mem_cons.mp ((sort_insert_perm revenue_desc x ys).mem_iff.mp hb) with e | e
      · subst e
        exact strict_weak_on_asymm results h y b hy hx hc
      · exact hs.1 b e
    · rw [if_neg hc, List.pairwise_cons, List.pairwise_cons]
      have hyx : DoubleOps.gt y.2 x.2 = false := by
        simpa [revenue_desc] using hc
      refine ⟨?_, hs.1, hs.2⟩
      intro b hb
      rcases List.mem_cons.mp hb with e | e
      · subst e
        exact hyx
      · exact strict_weak_on_neg_trans results h b y x (hys b e) hy hx (hs.1 b e) hyx

theorem std_sort_ranked (results : List (String × D)) (h : strict_weak_on results)
    (l : List (String × D)) (hl : ∀ a ∈ l, a ∈ results) :
    List.Pairwise (fun a b => DoubleOps.gt b.2 a.2 = false) (std_sort revenue_desc l) := by
  induction l with
  | nil => exact List.Pairwise.nil
  | cons x xs ih =>
    unfold std_sort
    have hxs : ∀ a ∈ xs, a ∈ results := fun a ha => hl a (List.mem_cons_of_mem x ha)
    exact sort_insert_ranked results h x _ (hl x (List.mem_cons_self x xs))
      (fun a ha => hxs a ((std_sort_perm revenue_desc xs).mem_iff.mp ha)) (ih hxs)

/-! ## The comparison of binary64 numbers without NaN -/

theorem Binary64.gt_irrefl (x : Binary64) : Binary64.gt x x = false := by
  cases x with
  | nan => rfl
  | inf s => cases s <;> rfl
  | neg_zero => rfl
  | fin q => simp [Binary64.gt]

theorem Binary64.gt_trans (x y z : Binary64) (h1 : Binary64.gt x y = true)
    (h2 : Binary64.gt y z = true) : Binary64.gt x z = true := by
  cases x <;> cases y <;> cases z <;> simp_all [Binary64.gt] <;> linarith

theorem Binary64.gt_equiv_trans (x y z : Binary64) (hx : x ≠ Binary64.nan)
    (hy : y ≠ Binary64.nan) (hz : z ≠ Binary64.nan)
    (h1 : Binary64.gt x y = false) (h2 : Binary64.gt y x = false)
    (h3 : Binary64.gt y z = false) (h4 : Binary64.gt z y = false) :
    Binary64.gt x z = false ∧ Binary64.gt z x = false := by
  cases x <;> cases y <;> cases z <;> simp_all [Binary64.gt] <;> constructor <;> linarith

theorem Binary64.ge_iff_not_gt (x y : Binary64) (hx : x ≠ Binary64.nan)
    (hy : y ≠ Binary64.nan) : Binary64.ge x y = true ↔ Binary64.gt y x = false := by
  cases x <;> cases y <;> simp_all [Binary64.ge]

/-- In binary64 the comparison `>` orders the revenues of a list of entries as a
strict weak order when none of them is NaN. -/
theorem Binary64.strict_weak_on_of_no_nan (l : List (String × Binary64))
    (h : ∀ a ∈ l, a.2 ≠ Binary64.nan) : strict_weak_on l :=
  ⟨fun a _ => Binary64.gt_irrefl a.2,
    fun a _ b _ c _ h1 h2 => Binary64.gt_trans a.2 b.2 c.2 h1 h2,
    fun a ha b hb c hc h1 h2 h3 h4 =>
      Binary64.gt_equiv_trans a.2 b.2 c.2 (h a ha) (h b hb) (h c hc) h1 h2 h3 h4⟩

/-- In binary64, the ranked sequence of a results map without NaN is a
permutation of its entries in which every revenue is `>=` those after it. -/
theorem sorted_results_of_no_nan (results : ResultMap Binary64)
    (h : ∀ a ∈ results, a.2 ≠ Binary64.nan) :
    List.Perm (sorted_results results) results ∧
    List.Pairwise (fun a b => Binary64.ge a.2 b.2 = true) (sorted_results results) := by
  refine ⟨std_sort_perm revenue_desc results, ?_⟩
  have hs := std_sort_ranked results (Binary64.strict_weak_on_of_no_nan results h) results
    (fun _ ha => ha)
  have hmem : ∀ a ∈ sorted_results results, a.2 ≠ Binary64.nan := fun a ha =>
    h a ((std_sort_perm revenue_desc results).mem_iff.mp ha)
  exact (List.Pairwise.and_mem.mp hs).imp (fun ⟨ha, hb, hab⟩ =>
    (Binary64.ge_iff_not_gt _ _ (hmem _ ha) (hmem _ hb)).mpr hab)

/-! ## The claims on the ranking -/

/-- C6 as stated fails.  A lineitem whose extended price is NaN, which `std::stod`
reads from the text `nan`, is accepted with a NaN revenue and leaves NaN in the
results map.  In the results map `{CHINA -> 5, INDIA -> NaN}` neither revenue
is `>=` the other, so no arrangement of the two entries has the earlier revenue
`>=` the later one, the arrangement that the sort leaves included. -/
theorem sorted_results_nan_counterexample :
    executeQuery5 "ASIA" "2024-01-01" "2024-06-01" 1
      (with_lineitems scenario [⟨1000, 200, Binary64.nan, 0⟩]) [] =
        .ok (true, [("INDIA", Binary64.nan)]) ∧
    StdMap.WF [("CHINA", (5 : Binary64)), ("INDIA", Binary64.nan)] ∧
    Binary64.ge 5 Binary64.nan = false ∧
    Binary64.ge Binary64.nan 5 = false ∧
    sorted_results [("CHINA", (5 : Binary64)), ("INDIA", Binary64.nan)] =
      [("CHINA", 5), ("INDIA", Binary64.nan)] ∧
    ¬ List.Chain' (fun a b => Binary64.ge a.2 b.2 = true)
      (sorted_results [("CHINA", (5 : Binary64)), ("INDIA", Binary64.nan)]) ∧
    ¬ List.Chain' (fun a b => Binary64.ge a.2 b.2 = true)
      [("INDIA", Binary64.nan), ("CHINA", (5 : Binary64))] :=
  ⟨by decide!, by unfold StdMap.WF; decide!, by decide!, by decide!, by decide!,
    by
      have hs : sorted_results [("CHINA", (5 : Binary64)), ("INDIA", Binary64.nan)] =
          [("CHINA", 5), ("INDIA", Binary64.nan)] := by decide!
      rw [hs, List.chain'_pair]
      decide!,
    by
      rw [List.chain'_pair]
      decide!⟩

/-- C6, amended.  Ranking: for every results map whose revenues the comparison
`>` orders as a strict weak order, the sequence that `outputResults` builds and
sorts is a permutation of the map's entries and is descending by revenue: no
entry has a revenue greater than that of an entry before it, for every adjacent
pair and for every pair. -/
theorem sorted_results_ranked (results : ResultMap D) (h : strict_weak_on results) :
    List.Perm (sorted_results results) results ∧
    List.Chain' (fun a b => DoubleOps.gt b.2 a.2 = false) (sorted_results results) ∧
    List.Pairwise (fun a b => DoubleOps.gt b.2 a.2 = false) (sorted_results results) :=
  ⟨std_sort_perm revenue_desc results,
    List.Pairwise.chain' (std_sort_ranked results h results (fun _ ha => ha)),
    std_sort_ranked results h results (fun _ ha => ha)⟩

/-- C6, witness: the results map `{CHINA -> 5, INDIA -> 90, JAPAN -> 7}` is ranked
INDIA, JAPAN, CHINA, each revenue `>=` those after it. -/
theorem sorted_results_ranked_witness :
    sorted_results [("CHINA", (5 : Binary64)), ("INDIA", 90), ("JAPAN", 7)] =
      [("INDIA", 90), ("JAPAN", 7), ("CHINA", 5)] ∧
    List.Pairwise (fun a b => Binary64.ge a.2 b.2 = true)
      (sorted_results [("CHINA", (5 : Binary64)), ("INDIA", 90), ("JAPAN", 7)]) ∧
    List.Perm (sorted_results [("CHINA", (5 : Binary64)), ("INDIA", 90), ("JAPAN", 7)])
      [("CHINA", (5 : Binary64)), ("INDIA", 90), ("JAPAN", 7)] ∧
    List.Chain' (fun a b => DoubleOps.gt b.2 a.2 = false)
      (sorted_results [("CHINA", (5 : Binary64)), ("INDIA", 90), ("JAPAN", 7)]) :=
  ⟨by decide!, by decide!,
    (sorted_results_ranked [("CHINA", (5 : Binary64)), ("INDIA", 90), ("JAPAN", 7)]
      (by unfold strict_weak_on; decide!)).1,
    (sorted_results_ranked [("CHINA", (5 : Binary64)), ("INDIA", 90), ("JAPAN", 7)]
      (by unfold strict_weak_on; decide!)).2.1⟩

end Query5
